import Mathlib

/-!
# Particle filter of the kidnapped-vehicle project

A shallow embedding of `src/particle_filter.cpp` and the properties of its
four operations `init`, `prediction`, `updateWeights` and `resample`.

* `double` is read as a scalar type `R` carrying a linear ordered field; the
  definitions are computable for every such `R`, and the theorems about the
  program over the reals take `R = ℝ`. Division by zero is the field's
  `x / 0 = 0`; the theorems about normalisation assume a non-zero total.
* The libm functions `cos`, `sin`, `exp`, `sqrt` and the constant `M_PI` are
  arguments of the definitions that call them; `pow(a, 2)` is `a ^ 2` and
  `abs` is the absolute value of `R`.
* The draws taken from the random engine during one call are arguments of
  that call: `n_x i` is the value `n_x(gen)` returns in iteration `i`.
* `std::vector` is `List`; a read or write past the end of a vector is a
  fault, and the operation then returns `none`.
* `int` is `Int` for ids and `Nat` for `num_particles` and indices, which the
  program never makes negative.
* The while loop of `resample` runs on fuel; a theorem that it returns gives a
  fuel bound from which the result no longer changes.
* `dataAssociation` is read with every computed distance below the initial
  `min_dist`, the largest double; `dataAssociationFrom` keeps that bound as a
  value and covers the runs in which a computed distance is not below it.
* Every definition taken from the program is computable; `u_real_prob` and
  `firstSlotProb`, the probability of the first slot under uniform draws, are
  stated with the Lebesgue measure.
-/

namespace KidnappedVehicle

/-! ## Data model -/

/-- The struct `Particle` of the filter. -/
structure Particle (R : Type) where
  id : Int
  x : R
  y : R
  theta : R
  weight : R
  associations : List Int
  sense_x : List R
  sense_y : List R

/-- The struct `LandmarkObs`: an observation or a predicted landmark. -/
structure LandmarkObs (R : Type) where
  id : Int
  x : R
  y : R

/-- The struct `Map::single_landmark_s`: one entry of the map. -/
structure single_landmark_s (R : Type) where
  id_i : Int
  x_f : R
  y_f : R

/-- The class `Map`. -/
structure Map (R : Type) where
  landmark_list : List (single_landmark_s R)

/-- The data members of the class `ParticleFilter`. -/
structure ParticleFilter (R : Type) where
  num_particles : Nat
  is_initialized : Bool
  particles : List (Particle R)
  weights : List R

/-- The filter as its constructor leaves it: `num_particles(0)`,
`is_initialized(false)` and two empty vectors. -/
def emptyFilter (R : Type) : ParticleFilter R :=
  { num_particles := 0, is_initialized := false, particles := [], weights := [] }

/-! ## Loops -/

/-- The state after the first `n` iterations of
`for (int i = 0; i < N; i++) body`, where an iteration can fault. -/
def iterate {σ : Type} (body : Nat → σ → Option σ) : Nat → σ → Option σ
  | 0, s => some s
  | n + 1, s => (iterate body n s).bind (body n)

/-! ## init -/

/-- One iteration of the loop of `init` (lines 43-53). -/
def initStep {R : Type} [LinearOrderedField R] (x y theta : R) (n_x n_y n_theta : Nat → R)
    (i : Nat) (pf : ParticleFilter R) : Option (ParticleFilter R) :=
  let p : Particle R :=
    { id := (i : Int), x := x + n_x i, y := y + n_y i, theta := theta + n_theta i,
      weight := 1, associations := [], sense_x := [], sense_y := [] }
  some { pf with particles := pf.particles ++ [p], weights := pf.weights ++ [p.weight] }

/-- `ParticleFilter::init` (lines 24-57). The array `std` only parametrises the
three normal distributions, whose samples are `n_x`, `n_y` and `n_theta`. -/
def init {R : Type} [LinearOrderedField R] (x y theta : R) (n_x n_y n_theta : Nat → R)
    (pf : ParticleFilter R) : Option (ParticleFilter R) :=
  let pf1 : ParticleFilter R := { pf with num_particles := 10 }
  (iterate (initStep x y theta n_x n_y n_theta) pf1.num_particles pf1).map
    (fun pf2 => { pf2 with is_initialized := true })

/-! ## prediction -/

/-- The body of the loop of `prediction` for one particle (lines 74-89);
`nx`, `ny`, `nt` are the three noise draws of this iteration. -/
def predictOne {R : Type} [LinearOrderedField R] (cos sin : R → R)
    (delta_t velocity yaw_rate nx ny nt : R) (p : Particle R) : Particle R :=
  let p1 : Particle R :=
    if |yaw_rate| = 0 then
      { p with
        x := p.x + velocity * delta_t * cos p.theta,
        y := p.y + velocity * delta_t * sin p.theta }
    else
      { p with
        x := p.x + velocity / yaw_rate * (sin (p.theta + yaw_rate * delta_t) - sin p.theta),
        y := p.y + velocity / yaw_rate * (cos p.theta - cos (p.theta + yaw_rate * delta_t)),
        theta := p.theta + yaw_rate * delta_t }
  { p1 with x := p1.x + nx, y := p1.y + ny, theta := p1.theta + nt }

/-- The assignment `v[i] = f(i, v[i])` on a vector: the element is read and
written back; an index past the end is a fault. -/
def updateAt {α : Type} (f : Nat → α → α) (i : Nat) (v : List α) : Option (List α) :=
  (v[i]?).map (fun a => v.set i (f i a))

/-- `ParticleFilter::prediction` (lines 59-92): the loop runs `num_particles`
times over `particles[i]`; `n_x i`, `n_y i`, `n_theta i` are the draws of
iteration `i`. -/
def prediction {R : Type} [LinearOrderedField R] (cos sin : R → R)
    (delta_t : R) (n_x n_y n_theta : Nat → R) (velocity yaw_rate : R)
    (pf : ParticleFilter R) : Option (ParticleFilter R) :=
  (iterate
    (updateAt (fun i p =>
      predictOne cos sin delta_t velocity yaw_rate (n_x i) (n_y i) (n_theta i) p))
    pf.num_particles pf.particles).map
    (fun ps => { pf with particles := ps })

/-! ## dataAssociation -/

/-- Modelled from the spec: the helper `dist` of `helper_functions.h`, which is
called here and is not among the sources; the spec names it the Euclidean
distance between `(x1, y1)` and `(x2, y2)`. -/
def dist {R : Type} [LinearOrderedField R] (sqrt : R → R) (x1 y1 x2 y2 : R) : R :=
  sqrt ((x2 - x1) ^ 2 + (y2 - y1) ^ 2)

/-- The test `cur_dist < min_dist` (line 125) in the runs where every distance
the loop computes is below the initial `min_dist` of line 111, which is written
`none`: the test against `none` succeeds. A run that computes a distance not
below `numeric_limits<double>::max()` is outside this reading; `nearestIdFrom`
keeps the initial bound as a value and covers it. -/
def belowMin {R : Type} [LinearOrderedField R] (cur_dist : R) : Option R → Bool
  | none => true
  | some min_dist => decide (cur_dist < min_dist)

/-- One iteration of the inner loop of `dataAssociation` (lines 116-129) on
the pair `(min_dist, map_id)`. -/
def nearestStep {R : Type} [LinearOrderedField R] (sqrt : R → R) (obs : LandmarkObs R)
    (st : Option R × Int) (pred : LandmarkObs R) : Option R × Int :=
  let cur_dist := dist sqrt obs.x obs.y pred.x pred.y
  if belowMin cur_dist st.1 then (some cur_dist, pred.id) else st

/-- The value of `map_id` after the inner loop over `predicted`; it starts
at `-1` (line 114). -/
def nearestId {R : Type} [LinearOrderedField R] (sqrt : R → R)
    (predicted : List (LandmarkObs R)) (obs : LandmarkObs R) : Int :=
  (predicted.foldl (nearestStep sqrt obs) (none, -1)).2

/-- `ParticleFilter::dataAssociation` (lines 94-136); the vector
`observations`, updated in place by the source, is returned. -/
def dataAssociation {R : Type} [LinearOrderedField R] (sqrt : R → R)
    (predicted observations : List (LandmarkObs R)) : List (LandmarkObs R) :=
  observations.map (fun obs => { obs with id := nearestId sqrt predicted obs })

/-- The value of `numeric_limits<double>::max()` (line 111) for the IEEE 754
binary64 `double`: `(2 ^ 53 - 1) * 2 ^ 971`, about `1.7976931348623157e308`. -/
def numeric_limits_max (R : Type) [LinearOrderedField R] : R :=
  (2 ^ 53 - 1) * 2 ^ 971

/-- One iteration of the inner loop of `dataAssociation` (lines 116-129) on
the pair `(min_dist, map_id)`, with `min_dist` a scalar as in the source. -/
def nearestStepFrom {R : Type} [LinearOrderedField R] (sqrt : R → R) (obs : LandmarkObs R)
    (st : R × Int) (pred : LandmarkObs R) : R × Int :=
  let cur_dist := dist sqrt obs.x obs.y pred.x pred.y
  if cur_dist < st.1 then (cur_dist, pred.id) else st

/-- The value of `map_id` after the inner loop over `predicted`, when
`min_dist` starts at `max_double`, the value of
`numeric_limits<double>::max()` (line 111), and `map_id` at `-1` (line 114). -/
def nearestIdFrom {R : Type} [LinearOrderedField R] (sqrt : R → R) (max_double : R)
    (predicted : List (LandmarkObs R)) (obs : LandmarkObs R) : Int :=
  (predicted.foldl (nearestStepFrom sqrt obs) (max_double, -1)).2

/-- `ParticleFilter::dataAssociation` (lines 94-136) with the initial bound
`max_double` of line 111 kept as a value; the vector `observations`, updated
in place by the source, is returned. -/
def dataAssociationFrom {R : Type} [LinearOrderedField R] (sqrt : R → R) (max_double : R)
    (predicted observations : List (LandmarkObs R)) : List (LandmarkObs R) :=
  observations.map (fun obs => { obs with id := nearestIdFrom sqrt max_double predicted obs })

/-! ## updateWeights -/

/-- The landmarks kept by the loop of lines 165-177. -/
def sensorRangePred {R : Type} [LinearOrderedField R] (sqrt : R → R) (sensor_range : R)
    (map_landmarks : Map R) (p_x p_y : R) : List (LandmarkObs R) :=
  map_landmarks.landmark_list.foldl
    (fun sensor_range_pred lm =>
      let d := dist sqrt lm.x_f lm.y_f p_x p_y
      if d ≤ sensor_range then
        sensor_range_pred ++ [{ id := lm.id_i, x := lm.x_f, y := lm.y_f }]
      else sensor_range_pred)
    []

/-- The observations in map coordinates, built by the loop of lines 180-187. -/
def transObs {R : Type} [LinearOrderedField R] (cos sin : R → R) (p_x p_y p_theta : R)
    (observations : List (LandmarkObs R)) : List (LandmarkObs R) :=
  observations.foldl
    (fun trans_obs o =>
      let obs_x := cos p_theta * o.x - sin p_theta * o.y + p_x
      let obs_y := sin p_theta * o.x + cos p_theta * o.y + p_y
      trans_obs ++ [{ id := o.id, x := obs_x, y := obs_y }])
    []

/-- The pair `(pred_x, pred_y)` after the loop of lines 210-215. The two
variables are declared without a value (line 207): `uninit` is what they hold
before the loop. -/
def lookupPred {R : Type} (sensor_range_pred : List (LandmarkObs R)) (pred_lm_id : Int)
    (uninit : R × R) : R × R :=
  sensor_range_pred.foldl
    (fun pred lm => if lm.id = pred_lm_id then (lm.x, lm.y) else pred)
    uninit

/-- The factor `w` of one observation (lines 196-220). -/
def obsWeight {R : Type} [LinearOrderedField R] (exp : R → R) (pi : R) (std_landmark : R × R)
    (pred_x pred_y obs_x obs_y : R) : R :=
  let sig_x := std_landmark.1
  let sig_y := std_landmark.2
  let multiplier := 1 / (2 * pi * sig_x * sig_y)
  let sig_x_sq := sig_x ^ 2
  let sig_y_sq := sig_y ^ 2
  multiplier * exp (-((pred_x - obs_x) ^ 2 / (2 * sig_x_sq)
    + (pred_y - obs_y) ^ 2 / (2 * sig_y_sq)))

/-- The loop of lines 202-224 from observation `j` on, with the weight so far. -/
def weightLoop {R : Type} [LinearOrderedField R] (exp : R → R) (pi : R) (std_landmark : R × R)
    (sensor_range_pred : List (LandmarkObs R)) (uninit : Nat → R × R) :
    Nat → List (LandmarkObs R) → R → R
  | _, [], weight => weight
  | j, o :: rest, weight =>
    let pred := lookupPred sensor_range_pred o.id (uninit j)
    let w := obsWeight exp pi std_landmark pred.1 pred.2 o.x o.y
    weightLoop exp pi std_landmark sensor_range_pred uninit (j + 1) rest (weight * w)

/-- The weight of one particle before normalisation (lines 160-224);
`uninit j` is what `pred_x`, `pred_y` hold when declared for observation `j`. -/
def particleWeight {R : Type} [LinearOrderedField R] (cos sin exp sqrt : R → R) (pi : R)
    (sensor_range : R) (std_landmark : R × R) (observations : List (LandmarkObs R))
    (map_landmarks : Map R) (uninit : Nat → R × R) (p : Particle R) : R :=
  let sensor_range_pred := sensorRangePred sqrt sensor_range map_landmarks p.x p.y
  let trans_obs :=
    dataAssociation sqrt sensor_range_pred (transObs cos sin p.x p.y p.theta observations)
  weightLoop exp pi std_landmark sensor_range_pred uninit 0 trans_obs 1

/-- The weights of all particles before normalisation, in particle order. -/
def rawWeights {R : Type} [LinearOrderedField R] (cos sin exp sqrt : R → R) (pi : R)
    (sensor_range : R) (std_landmark : R × R) (observations : List (LandmarkObs R))
    (map_landmarks : Map R) (uninit : Nat → Nat → R × R) (ps : List (Particle R)) : List R :=
  ps.mapIdx (fun i p =>
    particleWeight cos sin exp sqrt pi sensor_range std_landmark observations map_landmarks
      (uninit i) p)

/-- One iteration of the first loop of `updateWeights` (lines 158-227) on the
pair `(particles, sum_weights)`. -/
def scoreStep {R : Type} [LinearOrderedField R] (cos sin exp sqrt : R → R) (pi : R)
    (sensor_range : R) (std_landmark : R × R) (observations : List (LandmarkObs R))
    (map_landmarks : Map R) (uninit : Nat → Nat → R × R)
    (i : Nat) (st : List (Particle R) × R) : Option (List (Particle R) × R) :=
  (st.1[i]?).map (fun p =>
    let weight := particleWeight cos sin exp sqrt pi sensor_range std_landmark observations
      map_landmarks (uninit i) p
    (st.1.set i { p with weight := weight }, st.2 + weight))

/-- One iteration of the second loop of `updateWeights` (lines 230-233) on the
pair `(particles, weights)`. -/
def normalizeStep {R : Type} [LinearOrderedField R] (sum_weights : R)
    (i : Nat) (st : List (Particle R) × List R) : Option (List (Particle R) × List R) :=
  match st.1[i]? with
  | none => none
  | some p =>
    let q : Particle R := { p with weight := p.weight / sum_weights }
    if i < st.2.length then some (st.1.set i q, st.2.set i q.weight) else none

/-- `ParticleFilter::updateWeights` (lines 138-235). -/
def updateWeights {R : Type} [LinearOrderedField R] (cos sin exp sqrt : R → R) (pi : R)
    (sensor_range : R) (std_landmark : R × R) (observations : List (LandmarkObs R))
    (map_landmarks : Map R) (uninit : Nat → Nat → R × R)
    (pf : ParticleFilter R) : Option (ParticleFilter R) :=
  (iterate
    (scoreStep cos sin exp sqrt pi sensor_range std_landmark observations map_landmarks uninit)
    pf.num_particles (pf.particles, 0)).bind
    (fun st =>
      (iterate (normalizeStep st.2) st.1.length (st.1, pf.weights)).map
        (fun st2 => { pf with particles := st2.1, weights := st2.2 }))

/-! ## resample -/

/-- The value `*max_element(weights.begin(), weights.end())`: the largest
entry, `none` for an empty vector (the end iterator is dereferenced). -/
def max_element {R : Type} [LinearOrderedField R] : List R → Option R
  | [] => none
  | w :: ws => some (ws.foldl (fun largest a => if largest < a then a else largest) w)

/-- The loop `while (beta > weights[index])` (lines 261-264) on the pair
`(beta, index)`; `fuel` bounds the number of times the condition is tested,
and `none` is a read past the end of `weights` or the end of the fuel. -/
def wheel {R : Type} [LinearOrderedField R] (weights : List R) (num_particles : Nat) :
    Nat → R → Nat → Option (R × Nat)
  | 0, _, _ => none
  | fuel + 1, beta, index =>
    match weights[index]? with
    | none => none
    | some w =>
      if beta > w then wheel weights num_particles fuel (beta - w) ((index + 1) % num_particles)
      else some (beta, index)

/-- One iteration of the loop of `resample` (lines 259-266) on the triple
`(new_particles, beta, index)`; `draw` is the value of `u_real_dist(gen)`. -/
def resampleStep {R : Type} [LinearOrderedField R] (fuel : Nat) (pf : ParticleFilter R)
    (draw : Nat → R) (i : Nat) (st : List (Particle R) × R × Nat) :
    Option (List (Particle R) × R × Nat) :=
  (wheel pf.weights pf.num_particles fuel (st.2.1 + draw i) st.2.2).bind (fun bi =>
    (pf.particles[bi.2]?).map (fun p => (st.1 ++ [p], bi.1, bi.2)))

/-- `ParticleFilter::resample` (lines 237-268). `u_int_dist` is the start index
drawn at line 249 and `u_real_dist max_weight i` the draw of iteration `i` from
the distribution built with `max_weight` at line 255. -/
def resample {R : Type} [LinearOrderedField R] (fuel : Nat) (u_int_dist : Nat)
    (u_real_dist : R → Nat → R) (pf : ParticleFilter R) : Option (ParticleFilter R) :=
  (max_element pf.weights).bind (fun m =>
    let max_weight := 2 * m
    (iterate (resampleStep fuel pf (u_real_dist max_weight)) pf.num_particles
      ([], 0, u_int_dist)).map
      (fun st => { pf with particles := st.1 }))

/-! ## Specification predicates -/

/-- Landmark `l` sits at index `k` of `predicted`, no element of `predicted` is
closer to `obs` than `l`, and every element before index `k` is strictly
farther: `l` is the first nearest element. -/
def IsFirstNearest {R : Type} [LinearOrderedField R] (sqrt : R → R)
    (predicted : List (LandmarkObs R)) (obs : LandmarkObs R) (k : Nat) (l : LandmarkObs R) :
    Prop :=
  predicted[k]? = some l
  ∧ (∀ (j : Nat) (l' : LandmarkObs R), predicted[j]? = some l' →
      dist sqrt obs.x obs.y l.x l.y ≤ dist sqrt obs.x obs.y l'.x l'.y)
  ∧ (∀ (j : Nat) (l' : LandmarkObs R), j < k → predicted[j]? = some l' →
      dist sqrt obs.x obs.y l.x l.y < dist sqrt obs.x obs.y l'.x l'.y)

/-- The map landmarks within `sensor_range` of `(p_x, p_y)`, boundary included,
in map order, as the spec words the candidate list. -/
def inRangeLandmarks {R : Type} [LinearOrderedField R] (sqrt : R → R) (sensor_range : R)
    (map_landmarks : Map R) (p_x p_y : R) : List (LandmarkObs R) :=
  (map_landmarks.landmark_list.filter
    (fun lm => decide (dist sqrt lm.x_f lm.y_f p_x p_y ≤ sensor_range))).map
    (fun lm => { id := lm.id_i, x := lm.x_f, y := lm.y_f })

/-- An observation in the map frame of particle `p`, as the spec words it:
rotated by `p.theta`, then translated by `(p.x, p.y)`. -/
def toMapFrame {R : Type} [LinearOrderedField R] (cos sin : R → R) (p : Particle R)
    (o : LandmarkObs R) : LandmarkObs R :=
  { id := o.id
    x := cos p.theta * o.x - sin p.theta * o.y + p.x
    y := sin p.theta * o.x + cos p.theta * o.y + p.y }

/-- The loop invariant of the inner loop of `dataAssociation`. -/
def NearestInv {R : Type} [LinearOrderedField R] (sqrt : R → R)
    (seen : List (LandmarkObs R)) (obs : LandmarkObs R) (st : Option R × Int) : Prop :=
  (seen = [] ∧ st = (none, -1))
  ∨ ∃ k l, IsFirstNearest sqrt seen obs k l ∧ st = (some (dist sqrt obs.x obs.y l.x l.y), l.id)

/-- The loop invariant of the inner loop of `dataAssociation` when `min_dist`
starts at `max_double`: either no element seen so far is at a distance below
`max_double` and the pair is untouched, or the pair holds the first nearest
element seen so far, which is at a distance below `max_double`. -/
def NearestFromInv {R : Type} [LinearOrderedField R] (sqrt : R → R) (max_double : R)
    (seen : List (LandmarkObs R)) (obs : LandmarkObs R) (st : R × Int) : Prop :=
  ((∀ l ∈ seen, ¬ dist sqrt obs.x obs.y l.x l.y < max_double) ∧ st = (max_double, -1))
  ∨ ∃ k l, IsFirstNearest sqrt seen obs k l ∧ dist sqrt obs.x obs.y l.x l.y < max_double
      ∧ st = (dist sqrt obs.x obs.y l.x l.y, l.id)

/-! ## Reachable states and sample data -/

/-- The states of the filter's life cycle: one call of `init` on the filter
the constructor built, then any finite sequence of returning calls of
`prediction`, `updateWeights` and `resample`, with any arguments and draws. -/
inductive Reachable {R : Type} [LinearOrderedField R] (cos sin exp sqrt : R → R) (pi : R) :
    ParticleFilter R → Prop
  | init (x y theta : R) (n_x n_y n_theta : Nat → R) (pf : ParticleFilter R)
      (h : init x y theta n_x n_y n_theta (emptyFilter R) = some pf) :
      Reachable cos sin exp sqrt pi pf
  | prediction (delta_t : R) (n_x n_y n_theta : Nat → R) (velocity yaw_rate : R)
      (pf pf' : ParticleFilter R) (hr : Reachable cos sin exp sqrt pi pf)
      (h : prediction cos sin delta_t n_x n_y n_theta velocity yaw_rate pf = some pf') :
      Reachable cos sin exp sqrt pi pf'
  | updateWeights (sensor_range : R) (std_landmark : R × R)
      (observations : List (LandmarkObs R)) (map_landmarks : Map R)
      (uninit : Nat → Nat → R × R)
      (pf pf' : ParticleFilter R) (hr : Reachable cos sin exp sqrt pi pf)
      (h : updateWeights cos sin exp sqrt pi sensor_range std_landmark observations
        map_landmarks uninit pf = some pf') :
      Reachable cos sin exp sqrt pi pf'
  | resample (fuel : Nat) (u_int_dist : Nat) (u_real_dist : R → Nat → R)
      (pf pf' : ParticleFilter R) (hr : Reachable cos sin exp sqrt pi pf)
      (h : resample fuel u_int_dist u_real_dist pf = some pf') :
      Reachable cos sin exp sqrt pi pf'

/-- A particle of weight 1 that carries no diagnostics. -/
def mkParticle {R : Type} [LinearOrderedField R] (id : Int) (x y theta : R) : Particle R :=
  { id := id, x := x, y := y, theta := theta, weight := 1, associations := [],
    sense_x := [], sense_y := [] }

/-- A filter of two particles, at `(0, 0)` and `(3, 0)`, both heading along x. -/
def sampleFilter (R : Type) [LinearOrderedField R] : ParticleFilter R :=
  { num_particles := 2, is_initialized := true,
    particles := [mkParticle 0 0 0 0, mkParticle 1 3 0 0], weights := [1, 1] }

/-- A map of two landmarks, at `(1, 0)` and `(4, 0)`. -/
def sampleMap (R : Type) [LinearOrderedField R] : Map R :=
  { landmark_list := [{ id_i := 1, x_f := 1, y_f := 0 }, { id_i := 2, x_f := 4, y_f := 0 }] }

/-- One observation, one unit ahead of the vehicle. -/
def sampleObs (R : Type) [LinearOrderedField R] : List (LandmarkObs R) :=
  [{ id := 0, x := 1, y := 0 }]

/-- One cycle on a fresh filter: `init` at the origin without noise, `resample`
from start index 3 with every draw `1 / 2`, `prediction` straight ahead, and
`updateWeights` with the sample observation and map. -/
def demoCycle {R : Type} [LinearOrderedField R] (cos sin exp sqrt : R → R) (pi : R) :
    Option (ParticleFilter R) :=
  (((init 0 0 0 (fun _ => 0) (fun _ => 0) (fun _ => 0) (emptyFilter R)).bind
    (resample 3 3 (fun _ _ => 1 / 2))).bind
    (prediction cos sin 1 (fun _ => 0) (fun _ => 0) (fun _ => 0) 10 0)).bind
    (updateWeights cos sin exp sqrt pi 50 (1, 1) (sampleObs R) (sampleMap R) (fun _ _ => (0, 0)))

/-! ## Further sample data and specification definitions -/

/-- A map whose only landmark, at `(100, 0)`, is out of a range of 50 from the
origin. -/
def farMap (R : Type) [LinearOrderedField R] : Map R :=
  { landmark_list := [{ id_i := 1, x_f := 100, y_f := 0 }] }

/-- The filter `init` builds at the origin when every draw is zero. -/
def freshFilter (R : Type) [LinearOrderedField R] : ParticleFilter R :=
  { num_particles := 10, is_initialized := true,
    particles := (List.range 10).map (fun (i : Nat) => mkParticle (i : Int) 0 0 0),
    weights := List.replicate 10 1 }

/-- The states reached by one call of `init` on the filter the constructor
built, then any finite sequence of calls of `prediction` and `updateWeights`,
with any arguments and draws and no call of `resample`. -/
inductive ReachableWithoutResample {R : Type} [LinearOrderedField R]
    (cos sin exp sqrt : R → R) (pi : R) : ParticleFilter R → Prop
  | init (x y theta : R) (n_x n_y n_theta : Nat → R) (pf : ParticleFilter R)
      (h : init x y theta n_x n_y n_theta (emptyFilter R) = some pf) :
      ReachableWithoutResample cos sin exp sqrt pi pf
  | prediction (delta_t : R) (n_x n_y n_theta : Nat → R) (velocity yaw_rate : R)
      (pf pf' : ParticleFilter R) (hr : ReachableWithoutResample cos sin exp sqrt pi pf)
      (h : prediction cos sin delta_t n_x n_y n_theta velocity yaw_rate pf = some pf') :
      ReachableWithoutResample cos sin exp sqrt pi pf'
  | updateWeights (sensor_range : R) (std_landmark : R × R)
      (observations : List (LandmarkObs R)) (map_landmarks : Map R)
      (uninit : Nat → Nat → R × R)
      (pf pf' : ParticleFilter R) (hr : ReachableWithoutResample cos sin exp sqrt pi pf)
      (h : updateWeights cos sin exp sqrt pi sensor_range std_landmark observations
        map_landmarks uninit pf = some pf') :
      ReachableWithoutResample cos sin exp sqrt pi pf'

/-- One pass through the body of the while loop (lines 262-263): the weight at
`index` is subtracted from `beta` and `index` advances modulo `num_particles`. -/
def wheelStep {R : Type} [LinearOrderedField R] (weights : List R) (num_particles : Nat)
    (s : R × Nat) : R × Nat :=
  (s.1 - weights.getD s.2 0, (s.2 + 1) % num_particles)

/-- The weights of the skewed example. -/
def skewedWeights (R : Type) [LinearOrderedField R] : List R :=
  [97 / 100, 1 / 100, 1 / 100, 1 / 100]

/-- The weights of a skewed example on ten particles, the number `init` sets:
one large and nine small, with sum 1. -/
def tenWeights (R : Type) [LinearOrderedField R] : List R :=
  [91 / 100, 1 / 100, 1 / 100, 1 / 100, 1 / 100, 1 / 100, 1 / 100, 1 / 100, 1 / 100, 1 / 100]

/-- The values `u` of the first draw for which the first while loop of
`resample`, started at index `start` with `beta = 0 + u`, stops at index `i`:
the first slot then holds particle `i`. -/
def firstSlotDraws (weights : List ℝ) (start i : Nat) : Set ℝ :=
  {u | ∃ fuel, (wheel weights weights.length fuel (0 + u) start).map Prod.snd = some i}

/-- The probability that one draw of
`uniform_real_distribution<double>(0.0, max_weight)` (line 255) lies in `S`,
for `0 ≤ max_weight`: the share of `[0, max_weight)` that `S` covers when
`max_weight` is positive; when `max_weight` is 0 every draw is 0, and the
probability is 1 or 0 as `S` holds 0 or not. -/
noncomputable def u_real_prob (max_weight : ℝ) (S : Set ℝ) : ℝ :=
  if 0 < max_weight then
    (MeasureTheory.volume (S ∩ Set.Ico 0 max_weight)).toReal / max_weight
  else Set.indicator S (fun _ => 1) 0

/-- The probability that the first slot of the set produced by `resample`
holds particle `i`, as the claim words the draws: the start index uniform on
`0, ..., n - 1` and the first draw from the distribution of line 255, so the
average over the start indices of the probability of the draws that stop the
first while loop at `i`. It is `none` where `resample` has no defined
behaviour: on an empty `weights`, where `max_element` returns the end
iterator, and on a negative `max_weight`, which the distribution excludes. -/
noncomputable def firstSlotProb (weights : List ℝ) (i : Nat) : Option ℝ :=
  match max_element weights with
  | none => none
  | some m =>
    if 2 * m < 0 then none
    else some
      ((Finset.sum (Finset.range weights.length) (fun start =>
        u_real_prob (2 * m) (firstSlotDraws weights start i))) / weights.length)

/-! ## Lemmas on loops -/

/-- After `n` iterations the first `n` entries hold `f i v[i]` and the others are
untouched; no iteration faults while `n` is within the vector. -/
theorem iterate_updateAt {α : Type} (f : Nat → α → α) (v : List α) :
    ∀ n, n ≤ v.length →
      iterate (updateAt f) n v = some (v.mapIdx (fun i a => if i < n then f i a else a))
  | 0, _ => by
      simp only [iterate, Nat.not_lt_zero, if_false]
      congr 1
      apply List.ext_getElem? ; intro i
      simp
  | n + 1, h => by
      have hn : n < v.length := h
      rw [iterate, iterate_updateAt f v n (Nat.le_of_lt hn)]
      simp only [Option.some_bind, updateAt]
      rw [List.getElem?_mapIdx, List.getElem?_eq_getElem hn]
      simp only [Option.map_some', lt_self_iff_false, if_false]
      congr 1
      apply List.ext_getElem? ; intro i
      rw [List.getElem?_set, List.getElem?_mapIdx, List.getElem?_mapIdx]
      by_cases hi : n = i
      · subst hi
        simp [hn]
      · simp only [hi, if_false]
        by_cases hlt : i < n
        · simp [hlt, Nat.lt_succ_of_lt hlt]
        · have : ¬ i < n + 1 := by omega
          simp [hlt, this]

/-- A loop over the whole vector maps `f` over it. -/
theorem iterate_updateAt_length {α : Type} (f : Nat → α → α) (v : List α) :
    iterate (updateAt f) v.length v = some (v.mapIdx f) := by
  rw [iterate_updateAt f v v.length (Nat.le_refl _)]
  congr 1
  apply List.ext_getElem? ; intro i
  rw [List.getElem?_mapIdx, List.getElem?_mapIdx]
  by_cases hi : i < v.length
  · simp [hi]
  · simp [List.getElem?_eq_none (Nat.le_of_not_lt hi)]

/-! ## init and prediction -/

/-- What `init` returns on the filter the constructor built. -/
theorem init_eq {R : Type} [LinearOrderedField R] (x y theta : R)
    (n_x n_y n_theta : Nat → R) :
    init x y theta n_x n_y n_theta (emptyFilter R) = some
      { num_particles := 10
        is_initialized := true
        particles := (List.range 10).map (fun (i : Nat) =>
          { id := (i : Int), x := x + n_x i, y := y + n_y i, theta := theta + n_theta i,
            weight := 1, associations := [], sense_x := [], sense_y := [] })
        weights := List.replicate 10 1 } := by
  simp [init, iterate, initStep, emptyFilter, List.range_succ, List.replicate]

/-- Claim C3: on an empty filter `init` sets `num_particles` to 10 and builds
10 particles, particle `i` with id `i`, weight 1 and pose
`(x + n_x i, y + n_y i, theta + n_theta i)` from its own three draws, pushes a
weight 1 for each of them and sets `is_initialized`; when every draw is zero
each particle sits at `(x, y, theta)`. -/
theorem init_emptyFilter {R : Type} [LinearOrderedField R] (x y theta : R)
    (n_x n_y n_theta : Nat → R) :
    init x y theta n_x n_y n_theta (emptyFilter R) = some
      { num_particles := 10
        is_initialized := true
        particles := (List.range 10).map (fun (i : Nat) =>
          { id := (i : Int), x := x + n_x i, y := y + n_y i, theta := theta + n_theta i,
            weight := 1, associations := [], sense_x := [], sense_y := [] })
        weights := List.replicate 10 1 }
    ∧ ∃ pf, init x y theta (fun _ => 0) (fun _ => 0) (fun _ => 0) (emptyFilter R) = some pf
        ∧ pf.particles.length = pf.num_particles
        ∧ pf.weights.length = pf.num_particles
        ∧ pf.is_initialized = true
        ∧ ∀ p ∈ pf.particles, p.x = x ∧ p.y = y ∧ p.theta = theta ∧ p.weight = 1 := by
  refine ⟨init_eq x y theta n_x n_y n_theta, _, init_eq x y theta _ _ _, ?_⟩
  simp

/-- What `prediction` returns on a filter whose particle vector has
`num_particles` entries: every particle goes through `predictOne` with its own
draws, and nothing else changes. -/
theorem prediction_eq {R : Type} [LinearOrderedField R] (cos sin : R → R)
    (delta_t : R) (n_x n_y n_theta : Nat → R) (velocity yaw_rate : R)
    (pf : ParticleFilter R) (h : pf.particles.length = pf.num_particles) :
    prediction cos sin delta_t n_x n_y n_theta velocity yaw_rate pf = some
      { pf with particles := pf.particles.mapIdx (fun i p =>
          predictOne cos sin delta_t velocity yaw_rate (n_x i) (n_y i) (n_theta i) p) } := by
  unfold prediction
  rw [← h, iterate_updateAt_length]
  rfl

/-- An indexed map that ignores the index is a map. -/
theorem mapIdx_const_fun {α β : Type} (f : α → β) (l : List α) :
    l.mapIdx (fun _ a => f a) = l.map f := by
  apply List.ext_getElem? ; intro i
  simp

/-- Claim C4: on a filter whose particle vector has `num_particles` entries,
`prediction` with `yaw_rate = 0` moves particle `i` from `(x, y, theta)` to
`(x + v * delta_t * cos theta + n_x i, y + v * delta_t * sin theta + n_y i,
theta + n_theta i)`: the draws are added after the motion update; with all
draws zero the pose is `(x + v * delta_t * cos theta, y + v * delta_t * sin theta)`
and `theta` is unchanged. -/
theorem prediction_zero_yaw_rate {R : Type} [LinearOrderedField R] (cos sin : R → R)
    (delta_t velocity : R) (n_x n_y n_theta : Nat → R)
    (pf : ParticleFilter R) (h : pf.particles.length = pf.num_particles) :
    prediction cos sin delta_t n_x n_y n_theta velocity 0 pf = some
      { pf with particles := pf.particles.mapIdx (fun i p =>
          { p with
            x := p.x + velocity * delta_t * cos p.theta + n_x i,
            y := p.y + velocity * delta_t * sin p.theta + n_y i,
            theta := p.theta + n_theta i }) }
    ∧ prediction cos sin delta_t (fun _ => 0) (fun _ => 0) (fun _ => 0) velocity 0 pf = some
      { pf with particles := pf.particles.map (fun p =>
          { p with
            x := p.x + velocity * delta_t * cos p.theta,
            y := p.y + velocity * delta_t * sin p.theta }) } := by
  constructor
  · rw [prediction_eq _ _ _ _ _ _ _ _ _ h]
    simp [predictOne]
  · rw [prediction_eq _ _ _ _ _ _ _ _ _ h]
    simp [predictOne, mapIdx_const_fun]

/-- The zero-yaw-rate step of C4 on one particle at the origin heading along x,
with `v = 10` and `delta_t = 1`, over the reals: it lands at `(10, 0)`. -/
theorem prediction_zero_yaw_rate_witness :
    ([({ id := 0, x := 0, y := 0, theta := 0, weight := 1, associations := [],
         sense_x := [], sense_y := [] } : Particle ℝ)].length = 1)
    ∧ prediction Real.cos Real.sin 1 (fun _ => 0) (fun _ => 0) (fun _ => 0) 10 0
      { num_particles := 1, is_initialized := true,
        particles := [{ id := 0, x := 0, y := 0, theta := 0, weight := 1, associations := [],
                        sense_x := [], sense_y := [] }],
        weights := [1] }
      = some
      { num_particles := 1, is_initialized := true,
        particles := [{ id := 0, x := 10, y := 0, theta := 0, weight := 1, associations := [],
                        sense_x := [], sense_y := [] }],
        weights := [1] } := by
  refine ⟨rfl, ?_⟩
  have h := (prediction_zero_yaw_rate Real.cos Real.sin 1 10 (fun _ => 0) (fun _ => 0)
    (fun _ => 0)
    { num_particles := 1, is_initialized := true,
      particles := [{ id := 0, x := 0, y := 0, theta := 0, weight := 1, associations := [],
                      sense_x := [], sense_y := [] }],
      weights := [1] } rfl).2
  simpa using h

/-- Claim C5: on a filter whose particle vector has `num_particles` entries,
`prediction` with a yaw rate `w ≠ 0` and zero noise moves every particle from
`(x, y, theta)` to `(x + (v / w) * (sin (theta + w * delta_t) - sin theta),
y + (v / w) * (cos theta - cos (theta + w * delta_t)), theta + w * delta_t)`;
both position updates read the heading before it is advanced. -/
theorem prediction_nonzero_yaw_rate {R : Type} [LinearOrderedField R] (cos sin : R → R)
    (delta_t velocity yaw_rate : R) (pf : ParticleFilter R)
    (h : pf.particles.length = pf.num_particles) (hw : yaw_rate ≠ 0) :
    prediction cos sin delta_t (fun _ => 0) (fun _ => 0) (fun _ => 0) velocity yaw_rate pf = some
      { pf with particles := pf.particles.map (fun p =>
          { p with
            x := p.x + velocity / yaw_rate * (sin (p.theta + yaw_rate * delta_t) - sin p.theta),
            y := p.y + velocity / yaw_rate * (cos p.theta - cos (p.theta + yaw_rate * delta_t)),
            theta := p.theta + yaw_rate * delta_t }) } := by
  rw [prediction_eq _ _ _ _ _ _ _ _ _ h]
  simp [predictOne, mapIdx_const_fun, hw]

/-- The turning step of C5 on one particle at the origin heading along x, with
`v = 10`, yaw rate `π / 8` and `delta_t = 1`, over the reals. -/
theorem prediction_nonzero_yaw_rate_witness :
    ([({ id := 0, x := 0, y := 0, theta := 0, weight := 1, associations := [],
         sense_x := [], sense_y := [] } : Particle ℝ)].length = 1 ∧ Real.pi / 8 ≠ 0)
    ∧ prediction Real.cos Real.sin 1 (fun _ => 0) (fun _ => 0) (fun _ => 0) 10 (Real.pi / 8)
      { num_particles := 1, is_initialized := true,
        particles := [{ id := 0, x := 0, y := 0, theta := 0, weight := 1, associations := [],
                        sense_x := [], sense_y := [] }],
        weights := [1] }
      = some
      { num_particles := 1, is_initialized := true,
        particles := [{ id := 0, 
                        x := 10 / (Real.pi / 8) * Real.sin (Real.pi / 8),
                        y := 10 / (Real.pi / 8) * (1 - Real.cos (Real.pi / 8)),
                        theta := Real.pi / 8, weight := 1, associations := [],
                        sense_x := [], sense_y := [] }],
        weights := [1] } := by
  have hpi : Real.pi / 8 ≠ 0 := div_ne_zero Real.pi_ne_zero (by norm_num)
  refine ⟨⟨rfl, hpi⟩, ?_⟩
  have h := prediction_nonzero_yaw_rate Real.cos Real.sin 1 10 (Real.pi / 8)
    { num_particles := 1, is_initialized := true,
      particles := [{ id := 0, x := 0, y := 0, theta := 0, weight := 1, associations := [],
                      sense_x := [], sense_y := [] }],
      weights := [1] } rfl hpi
  rw [h]
  simp

/-! ## dataAssociation: theorems -/

/-- One iteration of the inner loop keeps the invariant. -/
theorem nearestInv_step {R : Type} [LinearOrderedField R] (sqrt : R → R)
    (seen : List (LandmarkObs R)) (obs : LandmarkObs R) (st : Option R × Int)
    (a : LandmarkObs R) (h : NearestInv sqrt seen obs st) :
    NearestInv sqrt (seen ++ [a]) obs (nearestStep sqrt obs st a) := by
  right
  rcases h with ⟨hnil, hst⟩ | ⟨k, l, ⟨hk, hmin, hfirst⟩, hst⟩
  · subst hnil hst
    refine ⟨0, a, ⟨by simp, ?_, ?_⟩, by simp [nearestStep, belowMin]⟩
    · intro j l' hj
      cases j with
      | zero => simp at hj; subst hj; exact le_refl _
      | succ j => simp at hj
    · intro j l' hj; omega
  · subst hst
    have hklt : k < seen.length := by
      by_contra hge
      rw [List.getElem?_eq_none (Nat.le_of_not_lt hge)] at hk
      cases hk
    by_cases hlt : dist sqrt obs.x obs.y a.x a.y < dist sqrt obs.x obs.y l.x l.y
    · refine ⟨seen.length, a, ⟨by simp, ?_, ?_⟩, by simp [nearestStep, belowMin, hlt]⟩
      · intro j l' hj
        by_cases hjl : j < seen.length
        · rw [List.getElem?_append_left hjl] at hj
          exact le_trans (le_of_lt hlt) (hmin j l' hj)
        · rcases Nat.lt_or_ge seen.length j with hgt | hle
          · rw [List.getElem?_eq_none (by simp; omega)] at hj
            cases hj
          · have : j = seen.length := by omega
            subst this
            simp at hj; subst hj; exact le_refl _
      · intro j l' hjk hj
        rw [List.getElem?_append_left hjk] at hj
        exact lt_of_lt_of_le hlt (hmin j l' hj)
    · refine ⟨k, l, ⟨?_, ?_, ?_⟩, by simp [nearestStep, belowMin, hlt]⟩
      · rw [List.getElem?_append_left hklt]; exact hk
      · intro j l' hj
        by_cases hjl : j < seen.length
        · rw [List.getElem?_append_left hjl] at hj
          exact hmin j l' hj
        · rcases Nat.lt_or_ge seen.length j with hgt | hle
          · rw [List.getElem?_eq_none (by simp; omega)] at hj
            cases hj
          · have : j = seen.length := by omega
            subst this
            simp at hj; subst hj; exact not_lt.mp hlt
      · intro j l' hjk hj
        rw [List.getElem?_append_left (by omega)] at hj
        exact hfirst j l' hjk hj

/-- The inner loop keeps the invariant over any number of iterations. -/
theorem nearestInv_foldl {R : Type} [LinearOrderedField R] (sqrt : R → R)
    (obs : LandmarkObs R) (rest : List (LandmarkObs R)) :
    ∀ (seen : List (LandmarkObs R)) (st : Option R × Int), NearestInv sqrt seen obs st →
      NearestInv sqrt (seen ++ rest) obs (rest.foldl (nearestStep sqrt obs) st) := by
  induction rest with
  | nil => intro seen st h; simpa using h
  | cons a rest ih =>
    intro seen st h
    have := ih (seen ++ [a]) _ (nearestInv_step sqrt seen obs st a h)
    simpa using this

/-- For a non-empty `predicted`, `map_id` ends as the id of the first nearest
element. -/
theorem nearestId_spec {R : Type} [LinearOrderedField R] (sqrt : R → R)
    (predicted : List (LandmarkObs R)) (obs : LandmarkObs R) (hne : predicted ≠ []) :
    ∃ k l, IsFirstNearest sqrt predicted obs k l ∧ nearestId sqrt predicted obs = l.id := by
  have h := nearestInv_foldl sqrt obs predicted [] (none, -1) (Or.inl ⟨rfl, rfl⟩)
  simp only [List.nil_append] at h
  rcases h with ⟨hnil, _⟩ | ⟨k, l, hkl, hst⟩
  · exact absurd hnil hne
  · exact ⟨k, l, hkl, by simp [nearestId, hst]⟩

/-- One iteration of the inner loop keeps the invariant of the loop started at
`max_double`. -/
theorem nearestFromInv_step {R : Type} [LinearOrderedField R] (sqrt : R → R) (max_double : R)
    (seen : List (LandmarkObs R)) (obs : LandmarkObs R) (st : R × Int)
    (a : LandmarkObs R) (h : NearestFromInv sqrt max_double seen obs st) :
    NearestFromInv sqrt max_double (seen ++ [a]) obs (nearestStepFrom sqrt obs st a) := by
  rcases h with ⟨hall, hst⟩ | ⟨k, l, ⟨hk, hmin, hfirst⟩, hbelow, hst⟩
  · subst hst
    by_cases hlt : dist sqrt obs.x obs.y a.x a.y < max_double
    · right
      refine ⟨seen.length, a, ⟨by simp, ?_, ?_⟩, hlt, by simp [nearestStepFrom, hlt]⟩
      · intro j l' hj
        by_cases hjl : j < seen.length
        · rw [List.getElem?_append_left hjl] at hj
          exact le_trans (le_of_lt hlt) (not_lt.mp (hall l' (List.getElem?_mem hj)))
        · rcases Nat.lt_or_ge seen.length j with hgt | hle
          · rw [List.getElem?_eq_none (by simp; omega)] at hj
            cases hj
          · have : j = seen.length := by omega
            subst this
            simp at hj; subst hj; exact le_refl _
      · intro j l' hjk hj
        rw [List.getElem?_append_left hjk] at hj
        exact lt_of_lt_of_le hlt (not_lt.mp (hall l' (List.getElem?_mem hj)))
    · left
      refine ⟨?_, by simp [nearestStepFrom, hlt]⟩
      intro l' hl'
      rcases List.mem_append.mp hl' with hm | hm
      · exact hall l' hm
      · simp at hm; subst hm; exact hlt
  · subst hst
    right
    have hklt : k < seen.length := by
      by_contra hge
      rw [List.getElem?_eq_none (Nat.le_of_not_lt hge)] at hk
      cases hk
    by_cases hlt : dist sqrt obs.x obs.y a.x a.y < dist sqrt obs.x obs.y l.x l.y
    · refine ⟨seen.length, a, ⟨by simp, ?_, ?_⟩, lt_trans hlt hbelow,
        by simp [nearestStepFrom, hlt]⟩
      · intro j l' hj
        by_cases hjl : j < seen.length
        · rw [List.getElem?_append_left hjl] at hj
          exact le_trans (le_of_lt hlt) (hmin j l' hj)
        · rcases Nat.lt_or_ge seen.length j with hgt | hle
          · rw [List.getElem?_eq_none (by simp; omega)] at hj
            cases hj
          · have : j = seen.length := by omega
            subst this
            simp at hj; subst hj; exact le_refl _
      · intro j l' hjk hj
        rw [List.getElem?_append_left hjk] at hj
        exact lt_of_lt_of_le hlt (hmin j l' hj)
    · refine ⟨k, l, ⟨?_, ?_, ?_⟩, hbelow, by simp [nearestStepFrom, hlt]⟩
      · rw [List.getElem?_append_left hklt]; exact hk
      · intro j l' hj
        by_cases hjl : j < seen.length
        · rw [List.getElem?_append_left hjl] at hj
          exact hmin j l' hj
        · rcases Nat.lt_or_ge seen.length j with hgt | hle
          · rw [List.getElem?_eq_none (by simp; omega)] at hj
            cases hj
          · have : j = seen.length := by omega
            subst this
            simp at hj; subst hj; exact not_lt.mp hlt
      · intro j l' hjk hj
        rw [List.getElem?_append_left (by omega)] at hj
        exact hfirst j l' hjk hj

/-- The inner loop started at `max_double` keeps its invariant over any number
of iterations. -/
theorem nearestFromInv_foldl {R : Type} [LinearOrderedField R] (sqrt : R → R) (max_double : R)
    (obs : LandmarkObs R) (rest : List (LandmarkObs R)) :
    ∀ (seen : List (LandmarkObs R)) (st : R × Int), NearestFromInv sqrt max_double seen obs st →
      NearestFromInv sqrt max_double (seen ++ rest) obs
        (rest.foldl (nearestStepFrom sqrt obs) st) := by
  induction rest with
  | nil => intro seen st h; simpa using h
  | cons a rest ih =>
    intro seen st h
    have := ih (seen ++ [a]) _ (nearestFromInv_step sqrt max_double seen obs st a h)
    simpa using this

/-- The value of `map_id` after the inner loop started at `max_double`: `-1`
when no element is at a distance below `max_double`, and the id of the first
nearest element otherwise. -/
theorem nearestIdFrom_spec {R : Type} [LinearOrderedField R] (sqrt : R → R) (max_double : R)
    (predicted : List (LandmarkObs R)) (obs : LandmarkObs R) :
    ((∀ l ∈ predicted, ¬ dist sqrt obs.x obs.y l.x l.y < max_double)
        → nearestIdFrom sqrt max_double predicted obs = -1)
    ∧ ((∃ l ∈ predicted, dist sqrt obs.x obs.y l.x l.y < max_double)
        → ∃ k l, IsFirstNearest sqrt predicted obs k l
            ∧ nearestIdFrom sqrt max_double predicted obs = l.id) := by
  have h := nearestFromInv_foldl sqrt max_double obs predicted [] (max_double, -1)
    (Or.inl ⟨by simp, rfl⟩)
  simp only [List.nil_append] at h
  constructor
  · intro hall
    rcases h with ⟨_, hst⟩ | ⟨k, l, ⟨hk, _, _⟩, hbelow, _⟩
    · simp [nearestIdFrom, hst]
    · exact absurd hbelow (hall l (List.getElem?_mem hk))
  · rintro ⟨l0, hl0, hlt0⟩
    rcases h with ⟨hall, _⟩ | ⟨k, l, hkl, _, hst⟩
    · exact absurd hlt0 (hall l0 hl0)
    · exact ⟨k, l, hkl, by simp [nearestIdFrom, hst]⟩

/-- Two first nearest elements of one list are the same element. -/
theorem isFirstNearest_unique {R : Type} [LinearOrderedField R] (sqrt : R → R)
    (predicted : List (LandmarkObs R)) (obs : LandmarkObs R) (k k' : Nat)
    (l l' : LandmarkObs R) (h : IsFirstNearest sqrt predicted obs k l)
    (h' : IsFirstNearest sqrt predicted obs k' l') : k = k' ∧ l = l' := by
  obtain ⟨hk, hmin, hfirst⟩ := h
  obtain ⟨hk', hmin', hfirst'⟩ := h'
  have hkk : k = k' := by
    rcases Nat.lt_trichotomy k k' with hlt | heq | hgt
    · exact absurd (hfirst' k l hlt hk) (not_lt.mpr (hmin k' l' hk'))
    · exact heq
    · exact absurd (hfirst k' l' hgt hk') (not_lt.mpr (hmin' k l hk))
  subst hkk
  rw [hk] at hk'
  exact ⟨rfl, Option.some.inj hk'⟩

/-- Where `predicted` is empty or holds an element at a distance below
`max_double`, the loop started at `max_double` and the loop started above every
distance end with the same `map_id`. -/
theorem nearestIdFrom_eq_nearestId {R : Type} [LinearOrderedField R] (sqrt : R → R)
    (max_double : R) (predicted : List (LandmarkObs R)) (obs : LandmarkObs R)
    (h : predicted = [] ∨ ∃ l ∈ predicted, dist sqrt obs.x obs.y l.x l.y < max_double) :
    nearestIdFrom sqrt max_double predicted obs = nearestId sqrt predicted obs := by
  rcases h with hnil | hex
  · subst hnil
    simp [nearestIdFrom, nearestId]
  · have hne : predicted ≠ [] := by
      rintro rfl
      obtain ⟨l, hl, _⟩ := hex
      simp at hl
    obtain ⟨k, l, hkl, hid⟩ := (nearestIdFrom_spec sqrt max_double predicted obs).2 hex
    obtain ⟨k', l', hkl', hid'⟩ := nearestId_spec sqrt predicted obs hne
    obtain ⟨_, hll⟩ := isFirstNearest_unique sqrt predicted obs k k' l l' hkl hkl'
    rw [hid, hid', hll]

/-- With an empty `predicted`, the loop started at `max_double` leaves every
observation at the id `-1`. -/
theorem dataAssociationFrom_empty_predicted {R : Type} [LinearOrderedField R] (sqrt : R → R)
    (max_double : R) (observations : List (LandmarkObs R)) :
    dataAssociationFrom sqrt max_double [] observations
      = observations.map (fun o => { o with id := -1 }) := by
  simp [dataAssociationFrom, nearestIdFrom]

/-- Where `predicted` is empty or every observation has an element of
`predicted` at a distance below `max_double`, the association started at
`max_double` and the association started above every distance return the same
observations. -/
theorem dataAssociationFrom_eq_dataAssociation {R : Type} [LinearOrderedField R]
    (sqrt : R → R) (max_double : R) (predicted observations : List (LandmarkObs R))
    (h : ∀ o ∈ observations,
      predicted = [] ∨ ∃ l ∈ predicted, dist sqrt o.x o.y l.x l.y < max_double) :
    dataAssociationFrom sqrt max_double predicted observations
      = dataAssociation sqrt predicted observations := by
  unfold dataAssociationFrom dataAssociation
  apply List.map_congr_left
  intro o ho
  rw [nearestIdFrom_eq_nearestId sqrt max_double predicted o (h o ho)]

/-- The largest double is positive. -/
theorem numeric_limits_max_pos {R : Type} [LinearOrderedField R] :
    (0 : R) < numeric_limits_max R := by
  unfold numeric_limits_max
  exact mul_pos (by norm_num) (by positivity)

/-- The association on the predictions `(1, 0, 0)`, `(2, 5, 5)` and one
observation at `(1 / 10, 1 / 10)`, over the reals with `min_dist` starting at
the largest double: the observation gets id 1. -/
theorem dataAssociationFrom_sample :
    dataAssociationFrom Real.sqrt (numeric_limits_max ℝ)
        [{ id := 1, x := 0, y := 0 }, { id := 2, x := 5, y := 5 }]
        [{ id := 0, x := 1 / 10, y := 1 / 10 }]
      = [{ id := 1, x := 1 / 10, y := 1 / 10 }] := by
  have hnear : Real.sqrt ((0 - 1 / 10) ^ 2 + (0 - 1 / 10) ^ 2) < numeric_limits_max ℝ := by
    rw [Real.sqrt_lt' numeric_limits_max_pos]
    have h1 : (1 : ℝ) ≤ numeric_limits_max ℝ := by
      unfold numeric_limits_max
      norm_num
    nlinarith
  have hfar : ¬ Real.sqrt ((5 - 1 / 10) ^ 2 + (5 - 1 / 10) ^ 2)
      < Real.sqrt ((0 - 1 / 10) ^ 2 + (0 - 1 / 10) ^ 2) :=
    not_lt.mpr (Real.sqrt_le_sqrt (by norm_num))
  simp only [dataAssociationFrom, nearestIdFrom, nearestStepFrom, dist, List.map_cons,
    List.map_nil, List.foldl_cons, List.foldl_nil, if_pos hnear, if_neg hfar]

/-- Claim C6: `dataAssociation`, with `min_dist` starting at `max_double`, keeps
the number of observations; an observation with some element of `predicted` at
a distance below `max_double` gets the id of the first element of `predicted`
whose distance to it is minimal over all of `predicted`, and an observation
with no such element gets `-1`, also when `predicted` is not empty. So it is
for the observation at `(m, m)`, `m` the largest double, and the one prediction
`(1, 0, 0)`: the prediction is the first nearest element, the distance is not
below `m`, and the observation gets `-1`. -/
theorem dataAssociationFrom_first_nearest :
    (∀ (R : Type) [LinearOrderedField R] (sqrt : R → R) (max_double : R)
        (predicted observations : List (LandmarkObs R)),
      (dataAssociationFrom sqrt max_double predicted observations).length
          = observations.length
      ∧ ∀ (i : Nat) (o : LandmarkObs R), observations[i]? = some o →
          ((∃ l ∈ predicted, dist sqrt o.x o.y l.x l.y < max_double) →
            ∃ k l, IsFirstNearest sqrt predicted o k l
              ∧ (dataAssociationFrom sqrt max_double predicted observations)[i]?
                  = some { o with id := l.id })
          ∧ ((∀ l ∈ predicted, ¬ dist sqrt o.x o.y l.x l.y < max_double) →
            (dataAssociationFrom sqrt max_double predicted observations)[i]?
              = some { o with id := -1 }))
    ∧ IsFirstNearest Real.sqrt [{ id := 1, x := 0, y := 0 }]
        { id := 0, x := numeric_limits_max ℝ, y := numeric_limits_max ℝ } 0
        { id := 1, x := 0, y := 0 }
    ∧ dataAssociationFrom Real.sqrt (numeric_limits_max ℝ)
        [{ id := 1, x := 0, y := 0 }]
        [{ id := 0, x := numeric_limits_max ℝ, y := numeric_limits_max ℝ }]
      = [{ id := -1, x := numeric_limits_max ℝ, y := numeric_limits_max ℝ }] := by
  refine ⟨?_, ?_, ?_⟩
  · intro R _ sqrt max_double predicted observations
    refine ⟨by simp [dataAssociationFrom], ?_⟩
    intro i o hi
    obtain ⟨hnone, hsome⟩ := nearestIdFrom_spec sqrt max_double predicted o
    constructor
    · intro hex
      obtain ⟨k, l, hkl, hid⟩ := hsome hex
      exact ⟨k, l, hkl, by simp [dataAssociationFrom, hi, hid]⟩
    · intro hall
      simp [dataAssociationFrom, hi, hnone hall]
  · refine ⟨rfl, ?_, ?_⟩
    · intro j l' hj
      cases j with
      | zero => simp at hj; subst hj; exact le_refl _
      | succ j => simp at hj
    · intro j l' hj
      omega
  · have hpos : (0 : ℝ) < numeric_limits_max ℝ := numeric_limits_max_pos
    have hfar : ¬ Real.sqrt ((0 - numeric_limits_max ℝ) ^ 2 + (0 - numeric_limits_max ℝ) ^ 2)
        < numeric_limits_max ℝ := by
      rw [not_lt]
      apply Real.le_sqrt_of_sq_le
      nlinarith
    simp only [dataAssociationFrom, nearestIdFrom, nearestStepFrom, dist, List.map_cons,
      List.map_nil, List.foldl_cons, List.foldl_nil, if_neg hfar]

/-- Claim C7: with an empty `predicted`, `dataAssociation` gives every
observation the id `-1`, whatever id it carried. -/
theorem dataAssociation_empty_predicted {R : Type} [LinearOrderedField R] (sqrt : R → R)
    (observations : List (LandmarkObs R)) :
    dataAssociation sqrt [] observations = observations.map (fun o => { o with id := -1 }) := by
  simp [dataAssociation, nearestId]

/-- Claim C8: `dataAssociation` returns as many observations as it was given,
and the observation at each index keeps its `x` and `y`; only ids change. -/
theorem dataAssociation_frame {R : Type} [LinearOrderedField R] (sqrt : R → R)
    (predicted observations : List (LandmarkObs R)) :
    (dataAssociation sqrt predicted observations).length = observations.length
    ∧ (dataAssociation sqrt predicted observations).map (fun o => (o.x, o.y))
        = observations.map (fun o => (o.x, o.y)) := by
  simp [dataAssociation, Function.comp_def]

/-! ## updateWeights: theorems -/

/-- After `n` iterations of the scoring loop the first `n` particles carry
their weight before normalisation and `sum_weights` has grown by their sum. -/
theorem iterate_scoreStep {R : Type} [LinearOrderedField R] (cos sin exp sqrt : R → R) (pi : R)
    (sensor_range : R) (std_landmark : R × R) (observations : List (LandmarkObs R))
    (map_landmarks : Map R) (uninit : Nat → Nat → R × R) (ps : List (Particle R)) (s0 : R) :
    ∀ n, n ≤ ps.length →
      iterate (scoreStep cos sin exp sqrt pi sensor_range std_landmark observations
        map_landmarks uninit) n (ps, s0)
      = some
        (ps.mapIdx (fun i p => if i < n then
            { p with
              weight := particleWeight cos sin exp sqrt pi sensor_range std_landmark
                observations map_landmarks (uninit i) p }
          else p),
         s0 + ((rawWeights cos sin exp sqrt pi sensor_range std_landmark observations
            map_landmarks uninit ps).take n).sum)
  | 0, _ => by
      simp only [iterate, Nat.not_lt_zero, if_false, List.take_zero, List.sum_nil, add_zero]
      congr 2
      apply List.ext_getElem? ; intro i
      simp
  | n + 1, h => by
      have hn : n < ps.length := h
      rw [iterate, iterate_scoreStep cos sin exp sqrt pi sensor_range std_landmark observations
        map_landmarks uninit ps s0 n (Nat.le_of_lt hn)]
      simp only [Option.some_bind, scoreStep]
      rw [List.getElem?_mapIdx, List.getElem?_eq_getElem hn]
      simp only [Option.map_some', lt_self_iff_false, if_false]
      congr 2
      · apply List.ext_getElem? ; intro i
        rw [List.getElem?_set, List.getElem?_mapIdx, List.getElem?_mapIdx]
        by_cases hi : n = i
        · subst hi
          simp [hn]
        · simp only [hi, if_false]
          by_cases hlt : i < n
          · simp [hlt, Nat.lt_succ_of_lt hlt]
          · have : ¬ i < n + 1 := by omega
            simp [hlt, this]
      · rw [List.sum_take_succ _ _ (by simpa [rawWeights] using hn), add_assoc]
        simp [rawWeights]

/-- After `n` iterations of the normalising loop the first `n` particles and
the first `n` entries of `weights` hold the divided weights. -/
theorem iterate_normalizeStep {R : Type} [LinearOrderedField R] (s : R)
    (ps : List (Particle R)) (ws : List R) :
    ∀ n, n ≤ ps.length → n ≤ ws.length →
      iterate (normalizeStep s) n (ps, ws)
      = some
        (ps.mapIdx (fun i p => if i < n then { p with weight := p.weight / s } else p),
         ws.mapIdx (fun i w => if i < n then (ps[i]?).elim w (fun p => p.weight / s) else w))
  | 0, _, _ => by
      simp only [iterate, Nat.not_lt_zero, if_false]
      congr 2
      · apply List.ext_getElem? ; intro i
        simp
      · apply List.ext_getElem? ; intro i
        simp
  | n + 1, h, hw => by
      have hn : n < ps.length := h
      have hwn : n < ws.length := hw
      rw [iterate, iterate_normalizeStep s ps ws n (Nat.le_of_lt hn) (Nat.le_of_lt hwn)]
      simp only [Option.some_bind, normalizeStep]
      rw [List.getElem?_mapIdx, List.getElem?_eq_getElem hn]
      simp only [Option.map_some', lt_self_iff_false, if_false, List.length_mapIdx, hwn, if_true]
      congr 2
      · apply List.ext_getElem? ; intro i
        rw [List.getElem?_set, List.getElem?_mapIdx, List.getElem?_mapIdx]
        by_cases hi : n = i
        · subst hi
          simp [hn]
        · simp only [hi, if_false]
          by_cases hlt : i < n
          · simp [hlt, Nat.lt_succ_of_lt hlt]
          · have : ¬ i < n + 1 := by omega
            simp [hlt, this]
      · apply List.ext_getElem? ; intro i
        rw [List.getElem?_set, List.getElem?_mapIdx, List.getElem?_mapIdx]
        by_cases hi : n = i
        · subst hi
          simp [hn, hwn]
        · simp only [hi, if_false]
          by_cases hlt : i < n
          · simp [hlt, Nat.lt_succ_of_lt hlt]
          · have : ¬ i < n + 1 := by omega
            simp [hlt, this]

/-- What `updateWeights` returns on a filter whose two vectors have
`num_particles` entries. -/
theorem updateWeights_eq {R : Type} [LinearOrderedField R] (cos sin exp sqrt : R → R) (pi : R)
    (sensor_range : R) (std_landmark : R × R) (observations : List (LandmarkObs R))
    (map_landmarks : Map R) (uninit : Nat → Nat → R × R) (pf : ParticleFilter R)
    (hp : pf.particles.length = pf.num_particles) (hw : pf.weights.length = pf.num_particles) :
    updateWeights cos sin exp sqrt pi sensor_range std_landmark observations map_landmarks
      uninit pf
    = some
      { pf with
        particles := pf.particles.mapIdx (fun i p =>
          { p with
            weight :=
              particleWeight cos sin exp sqrt pi sensor_range std_landmark observations
                map_landmarks (uninit i) p
              / (rawWeights cos sin exp sqrt pi sensor_range std_landmark observations
                  map_landmarks uninit pf.particles).sum }),
        weights :=
          (rawWeights cos sin exp sqrt pi sensor_range std_landmark observations
            map_landmarks uninit pf.particles).map (fun w => w
              / (rawWeights cos sin exp sqrt pi sensor_range std_landmark observations
                  map_landmarks uninit pf.particles).sum) } := by
  unfold updateWeights
  rw [← hp, iterate_scoreStep _ _ _ _ _ _ _ _ _ _ _ _ _ (Nat.le_refl _)]
  simp only [Option.some_bind, List.length_mapIdx]
  rw [iterate_normalizeStep _ _ _ _ (by simp) (by simp [hw, hp])]
  simp only [Option.map_some', zero_add]
  have htake : ∀ (l : List R), l.length = pf.particles.length →
      l.take pf.particles.length = l := fun l hl => by rw [← hl, List.take_length]
  rw [htake _ (by simp [rawWeights])]
  congr 2
  · apply List.ext_getElem? ; intro i
    rw [List.getElem?_mapIdx, List.getElem?_mapIdx, List.getElem?_mapIdx]
    by_cases hi : i < pf.particles.length
    · simp [hi]
    · simp [List.getElem?_eq_none (Nat.le_of_not_lt hi)]
  · apply List.ext_getElem? ; intro i
    rw [List.getElem?_mapIdx, List.getElem?_map, rawWeights, List.getElem?_mapIdx]
    by_cases hi : i < pf.particles.length
    · have hiw : i < pf.weights.length := by omega
      simp [hi, hiw]
    · have hiw : pf.weights.length ≤ i := by omega
      simp [List.getElem?_eq_none (Nat.le_of_not_lt hi), List.getElem?_eq_none hiw]

/-- Dividing every entry of a list by the list's non-zero sum gives sum 1. -/
theorem sum_map_div_sum {R : Type} [LinearOrderedField R] (l : List R) (h : l.sum ≠ 0) :
    (l.map (fun w => w / l.sum)).sum = 1 := by
  simp only [div_eq_mul_inv]
  rw [List.sum_map_mul_right, List.map_id']
  exact mul_inv_cancel₀ h

/-- Claim C1: on a filter whose two vectors have `num_particles` entries, when
the weights before normalisation have a positive sum (so there is at least one
particle), `updateWeights` returns a filter in which the particle weights sum
to 1 and the entries of `weights` sum to 1. -/
theorem updateWeights_sum_one {R : Type} [LinearOrderedField R] (cos sin exp sqrt : R → R)
    (pi : R) (sensor_range : R) (std_landmark : R × R) (observations : List (LandmarkObs R))
    (map_landmarks : Map R) (uninit : Nat → Nat → R × R) (pf : ParticleFilter R)
    (hp : pf.particles.length = pf.num_particles) (hw : pf.weights.length = pf.num_particles)
    (hsum : 0 < (rawWeights cos sin exp sqrt pi sensor_range std_landmark observations
      map_landmarks uninit pf.particles).sum) :
    ∃ pf', updateWeights cos sin exp sqrt pi sensor_range std_landmark observations
        map_landmarks uninit pf = some pf'
      ∧ (pf'.particles.map (fun p => p.weight)).sum = 1
      ∧ pf'.weights.sum = 1 := by
  refine ⟨_, updateWeights_eq cos sin exp sqrt pi sensor_range std_landmark observations
    map_landmarks uninit pf hp hw, ?_, ?_⟩
  · have h := sum_map_div_sum _ (ne_of_gt hsum)
    rw [← h]
    congr 1
    apply List.ext_getElem? ; intro i
    simp only [rawWeights, List.getElem?_map, List.getElem?_mapIdx, Option.map_map]
    rfl
  · exact sum_map_div_sum _ (ne_of_gt hsum)

/-- The factor of one observation is positive when `exp` and `pi` are positive
and both standard deviations are positive. -/
theorem obsWeight_pos {R : Type} [LinearOrderedField R] (exp : R → R) (pi : R)
    (std_landmark : R × R) (hexp : ∀ x, 0 < exp x) (hpi : 0 < pi)
    (hx : 0 < std_landmark.1) (hy : 0 < std_landmark.2) (pred_x pred_y obs_x obs_y : R) :
    0 < obsWeight exp pi std_landmark pred_x pred_y obs_x obs_y := by
  unfold obsWeight
  have := hexp (-((pred_x - obs_x) ^ 2 / (2 * std_landmark.1 ^ 2)
    + (pred_y - obs_y) ^ 2 / (2 * std_landmark.2 ^ 2)))
  positivity

/-- The weight loop keeps a positive weight positive. -/
theorem weightLoop_pos {R : Type} [LinearOrderedField R] (exp : R → R) (pi : R)
    (std_landmark : R × R) (hexp : ∀ x, 0 < exp x) (hpi : 0 < pi)
    (hx : 0 < std_landmark.1) (hy : 0 < std_landmark.2)
    (sensor_range_pred : List (LandmarkObs R)) (uninit : Nat → R × R)
    (trans_obs : List (LandmarkObs R)) :
    ∀ (j : Nat) (weight : R), 0 < weight →
      0 < weightLoop exp pi std_landmark sensor_range_pred uninit j trans_obs weight := by
  induction trans_obs with
  | nil => intro j weight hw; simpa [weightLoop] using hw
  | cons o rest ih =>
    intro j weight hw
    simp only [weightLoop]
    exact ih (j + 1) _ (mul_pos hw (obsWeight_pos exp pi std_landmark hexp hpi hx hy _ _ _ _))

/-- With at least one particle the weights before normalisation have a positive
sum. -/
theorem rawWeights_sum_pos {R : Type} [LinearOrderedField R] (cos sin exp sqrt : R → R)
    (pi : R) (sensor_range : R) (std_landmark : R × R) (observations : List (LandmarkObs R))
    (map_landmarks : Map R) (uninit : Nat → Nat → R × R) (ps : List (Particle R))
    (hexp : ∀ x, 0 < exp x) (hpi : 0 < pi)
    (hx : 0 < std_landmark.1) (hy : 0 < std_landmark.2) (hne : ps ≠ []) :
    0 < (rawWeights cos sin exp sqrt pi sensor_range std_landmark observations
      map_landmarks uninit ps).sum := by
  apply List.sum_pos
  · intro w hw
    simp only [rawWeights, List.mem_mapIdx] at hw
    obtain ⟨i, hi, rfl⟩ := hw
    exact weightLoop_pos exp pi std_landmark hexp hpi hx hy _ _ _ 0 1 one_pos
  · simpa [rawWeights] using hne

/-- The normalisation of C1 on the sample filter, observation and map, over the
reals. -/
theorem updateWeights_sum_one_witness :
    ((sampleFilter ℝ).particles.length = (sampleFilter ℝ).num_particles
      ∧ (sampleFilter ℝ).weights.length = (sampleFilter ℝ).num_particles
      ∧ 0 < (rawWeights Real.cos Real.sin Real.exp Real.sqrt Real.pi 50 (1, 1)
          (sampleObs ℝ) (sampleMap ℝ) (fun _ _ => (0, 0)) (sampleFilter ℝ).particles).sum)
    ∧ ∃ pf', updateWeights Real.cos Real.sin Real.exp Real.sqrt Real.pi 50 (1, 1)
          (sampleObs ℝ) (sampleMap ℝ) (fun _ _ => (0, 0)) (sampleFilter ℝ) = some pf'
        ∧ (pf'.particles.map (fun p => p.weight)).sum = 1
        ∧ pf'.weights.sum = 1 := by
  have hsum : 0 < (rawWeights Real.cos Real.sin Real.exp Real.sqrt Real.pi 50 (1, 1)
      (sampleObs ℝ) (sampleMap ℝ) (fun _ _ => (0, 0)) (sampleFilter ℝ).particles).sum :=
    rawWeights_sum_pos _ _ _ _ _ _ _ _ _ _ _ Real.exp_pos Real.pi_pos one_pos one_pos
      (by simp [sampleFilter])
  exact ⟨⟨rfl, rfl, hsum⟩, updateWeights_sum_one Real.cos Real.sin Real.exp Real.sqrt Real.pi
    50 (1, 1) (sampleObs ℝ) (sampleMap ℝ) (fun _ _ => (0, 0)) (sampleFilter ℝ) rfl rfl hsum⟩

/-! ## Sizes of the two vectors -/

/-- Every iteration of the loop of `resample` that returns has pushed one
particle. -/
theorem iterate_resampleStep_length {R : Type} [LinearOrderedField R] (fuel : Nat)
    (pf : ParticleFilter R) (draw : Nat → R) (st0 : List (Particle R) × R × Nat) :
    ∀ (n : Nat) (st : List (Particle R) × R × Nat),
      iterate (resampleStep fuel pf draw) n st0 = some st → st.1.length = st0.1.length + n
  | 0, st, h => by
      simp only [iterate, Option.some.injEq] at h
      subst h; rfl
  | n + 1, st, h => by
      simp only [iterate, Option.bind_eq_some] at h
      obtain ⟨st1, h1, h2⟩ := h
      have ih := iterate_resampleStep_length fuel pf draw st0 n st1 h1
      simp only [resampleStep, Option.bind_eq_some, Option.map_eq_some'] at h2
      obtain ⟨bi, _, p, _, hst⟩ := h2
      subst hst
      simp [ih, Nat.add_assoc]

/-- A returning `resample` yields `num_particles` particles and leaves
`weights`, `num_particles` and `is_initialized` alone. -/
theorem resample_sizes {R : Type} [LinearOrderedField R] (fuel : Nat) (u_int_dist : Nat)
    (u_real_dist : R → Nat → R) (pf pf' : ParticleFilter R)
    (h : resample fuel u_int_dist u_real_dist pf = some pf') :
    pf'.particles.length = pf.num_particles ∧ pf'.weights = pf.weights
      ∧ pf'.num_particles = pf.num_particles ∧ pf'.is_initialized = pf.is_initialized := by
  simp only [resample, Option.bind_eq_some, Option.map_eq_some'] at h
  obtain ⟨m, _, st, hst, hpf⟩ := h
  have := iterate_resampleStep_length fuel pf _ _ _ _ hst
  subst hpf
  simpa using this

/-- After `init` both vectors have `num_particles` entries. -/
theorem init_sizes {R : Type} [LinearOrderedField R] (x y theta : R)
    (n_x n_y n_theta : Nat → R) (pf : ParticleFilter R)
    (h : init x y theta n_x n_y n_theta (emptyFilter R) = some pf) :
    pf.particles.length = pf.num_particles ∧ pf.weights.length = pf.num_particles := by
  rw [init_eq] at h
  simp only [Option.some.injEq] at h
  subst h
  simp

/-- Claim C2: in every state reached by `init` followed by any calls of
`prediction`, `updateWeights` and `resample`, the particle vector and the
weights vector both have `num_particles` entries; from such a state
`prediction` and `updateWeights` return, and every call that returns
(also `resample`) leaves both vectors with `num_particles` entries. -/
theorem reachable_sizes {R : Type} [LinearOrderedField R] (cos sin exp sqrt : R → R) (pi : R)
    (pf : ParticleFilter R) (h : Reachable cos sin exp sqrt pi pf) :
    (pf.particles.length = pf.num_particles ∧ pf.weights.length = pf.num_particles)
    ∧ (∀ (delta_t : R) (n_x n_y n_theta : Nat → R) (velocity yaw_rate : R),
        ∃ pf', prediction cos sin delta_t n_x n_y n_theta velocity yaw_rate pf = some pf'
          ∧ pf'.particles.length = pf'.num_particles
          ∧ pf'.weights.length = pf'.num_particles)
    ∧ (∀ (sensor_range : R) (std_landmark : R × R) (observations : List (LandmarkObs R))
        (map_landmarks : Map R) (uninit : Nat → Nat → R × R),
        ∃ pf', updateWeights cos sin exp sqrt pi sensor_range std_landmark observations
            map_landmarks uninit pf = some pf'
          ∧ pf'.particles.length = pf'.num_particles
          ∧ pf'.weights.length = pf'.num_particles)
    ∧ (∀ (fuel : Nat) (u_int_dist : Nat) (u_real_dist : R → Nat → R) (pf' : ParticleFilter R),
        resample fuel u_int_dist u_real_dist pf = some pf' →
          pf'.particles.length = pf'.num_particles
          ∧ pf'.weights.length = pf'.num_particles) := by
  have hinv : pf.particles.length = pf.num_particles ∧ pf.weights.length = pf.num_particles := by
    induction h with
    | init x y theta n_x n_y n_theta pf h => exact init_sizes x y theta n_x n_y n_theta pf h
    | prediction delta_t n_x n_y n_theta velocity yaw_rate pf pf' _ h ih =>
      rw [prediction_eq _ _ _ _ _ _ _ _ _ ih.1] at h
      simp only [Option.some.injEq] at h
      subst h
      simpa using ih
    | updateWeights sensor_range std_landmark observations map_landmarks uninit pf pf' _ h ih =>
      rw [updateWeights_eq _ _ _ _ _ _ _ _ _ _ _ ih.1 ih.2] at h
      simp only [Option.some.injEq] at h
      subst h
      simpa [rawWeights] using ih.1
    | resample fuel u_int_dist u_real_dist pf pf' _ h ih =>
      obtain ⟨h1, h2, h3, _⟩ := resample_sizes fuel u_int_dist u_real_dist pf pf' h
      rw [h1, h2, h3]
      exact ⟨rfl, ih.2⟩
  refine ⟨hinv, ?_, ?_, ?_⟩
  · intro delta_t n_x n_y n_theta velocity yaw_rate
    refine ⟨_, prediction_eq _ _ _ _ _ _ _ _ _ hinv.1, ?_⟩
    simpa using hinv
  · intro sensor_range std_landmark observations map_landmarks uninit
    refine ⟨_, updateWeights_eq _ _ _ _ _ _ _ _ _ _ _ hinv.1 hinv.2, ?_⟩
    simpa [rawWeights] using hinv.1
  · intro fuel u_int_dist u_real_dist pf' h
    obtain ⟨h1, h2, h3, _⟩ := resample_sizes fuel u_int_dist u_real_dist pf pf' h
    rw [h1, h2, h3]
    exact ⟨rfl, hinv.2⟩

/-- The sizes of C2 after one full cycle on a fresh filter, over the reals. -/
theorem reachable_sizes_witness :
    ∃ pf : ParticleFilter ℝ,
      demoCycle Real.cos Real.sin Real.exp Real.sqrt Real.pi = some pf
      ∧ Reachable Real.cos Real.sin Real.exp Real.sqrt Real.pi pf
      ∧ pf.particles.length = pf.num_particles ∧ pf.weights.length = pf.num_particles := by
  have h0 := init_eq (0 : ℝ) 0 0 (fun _ => 0) (fun _ => 0) (fun _ => 0)
  have hr0 : Reachable Real.cos Real.sin Real.exp Real.sqrt Real.pi _ :=
    Reachable.init _ _ _ _ _ _ _ h0
  have h1 : ∃ pf1, resample 3 3 (fun _ _ => (1 : ℝ) / 2)
      { num_particles := 10
        is_initialized := true
        particles := (List.range 10).map (fun (i : Nat) =>
          { id := (i : Int), x := 0 + 0, y := 0 + 0, theta := 0 + 0,
            weight := 1, associations := [], sense_x := [], sense_y := [] })
        weights := List.replicate 10 1 } = some pf1 :=
    Option.isSome_iff_exists.mp (by
      simp [resample, max_element, iterate, resampleStep, wheel, List.range_succ,
        List.replicate]
      norm_num)
  obtain ⟨pf1, h1⟩ := h1
  have hr1 := Reachable.resample _ _ _ _ _ hr0 h1
  obtain ⟨pf2, h2, _⟩ := (reachable_sizes _ _ _ _ _ pf1 hr1).2.1 1 (fun _ => 0) (fun _ => 0)
    (fun _ => 0) 10 0
  have hr2 := Reachable.prediction _ _ _ _ _ _ _ _ hr1 h2
  obtain ⟨pf3, h3, _⟩ := (reachable_sizes _ _ _ _ _ pf2 hr2).2.2.1 50 (1, 1) (sampleObs ℝ)
    (sampleMap ℝ) (fun _ _ => (0, 0))
  have hr3 := Reachable.updateWeights _ _ _ _ _ _ _ hr2 h3
  refine ⟨pf3, ?_, hr3, (reachable_sizes _ _ _ _ _ pf3 hr3).1⟩
  simp only [demoCycle, h0, Option.some_bind, h1, h2, h3]

/-! ## The weight of one particle -/

/-- The culling loop appends the in-range landmarks, in map order, to what it
started from. -/
theorem sensorRangePred_foldl {R : Type} [LinearOrderedField R] (sqrt : R → R)
    (sensor_range p_x p_y : R) (lms : List (single_landmark_s R)) :
    ∀ acc : List (LandmarkObs R),
      lms.foldl
        (fun sensor_range_pred lm =>
          let d := dist sqrt lm.x_f lm.y_f p_x p_y
          if d ≤ sensor_range then
            sensor_range_pred ++ [{ id := lm.id_i, x := lm.x_f, y := lm.y_f }]
          else sensor_range_pred)
        acc
      = acc ++ (lms.filter
          (fun lm => decide (dist sqrt lm.x_f lm.y_f p_x p_y ≤ sensor_range))).map
          (fun lm => { id := lm.id_i, x := lm.x_f, y := lm.y_f }) := by
  induction lms with
  | nil => intro acc; simp
  | cons lm rest ih =>
    intro acc
    simp only [List.foldl_cons]
    rw [ih]
    by_cases h : dist sqrt lm.x_f lm.y_f p_x p_y ≤ sensor_range
    · simp [h, List.filter_cons]
    · simp [h, List.filter_cons]

/-- The culling loop builds the list of in-range landmarks. -/
theorem sensorRangePred_eq {R : Type} [LinearOrderedField R] (sqrt : R → R)
    (sensor_range : R) (map_landmarks : Map R) (p_x p_y : R) :
    sensorRangePred sqrt sensor_range map_landmarks p_x p_y
      = inRangeLandmarks sqrt sensor_range map_landmarks p_x p_y := by
  unfold sensorRangePred inRangeLandmarks
  rw [sensorRangePred_foldl]
  simp

/-- The transform loop appends the observations in the map frame, in order. -/
theorem transObs_foldl {R : Type} [LinearOrderedField R] (cos sin : R → R) (p : Particle R)
    (observations : List (LandmarkObs R)) :
    ∀ acc : List (LandmarkObs R),
      observations.foldl
        (fun trans_obs o =>
          let obs_x := cos p.theta * o.x - sin p.theta * o.y + p.x
          let obs_y := sin p.theta * o.x + cos p.theta * o.y + p.y
          trans_obs ++ [{ id := o.id, x := obs_x, y := obs_y }])
        acc
      = acc ++ observations.map (toMapFrame cos sin p) := by
  induction observations with
  | nil => intro acc; simp
  | cons o rest ih =>
    intro acc
    simp only [List.foldl_cons]
    rw [ih]
    simp [toMapFrame]

/-- The transform loop builds the observations in the map frame of the particle. -/
theorem transObs_eq {R : Type} [LinearOrderedField R] (cos sin : R → R) (p : Particle R)
    (observations : List (LandmarkObs R)) :
    transObs cos sin p.x p.y p.theta observations = observations.map (toMapFrame cos sin p) := by
  unfold transObs
  rw [transObs_foldl]
  simp

/-- Claim C10 fails as stated: with `sx = 1`, `sy = 10` the offset `(1, 0)` is
closer than the offset `(0, 2)` and its density is not greater. -/
theorem obsWeight_not_anti_in_distance :
    (0 : ℝ) < 1 ∧ (0 : ℝ) < 10
    ∧ ((1 : ℝ) - 0) ^ 2 + (0 - 0) ^ 2 < (0 - 0) ^ 2 + (2 - 0) ^ 2
    ∧ ¬ (obsWeight Real.exp Real.pi (1, 10) 0 2 0 0
          < obsWeight Real.exp Real.pi (1, 10) 1 0 0 0) := by
  refine ⟨by norm_num, by norm_num, by norm_num, ?_⟩
  rw [not_lt]
  simp only [obsWeight]
  have hpi := Real.pi_pos
  apply mul_le_mul_of_nonneg_left
  · apply Real.exp_le_exp.mpr
    norm_num
  · positivity

/-- Claim C10, amended: for `sx > 0` and `sy > 0` the density of one
observation strictly decreases with the variance-scaled offset
`dx ^ 2 / sx ^ 2 + dy ^ 2 / sy ^ 2`; when `sx = sy` it strictly decreases
with the Euclidean offset distance. -/
theorem obsWeight_strict_anti (sx sy : ℝ) (hx : 0 < sx) (hy : 0 < sy)
    (lx1 ly1 ox1 oy1 lx2 ly2 ox2 oy2 : ℝ) :
    ((lx1 - ox1) ^ 2 / sx ^ 2 + (ly1 - oy1) ^ 2 / sy ^ 2
        < (lx2 - ox2) ^ 2 / sx ^ 2 + (ly2 - oy2) ^ 2 / sy ^ 2 →
      obsWeight Real.exp Real.pi (sx, sy) lx2 ly2 ox2 oy2
        < obsWeight Real.exp Real.pi (sx, sy) lx1 ly1 ox1 oy1)
    ∧ (sx = sy →
      (lx1 - ox1) ^ 2 + (ly1 - oy1) ^ 2 < (lx2 - ox2) ^ 2 + (ly2 - oy2) ^ 2 →
      obsWeight Real.exp Real.pi (sx, sy) lx2 ly2 ox2 oy2
        < obsWeight Real.exp Real.pi (sx, sy) lx1 ly1 ox1 oy1) := by
  have hscaled : (lx1 - ox1) ^ 2 / sx ^ 2 + (ly1 - oy1) ^ 2 / sy ^ 2
        < (lx2 - ox2) ^ 2 / sx ^ 2 + (ly2 - oy2) ^ 2 / sy ^ 2 →
      obsWeight Real.exp Real.pi (sx, sy) lx2 ly2 ox2 oy2
        < obsWeight Real.exp Real.pi (sx, sy) lx1 ly1 ox1 oy1 := by
    intro h
    simp only [obsWeight]
    have hpi := Real.pi_pos
    apply mul_lt_mul_of_pos_left
    · apply Real.exp_lt_exp.mpr
      have e1 : ∀ a b : ℝ, a / (2 * sx ^ 2) + b / (2 * sy ^ 2)
          = (a / sx ^ 2 + b / sy ^ 2) / 2 := by
        intro a b; field_simp; ring
      rw [e1, e1]
      linarith
    · positivity
  refine ⟨hscaled, ?_⟩
  intro hs h
  apply hscaled
  subst hs
  have hs2 : (0 : ℝ) < sx ^ 2 := by positivity
  rw [← add_div, ← add_div]
  exact div_lt_div_of_pos_right h hs2

/-- The amended C10 at `sx = 1`, `sy = 10`: along y the density falls from
offset `(0, 1)` to `(0, 2)`, and offset `(1, 0)` has a smaller density than
`(0, 2)` though it is closer. -/
theorem obsWeight_strict_anti_witness :
    ((0 : ℝ) < 1 ∧ (0 : ℝ) < 10)
    ∧ obsWeight Real.exp Real.pi (1, 10) 0 2 0 0 < obsWeight Real.exp Real.pi (1, 10) 0 1 0 0
    ∧ obsWeight Real.exp Real.pi (1, 10) 1 0 0 0 < obsWeight Real.exp Real.pi (1, 10) 0 2 0 0 :=
  ⟨⟨by norm_num, by norm_num⟩,
    (obsWeight_strict_anti 1 10 (by norm_num) (by norm_num) 0 1 0 0 0 2 0 0).1 (by norm_num),
    (obsWeight_strict_anti 1 10 (by norm_num) (by norm_num) 0 2 0 0 1 0 0 0).1 (by norm_num)⟩

/-! ## A particle with no landmark in range -/

/-- Claim C11, the code at a failing input: a particle at the origin, the only
landmark at `(100, 0)`, a sensor range of 50 and one observation. No landmark
is in range, the loop over the observations still runs once, and the weight is
the density at whatever `pred_x`, `pred_y` held when declared: it is below 1
for every such value, where the claim says exactly 1. -/
theorem particleWeight_no_landmark_in_range (uninit : Nat → ℝ × ℝ) :
    sensorRangePred Real.sqrt 50 (farMap ℝ) (mkParticle 0 0 0 0 : Particle ℝ).x
        (mkParticle 0 0 0 0 : Particle ℝ).y = []
    ∧ particleWeight Real.cos Real.sin Real.exp Real.sqrt Real.pi 50 (1, 1) (sampleObs ℝ)
        (farMap ℝ) uninit (mkParticle 0 0 0 0)
      = obsWeight Real.exp Real.pi (1, 1) (uninit 0).1 (uninit 0).2 1 0
    ∧ particleWeight Real.cos Real.sin Real.exp Real.sqrt Real.pi 50 (1, 1) (sampleObs ℝ)
        (farMap ℝ) uninit (mkParticle 0 0 0 0) < 1 := by
  have hfar : ¬ Real.sqrt ((0 - 100) ^ 2 + (0 - 0) ^ 2) ≤ 50 := by
    rw [Real.sqrt_le_iff]
    norm_num
  have hpred : sensorRangePred Real.sqrt 50 (farMap ℝ) (mkParticle 0 0 0 0 : Particle ℝ).x
      (mkParticle 0 0 0 0 : Particle ℝ).y = [] := by
    rw [sensorRangePred_eq]
    simp only [inRangeLandmarks, farMap, mkParticle, dist, List.filter_cons, hfar,
      decide_False, List.filter_nil, List.map_nil]
    rfl
  have hw : particleWeight Real.cos Real.sin Real.exp Real.sqrt Real.pi 50 (1, 1) (sampleObs ℝ)
        (farMap ℝ) uninit (mkParticle 0 0 0 0)
      = obsWeight Real.exp Real.pi (1, 1) (uninit 0).1 (uninit 0).2 1 0 := by
    unfold particleWeight
    simp only [hpred]
    simp [transObs, sampleObs, mkParticle, dataAssociation, nearestId, weightLoop, lookupPred]
  refine ⟨hpred, hw, ?_⟩
  rw [hw]
  simp only [obsWeight]
  have hpi := Real.pi_gt_three
  have hexp : Real.exp (-(((uninit 0).1 - 1) ^ 2 / (2 * (1 : ℝ) ^ 2)
      + ((uninit 0).2 - 0) ^ 2 / (2 * (1 : ℝ) ^ 2))) ≤ 1 := by
    rw [Real.exp_le_one_iff]
    have : 0 ≤ ((uninit 0).1 - 1) ^ 2 / (2 * (1 : ℝ) ^ 2)
        + ((uninit 0).2 - 0) ^ 2 / (2 * (1 : ℝ) ^ 2) := by positivity
    linarith
  have hm : 1 / (2 * Real.pi * 1 * 1) < 1 := by
    rw [div_lt_one (by positivity)]
    linarith
  have hm0 : 0 ≤ 1 / (2 * Real.pi * 1 * 1) := by positivity
  calc 1 / (2 * Real.pi * 1 * 1) * Real.exp _ ≤ 1 / (2 * Real.pi * 1 * 1) * 1 :=
        mul_le_mul_of_nonneg_left hexp hm0
    _ < 1 := by rw [mul_one]; exact hm

/-! ## resample: the new vector -/

/-- An invariant of the loop body is an invariant of the loop. -/
theorem iterate_invariant {σ : Type} (body : Nat → σ → Option σ) (P : σ → Prop)
    (hstep : ∀ (i : Nat) (s s' : σ), P s → body i s = some s' → P s') :
    ∀ (n : Nat) (s s' : σ), P s → iterate body n s = some s' → P s'
  | 0, s, s', hs, h => by
      simp only [iterate, Option.some.injEq] at h
      subst h; exact hs
  | n + 1, s, s', hs, h => by
      simp only [iterate, Option.bind_eq_some] at h
      obtain ⟨s1, h1, h2⟩ := h
      exact hstep n s1 s' (iterate_invariant body P hstep n s s1 hs h1) h2

/-- What a returning `resample` leaves: the new vector lists particles of the
old one, picked by a list of `num_particles` indices. -/
theorem resample_picks {R : Type} [LinearOrderedField R] (fuel : Nat) (u_int_dist : Nat)
    (u_real_dist : R → Nat → R) (pf pf' : ParticleFilter R)
    (h : resample fuel u_int_dist u_real_dist pf = some pf') :
    ∃ idxs : List Nat,
      List.Forall₂ (fun p idx => pf.particles[idx]? = some p) pf'.particles idxs := by
  simp only [resample, Option.bind_eq_some, Option.map_eq_some'] at h
  obtain ⟨m, _, st, hst, hpf⟩ := h
  have hinv := iterate_invariant (resampleStep fuel pf (u_real_dist (2 * m)))
    (fun st => ∃ idxs : List Nat,
      List.Forall₂ (fun p idx => pf.particles[idx]? = some p) st.1 idxs)
    (by
      intro i s s' ⟨idxs, hs⟩ hstep
      simp only [resampleStep, Option.bind_eq_some, Option.map_eq_some'] at hstep
      obtain ⟨bi, _, p, hp, hs'⟩ := hstep
      subst hs'
      exact ⟨idxs ++ [bi.2], List.rel_append hs (List.Forall₂.cons hp List.Forall₂.nil)⟩)
    pf.num_particles _ st ⟨[], List.Forall₂.nil⟩ hst
  subst hpf
  exact hinv

/-- Claim C12: when `resample` returns, the particle vector is a new vector of
`num_particles` entries, each of them equal in all fields to a particle of the
old vector (the one at the index the wheel stopped at); the weights vector,
`num_particles` and `is_initialized` are unchanged. -/
theorem resample_copies {R : Type} [LinearOrderedField R] (fuel : Nat) (u_int_dist : Nat)
    (u_real_dist : R → Nat → R) (pf pf' : ParticleFilter R)
    (h : resample fuel u_int_dist u_real_dist pf = some pf') :
    pf'.particles.length = pf.num_particles
    ∧ (∀ p ∈ pf'.particles, p ∈ pf.particles)
    ∧ (∃ idxs : List Nat, idxs.length = pf.num_particles
        ∧ List.Forall₂ (fun p idx => pf.particles[idx]? = some p) pf'.particles idxs)
    ∧ pf'.weights = pf.weights ∧ pf'.num_particles = pf.num_particles
    ∧ pf'.is_initialized = pf.is_initialized := by
  obtain ⟨hlen, hw, hn, hi⟩ := resample_sizes fuel u_int_dist u_real_dist pf pf' h
  obtain ⟨idxs, hidx⟩ := resample_picks fuel u_int_dist u_real_dist pf pf' h
  refine ⟨hlen, ?_, ⟨idxs, ?_, hidx⟩, hw, hn, hi⟩
  · have hmem : ∀ (l : List (Particle R)) (is : List Nat),
        List.Forall₂ (fun p idx => pf.particles[idx]? = some p) l is →
        ∀ p ∈ l, p ∈ pf.particles := by
      intro l is hf
      induction hf with
      | nil => intro p hp; cases hp
      | cons hhead _ ih =>
        intro p hp
        rcases List.mem_cons.mp hp with rfl | hp'
        · exact List.getElem?_mem hhead
        · exact ih p hp'
    exact hmem _ _ hidx
  · rw [← List.Forall₂.length_eq hidx, hlen]

/-- The sample filter resampled from start index 0 with every draw `3 / 2`:
the wheel stops at particle 1, then at particle 0. -/
theorem resample_sample :
    resample 3 0 (fun _ _ => 3 / 2) (sampleFilter ℝ)
      = some { sampleFilter ℝ with particles := [mkParticle 1 3 0 0, mkParticle 0 0 0 0] } := by
  simp [resample, sampleFilter, max_element, iterate, resampleStep, wheel]
  norm_num

/-- The resampling of C12 on the sample filter, from start index 0 with every
draw `3 / 2`: the new vector holds particle 1, then particle 0. -/
theorem resample_copies_witness :
    resample 3 0 (fun _ _ => 3 / 2) (sampleFilter ℝ)
      = some { sampleFilter ℝ with particles := [mkParticle 1 3 0 0, mkParticle 0 0 0 0] }
    ∧ ∀ p ∈ [(mkParticle 1 3 0 0 : Particle ℝ), mkParticle 0 0 0 0],
        p ∈ (sampleFilter ℝ).particles :=
  ⟨resample_sample, (resample_copies 3 0 (fun _ _ => 3 / 2) (sampleFilter ℝ) _
    resample_sample).2.1⟩

/-! ## resample: the wheel -/

/-- Fuel beyond what the while loop needs does not change what it returns. -/
theorem wheel_fuel_mono {R : Type} [LinearOrderedField R] (weights : List R) (n : Nat) :
    ∀ (fuel : Nat) (beta : R) (index : Nat) (r : R × Nat),
      wheel weights n fuel beta index = some r →
      ∀ m, wheel weights n (fuel + m) beta index = some r
  | 0, _, _, _, h, _ => by simp [wheel] at h
  | fuel + 1, beta, index, r, h, m => by
      rw [Nat.add_right_comm]
      simp only [wheel] at h ⊢
      cases hw : weights[index]? with
      | none => simp [hw] at h
      | some w =>
        simp only [hw] at h ⊢
        by_cases hb : beta > w
        · simp only [hb, if_true] at h ⊢
          exact wheel_fuel_mono weights n fuel _ _ r h m
        · simp only [hb, if_false] at h ⊢
          exact h

/-- What the while loop returns: it has passed through its body some `k` times,
with the test true before each pass, and stops at an index inside `weights`
where the test is false. -/
theorem wheel_some {R : Type} [LinearOrderedField R] (weights : List R) (n : Nat) :
    ∀ (fuel : Nat) (beta : R) (index : Nat) (r : R × Nat),
      wheel weights n fuel beta index = some r →
      ∃ k w, r = (wheelStep weights n)^[k] (beta, index)
        ∧ weights[r.2]? = some w ∧ r.1 ≤ w
        ∧ (0 ≤ beta → 0 ≤ r.1)
        ∧ (index < n → r.2 < n)
  | 0, _, _, _, h => by simp [wheel] at h
  | fuel + 1, beta, index, r, h => by
      simp only [wheel] at h
      cases hw : weights[index]? with
      | none => simp [hw] at h
      | some w =>
        simp only [hw] at h
        by_cases hb : beta > w
        · simp only [hb, if_true] at h
          obtain ⟨k, w', hk, hw', hle, hnn, hlt⟩ := wheel_some weights n fuel _ _ r h
          refine ⟨k + 1, w', ?_, hw', hle, ?_, ?_⟩
          · rw [Function.iterate_succ_apply, hk]
            simp [wheelStep, List.getD_eq_getElem?_getD, hw]
          · intro _
            exact hnn (le_of_lt (sub_pos.mpr hb))
          · intro hi
            exact hlt (Nat.mod_lt _ (Nat.lt_of_le_of_lt (Nat.zero_le _) hi))
        · simp only [hb, if_false, Option.some.injEq] at h
          subst h
          exact ⟨0, w, rfl, hw, not_lt.mp hb, fun h0 => h0, fun hi => hi⟩

/-- The pair after `k` passes from `(beta, index)` with `index` in range:
`index` has advanced by `k` modulo `num_particles` and `beta` has lost the
weights of the `k` indices passed. -/
theorem wheelStep_iterate {R : Type} [LinearOrderedField R] (weights : List R) (n : Nat)
    (beta : R) (index : Nat) (hi : index < n) :
    ∀ k, (wheelStep weights n)^[k] (beta, index)
      = (beta - ((List.range k).map (fun j => weights.getD ((index + j) % n) 0)).sum,
         (index + k) % n)
  | 0 => by simp [Nat.mod_eq_of_lt hi]
  | k + 1 => by
      rw [Function.iterate_succ_apply', wheelStep_iterate weights n beta index hi k]
      simp only [wheelStep, List.range_succ, List.map_append, List.map_cons, List.map_nil,
        List.sum_append, List.sum_cons, List.sum_nil, add_zero, Nat.mod_add_mod]
      refine Prod.ext ?_ ?_
      · simp only; ring
      · simp only [Nat.add_assoc]

/-- Claim C13: in the loop of `resample`, started at an index below
`num_particles` and fed non-negative draws, every emission ends with
`0 ≤ beta ≤ weights[index]` at the emitted index; that index is the previous
one advanced by some `k` modulo `num_particles`, `beta` is the previous value
plus the draw minus the weights of the `k` indices passed, and the particle at
the index is pushed; so a particle of weight 0 is emitted only with `beta = 0`.
No sign condition on the weights is needed. -/
theorem resample_emission {R : Type} [LinearOrderedField R] (fuel : Nat)
    (pf : ParticleFilter R) (draw : Nat → R) (u_int_dist : Nat)
    (hstart : u_int_dist < pf.num_particles) (hdraw : ∀ i, 0 ≤ draw i)
    (m : Nat) (st st' : List (Particle R) × R × Nat)
    (hst : iterate (resampleStep fuel pf draw) m ([], 0, u_int_dist) = some st)
    (hst' : resampleStep fuel pf draw m st = some st') :
    ∃ (w : R) (k : Nat) (p : Particle R),
      pf.weights[st'.2.2]? = some w ∧ 0 ≤ st'.2.1 ∧ st'.2.1 ≤ w ∧ (w = 0 → st'.2.1 = 0)
      ∧ st'.2.2 = (st.2.2 + k) % pf.num_particles
      ∧ st'.2.1 = st.2.1 + draw m
          - ((List.range k).map
              (fun j => pf.weights.getD ((st.2.2 + j) % pf.num_particles) 0)).sum
      ∧ pf.particles[st'.2.2]? = some p ∧ st'.1 = st.1 ++ [p] := by
  have hinv : 0 ≤ st.2.1 ∧ st.2.2 < pf.num_particles :=
    iterate_invariant (resampleStep fuel pf draw)
      (fun s => 0 ≤ s.2.1 ∧ s.2.2 < pf.num_particles)
      (by
        intro i s s' hs hstep
        simp only [resampleStep, Option.bind_eq_some, Option.map_eq_some'] at hstep
        obtain ⟨bi, hwheel, p, _, hs'⟩ := hstep
        obtain ⟨_, _, _, _, _, hnn, hlt⟩ := wheel_some _ _ _ _ _ _ hwheel
        subst hs'
        exact ⟨hnn (add_nonneg hs.1 (hdraw i)), hlt hs.2⟩)
      m _ st ⟨le_refl _, hstart⟩ hst
  simp only [resampleStep, Option.bind_eq_some, Option.map_eq_some'] at hst'
  obtain ⟨bi, hwheel, p, hp, hs'⟩ := hst'
  obtain ⟨k, w, hk, hw, hle, hnn, _⟩ := wheel_some _ _ _ _ _ _ hwheel
  rw [wheelStep_iterate _ _ _ _ hinv.2] at hk
  subst hs'
  have h0 : 0 ≤ bi.1 := hnn (add_nonneg hinv.1 (hdraw m))
  refine ⟨w, k, p, hw, h0, hle, ?_, ?_, ?_, hp, rfl⟩
  · intro hw0
    exact le_antisymm (hw0 ▸ hle) h0
  · rw [hk]
  · rw [hk]



/-- The second emission of C13 on the sample filter, from start index 0 with
every draw `3 / 2`: the first emission left `beta = 1 / 2` at index 1, the
second ends with `beta = 1` at index 0. -/
theorem resample_emission_witness :
    ((0 < (sampleFilter ℝ).num_particles ∧ ∀ i : Nat, (0 : ℝ) ≤ (fun _ => 3 / 2) i)
      ∧ iterate (resampleStep 3 (sampleFilter ℝ) (fun _ => 3 / 2)) 1 ([], 0, 0)
          = some ([mkParticle 1 3 0 0], 1 / 2, 1)
      ∧ resampleStep 3 (sampleFilter ℝ) (fun _ => 3 / 2) 1 ([mkParticle 1 3 0 0], 1 / 2, 1)
          = some ([mkParticle 1 3 0 0, mkParticle 0 0 0 0], 1, 0))
    ∧ ∃ (w : ℝ) (k : Nat) (p : Particle ℝ),
        (sampleFilter ℝ).weights[0]? = some w ∧ (0 : ℝ) ≤ 1 ∧ 1 ≤ w ∧ (w = 0 → (1 : ℝ) = 0)
        ∧ 0 = (1 + k) % (sampleFilter ℝ).num_particles
        ∧ (1 : ℝ) = 1 / 2 + 3 / 2
            - ((List.range k).map
                (fun j => (sampleFilter ℝ).weights.getD
                  ((1 + j) % (sampleFilter ℝ).num_particles) 0)).sum
        ∧ (sampleFilter ℝ).particles[0]? = some p
        ∧ [mkParticle 1 3 0 0, mkParticle 0 0 0 0] = [mkParticle 1 3 0 0] ++ [p] := by
  have h1 : iterate (resampleStep 3 (sampleFilter ℝ) (fun _ => 3 / 2)) 1 ([], 0, 0)
      = some ([mkParticle 1 3 0 0], 1 / 2, 1) := by
    norm_num [iterate, resampleStep, wheel, sampleFilter]
  have h2 : resampleStep 3 (sampleFilter ℝ) (fun _ => 3 / 2) 1 ([mkParticle 1 3 0 0], 1 / 2, 1)
      = some ([mkParticle 1 3 0 0, mkParticle 0 0 0 0], 1, 0) := by
    norm_num [resampleStep, wheel, sampleFilter]
  have hd : ∀ i : Nat, (0 : ℝ) ≤ (fun _ => 3 / 2) i := fun _ => by norm_num
  exact ⟨⟨⟨by simp [sampleFilter], hd⟩, h1, h2⟩,
    resample_emission 3 (sampleFilter ℝ) (fun _ => 3 / 2) 0 (by simp [sampleFilter]) hd 1 _ _
      h1 h2⟩

/-- While the test holds, passes through the body cost one unit of fuel each. -/
theorem wheel_run {R : Type} [LinearOrderedField R] (weights : List R) (n : Nat) :
    ∀ (k fuel : Nat) (s : R × Nat),
      (∀ j, j < k → ∃ w, weights[((wheelStep weights n)^[j] s).2]? = some w
        ∧ ((wheelStep weights n)^[j] s).1 > w) →
      wheel weights n (fuel + k) s.1 s.2
        = wheel weights n fuel ((wheelStep weights n)^[k] s).1 ((wheelStep weights n)^[k] s).2
  | 0, _, _, _ => rfl
  | k + 1, fuel, s, h => by
      obtain ⟨w, hw, hgt⟩ := h 0 (Nat.succ_pos k)
      simp only [Function.iterate_zero, id_eq] at hw hgt
      have hstep : wheelStep weights n s = (s.1 - w, (s.2 + 1) % n) := by
        simp [wheelStep, List.getD_eq_getElem?_getD, hw]
      rw [← Nat.add_assoc, wheel, hw]
      simp only [hgt, if_true]
      rw [Function.iterate_succ_apply, hstep]
      exact wheel_run weights n k fuel (s.1 - w, (s.2 + 1) % n) (by
        intro j hj
        have := h (j + 1) (Nat.succ_lt_succ hj)
        rwa [Function.iterate_succ_apply, hstep] at this)

/-- The weights met on one full turn of the wheel add up to the sum of all
weights. -/
theorem wheel_turn_sum {R : Type} [LinearOrderedField R] (weights : List R) (n index : Nat)
    (hlen : weights.length = n) :
    ((List.range n).map (fun j => weights.getD ((index + j) % n) 0)).sum = weights.sum := by
  have hrot : (List.range n).map (fun j => weights.getD ((index + j) % n) 0)
      = weights.rotate index := by
    apply List.ext_getElem?
    intro j
    by_cases hj : j < n
    · rw [List.getElem?_rotate (by omega), hlen, List.getElem?_map,
        List.getElem?_range hj, Nat.add_comm j index]
      have hlt : (index + j) % n < weights.length := by
        rw [hlen]; exact Nat.mod_lt _ (by omega)
      simp [List.getD_eq_getElem?_getD, List.getElem?_eq_getElem hlt]
    · rw [List.getElem?_eq_none (by simp; omega), List.getElem?_eq_none (by simp; omega)]
  rw [hrot]
  exact (List.rotate_perm weights index).sum_eq

/-- After `K` full turns from an index in range, `beta` has lost `K` times the
sum of the weights and the index is back where it started. -/
theorem wheel_turns {R : Type} [LinearOrderedField R] (weights : List R) (n : Nat)
    (hlen : weights.length = n) (beta : R) (index : Nat) (hi : index < n) :
    ∀ K : Nat, (wheelStep weights n)^[n * K] (beta, index)
      = (beta - K * weights.sum, index)
  | 0 => by simp
  | K + 1 => by
      rw [Nat.mul_succ, Nat.add_comm, Function.iterate_add_apply,
        wheel_turns weights n hlen beta index hi K, wheelStep_iterate weights n _ index hi n,
        wheel_turn_sum weights n index hlen, Nat.add_mod_right, Nat.mod_eq_of_lt hi]
      refine Prod.ext ?_ rfl
      simp only [Nat.cast_succ]
      ring

/-- The while loop returns when the weights have a positive sum and the index
starts in range. -/
theorem wheel_terminates {R : Type} [LinearOrderedField R] [Archimedean R]
    (weights : List R) (n : Nat) (hlen : weights.length = n) (hsum : 0 < weights.sum)
    (beta : R) (index : Nat) (hi : index < n) :
    ∃ fuel r, wheel weights n fuel beta index = some r := by
  classical
  have hget : ∀ i, i < n → ∃ w, weights[i]? = some w := fun i h =>
    ⟨weights[i], List.getElem?_eq_getElem (hlen ▸ h)⟩
  obtain ⟨w0, hw0⟩ := hget index hi
  obtain ⟨K, hK⟩ := exists_nat_gt ((beta - w0) / weights.sum)
  have hex : ∃ j, ¬ ∃ w, weights[((wheelStep weights n)^[j] (beta, index)).2]? = some w
      ∧ ((wheelStep weights n)^[j] (beta, index)).1 > w := by
    refine ⟨n * K, ?_⟩
    rw [wheel_turns weights n hlen beta index hi K]
    rintro ⟨w, hw, hgt⟩
    simp only at hw hgt
    rw [hw0, Option.some.injEq] at hw
    subst hw
    rw [div_lt_iff₀ hsum] at hK
    linarith
  have hmin := fun j (hj : j < Nat.find hex) => not_not.mp (Nat.find_min hex hj)
  have hstop := Nat.find_spec hex
  have hrun := wheel_run weights n (Nat.find hex) 1 (beta, index) hmin
  refine ⟨1 + Nat.find hex, (wheelStep weights n)^[Nat.find hex] (beta, index), ?_⟩
  rw [hrun]
  have hidx : ((wheelStep weights n)^[Nat.find hex] (beta, index)).2 < n := by
    rw [wheelStep_iterate weights n beta index hi]
    exact Nat.mod_lt _ (by omega)
  obtain ⟨w, hw⟩ := hget _ hidx
  rw [wheel, hw]
  have hng : ¬ ((wheelStep weights n)^[Nat.find hex] (beta, index)).1 > w :=
    fun hgt => hstop ⟨w, hw, hgt⟩
  simp only [hng, if_false]

/-! ## resample: termination -/

/-- The loop of `resample` returns after any number of emissions, with one
result for every fuel from some bound on. -/
theorem resample_loop_terminates {R : Type} [LinearOrderedField R] [Archimedean R]
    (pf : ParticleFilter R) (draw : Nat → R) (u_int_dist : Nat)
    (hp : pf.particles.length = pf.num_particles) (hw : pf.weights.length = pf.num_particles)
    (hsum : 0 < pf.weights.sum) (hstart : u_int_dist < pf.num_particles) :
    ∀ m : Nat, ∃ (F : Nat) (st : List (Particle R) × R × Nat),
      st.2.2 < pf.num_particles
      ∧ ∀ fuel, F ≤ fuel →
          iterate (resampleStep fuel pf draw) m ([], 0, u_int_dist) = some st
  | 0 => ⟨0, ([], 0, u_int_dist), hstart, fun _ _ => rfl⟩
  | m + 1 => by
      obtain ⟨F, st, hidx, hF⟩ := resample_loop_terminates pf draw u_int_dist hp hw hsum hstart m
      obtain ⟨f, r, hr⟩ := wheel_terminates pf.weights pf.num_particles hw hsum
        (st.2.1 + draw m) st.2.2 hidx
      obtain ⟨_, _, _, _, _, _, hlt⟩ := wheel_some _ _ _ _ _ _ hr
      have hrlt : r.2 < pf.particles.length := hp ▸ hlt hidx
      refine ⟨max F f, (st.1 ++ [pf.particles[r.2]], r.1, r.2), hlt hidx, ?_⟩
      intro fuel hfuel
      have hfF : F ≤ fuel := le_trans (le_max_left _ _) hfuel
      have hff : f ≤ fuel := le_trans (le_max_right _ _) hfuel
      have hwheel : wheel pf.weights pf.num_particles fuel (st.2.1 + draw m) st.2.2 = some r := by
        have := wheel_fuel_mono _ _ _ _ _ _ hr (fuel - f)
        rwa [Nat.add_sub_cancel' hff] at this
      rw [iterate, hF fuel hfF]
      simp only [Option.some_bind, resampleStep, hwheel, List.getElem?_eq_getElem hrlt,
        Option.map_some']

/-- With all weights zero and a positive `beta` the while loop never returns. -/
theorem wheel_zero_weights {R : Type} [LinearOrderedField R] (weights : List R) (n : Nat)
    (hz : ∀ w ∈ weights, w = 0) :
    ∀ (fuel : Nat) (beta : R) (index : Nat), 0 < beta → wheel weights n fuel beta index = none
  | 0, _, _, _ => rfl
  | fuel + 1, beta, index, hb => by
      rw [wheel]
      cases hw : weights[index]? with
      | none => rfl
      | some w =>
        have hw0 : w = 0 := hz w (List.getElem?_mem hw)
        subst hw0
        simp only [gt_iff_lt, hb, if_true, sub_zero]
        exact wheel_zero_weights weights n hz fuel beta _ hb

/-- Claim C19: over an Archimedean ordered field such as the reals, when both
vectors have `num_particles` entries, the weights have a positive sum and the
start index is below `num_particles`, every while loop of `resample` ends:
there is a fuel bound from which `resample` returns one and the same filter,
whatever the draws. With all weights zero and a positive `beta` the while
loop returns for no fuel. -/
theorem resample_terminates {R : Type} [LinearOrderedField R] [Archimedean R]
    (u_int_dist : Nat) (u_real_dist : R → Nat → R) (pf : ParticleFilter R)
    (hp : pf.particles.length = pf.num_particles) (hw : pf.weights.length = pf.num_particles)
    (hsum : 0 < pf.weights.sum) (hstart : u_int_dist < pf.num_particles) :
    (∃ (F : Nat) (pf' : ParticleFilter R), ∀ fuel, F ≤ fuel →
      resample fuel u_int_dist u_real_dist pf = some pf')
    ∧ ∀ (weights : List R) (n fuel : Nat) (beta : R) (index : Nat),
        (∀ w ∈ weights, w = 0) → 0 < beta → wheel weights n fuel beta index = none := by
  refine ⟨?_, fun weights n fuel beta index hz hb =>
    wheel_zero_weights weights n hz fuel beta index hb⟩
  have hne : pf.weights ≠ [] := by
    intro h
    rw [h] at hw
    simp only [List.length_nil] at hw
    omega
  obtain ⟨mx, hmx⟩ : ∃ mx, max_element pf.weights = some mx := by
    cases hws : pf.weights with
    | nil => exact absurd hws hne
    | cons w ws => exact ⟨_, rfl⟩
  obtain ⟨F, st, _, hF⟩ := resample_loop_terminates pf (u_real_dist (2 * mx)) u_int_dist hp hw
    hsum hstart pf.num_particles
  refine ⟨F, { pf with particles := st.1 }, ?_⟩
  intro fuel hfuel
  simp only [resample, hmx, Option.some_bind, hF fuel hfuel, Option.map_some']

/-- The termination of C19 on the sample filter, over the reals. -/
theorem resample_terminates_witness :
    ((sampleFilter ℝ).particles.length = (sampleFilter ℝ).num_particles
      ∧ (sampleFilter ℝ).weights.length = (sampleFilter ℝ).num_particles
      ∧ 0 < (sampleFilter ℝ).weights.sum ∧ 0 < (sampleFilter ℝ).num_particles)
    ∧ ∃ (F : Nat) (pf' : ParticleFilter ℝ), ∀ fuel, F ≤ fuel →
        resample fuel 0 (fun _ _ => 3 / 2) (sampleFilter ℝ) = some pf' :=
  have hsum : 0 < (sampleFilter ℝ).weights.sum := by norm_num [sampleFilter]
  ⟨⟨rfl, rfl, hsum, by simp [sampleFilter]⟩,
    (resample_terminates 0 (fun _ _ => 3 / 2) (sampleFilter ℝ) rfl rfl hsum
      (by simp [sampleFilter])).1⟩

/-! ## resample: the probability of the first slot -/

/-- The first emission of `resample`: the while loop runs from the start index
with `beta = 0 + u` for the first draw `u`, and the first slot receives the
particle at the index where it stops. -/
theorem resample_first_emission {R : Type} [LinearOrderedField R] (fuel : Nat)
    (pf : ParticleFilter R) (draw : Nat → R) (start : Nat)
    (st : List (Particle R) × R × Nat) :
    iterate (resampleStep fuel pf draw) 1 ([], 0, start) = some st ↔
      ∃ r p, wheel pf.weights pf.num_particles fuel (0 + draw 0) start = some r
        ∧ pf.particles[r.2]? = some p ∧ st = ([p], r.1, r.2) := by
  simp only [iterate, Option.some_bind, resampleStep, Option.bind_eq_some,
    Option.map_eq_some', List.nil_append]
  constructor
  · rintro ⟨r, hr, p, hp, rfl⟩
    exact ⟨r, p, hr, hp, rfl⟩
  · rintro ⟨r, p, hr, hp, rfl⟩
    exact ⟨r, hr, p, hp, rfl⟩

/-- The result of the while loop does not depend on the fuel that suffices. -/
theorem wheel_fuel_unique {R : Type} [LinearOrderedField R] (weights : List R) (n : Nat)
    (f1 f2 : Nat) (beta : R) (index : Nat) (r1 r2 : R × Nat)
    (h1 : wheel weights n f1 beta index = some r1)
    (h2 : wheel weights n f2 beta index = some r2) : r1 = r2 := by
  have e1 := wheel_fuel_mono weights n f1 beta index r1 h1 f2
  have e2 := wheel_fuel_mono weights n f2 beta index r2 h2 f1
  rw [Nat.add_comm] at e2
  rw [e1] at e2
  exact Option.some.inj e2

/-- When the while loop returns with fuel `F`, the first slot holds particle `i`
exactly when that run stops at `i`. -/
theorem firstSlotDraws_iff (weights : List ℝ) (start i F : Nat) (u : ℝ)
    (r : ℝ × Nat) (hr : wheel weights weights.length F (0 + u) start = some r) :
    u ∈ firstSlotDraws weights start i ↔ r.2 = i := by
  simp only [firstSlotDraws, Set.mem_setOf_eq]
  constructor
  · rintro ⟨fuel, hf⟩
    rw [Option.map_eq_some'] at hf
    obtain ⟨r', hr', hi⟩ := hf
    rw [wheel_fuel_unique weights _ F fuel _ _ r r' hr hr']
    exact hi
  · intro hi
    exact ⟨F, by rw [hr]; simp [hi]⟩

/-- The while loop stops where the test fails. -/
theorem wheel_exit {R : Type} [LinearOrderedField R] (weights : List R) (n fuel : Nat)
    (beta : R) (index : Nat) (w : R) (hw : weights[index]? = some w) (h : beta ≤ w) :
    wheel weights n (fuel + 1) beta index = some (beta, index) := by
  simp [wheel, hw, not_lt.mpr h]

/-- The while loop passes through its body where the test holds. -/
theorem wheel_pass {R : Type} [LinearOrderedField R] (weights : List R) (n fuel : Nat)
    (beta : R) (index : Nat) (w : R) (hw : weights[index]? = some w) (h : w < beta) :
    wheel weights n (fuel + 1) beta index
      = wheel weights n fuel (beta - w) ((index + 1) % n) := by
  simp [wheel, hw, h]

/-- Started at index 0 with a first draw `u` below `97 / 50`, the while loop on
the skewed weights returns within 9 tests, and it stops at index 0 exactly for
the draws named. -/
theorem skewed_start0 (u : ℝ) (hM : u < 97 / 50) :
    ∃ r, wheel (skewedWeights ℝ) 4 9 (0 + u) 0 = some r
      ∧ (r.2 = 0 ↔ (u ≤ 97 / 100 ∨ 1 < u)) := by
  rw [zero_add]
  have w0 : (skewedWeights ℝ)[0]? = some (97 / 100) := rfl
  have w1 : (skewedWeights ℝ)[1]? = some (1 / 100) := rfl
  have w2 : (skewedWeights ℝ)[2]? = some (1 / 100) := rfl
  have w3 : (skewedWeights ℝ)[3]? = some (1 / 100) := rfl
  rcases le_or_lt (u) (97 / 100) with h0 | h0
  · exact ⟨_, wheel_exit _ _ _ _ _ _ w0 h0, by simp; left; linarith⟩
  rw [wheel_pass _ _ _ _ _ _ w0 h0]
  rcases le_or_lt (u - 97 / 100) (1 / 100) with h1 | h1
  · exact ⟨_, wheel_exit _ _ _ _ _ _ w1 h1, by simp; constructor <;> linarith⟩
  rw [wheel_pass _ _ _ _ _ _ w1 h1]
  rcases le_or_lt (u - 97 / 100 - 1 / 100) (1 / 100) with h2 | h2
  · exact ⟨_, wheel_exit _ _ _ _ _ _ w2 h2, by simp; constructor <;> linarith⟩
  rw [wheel_pass _ _ _ _ _ _ w2 h2]
  rcases le_or_lt (u - 97 / 100 - 1 / 100 - 1 / 100) (1 / 100) with h3 | h3
  · exact ⟨_, wheel_exit _ _ _ _ _ _ w3 h3, by simp; constructor <;> linarith⟩
  rw [wheel_pass _ _ _ _ _ _ w3 h3]
  exact ⟨_, wheel_exit _ _ _ _ _ _ w0 (by linarith), by simp; right; linarith⟩

/-- Started at index 1 with a first draw `u` below `97 / 50`, the while loop on
the skewed weights returns within 9 tests, and it stops at index 0 exactly for
the draws named. -/
theorem skewed_start1 (u : ℝ) (hM : u < 97 / 50) :
    ∃ r, wheel (skewedWeights ℝ) 4 9 (0 + u) 1 = some r
      ∧ (r.2 = 0 ↔ ((3 / 100 < u ∧ u ≤ 1) ∨ 103 / 100 < u)) := by
  rw [zero_add]
  have w0 : (skewedWeights ℝ)[0]? = some (97 / 100) := rfl
  have w1 : (skewedWeights ℝ)[1]? = some (1 / 100) := rfl
  have w2 : (skewedWeights ℝ)[2]? = some (1 / 100) := rfl
  have w3 : (skewedWeights ℝ)[3]? = some (1 / 100) := rfl
  rcases le_or_lt (u) (1 / 100) with h0 | h0
  · exact ⟨_, wheel_exit _ _ _ _ _ _ w1 h0, by simp; exact ⟨fun _ => by linarith, by linarith⟩⟩
  rw [wheel_pass _ _ _ _ _ _ w1 h0]
  rcases le_or_lt (u - 1 / 100) (1 / 100) with h1 | h1
  · exact ⟨_, wheel_exit _ _ _ _ _ _ w2 h1, by simp; exact ⟨fun _ => by linarith, by linarith⟩⟩
  rw [wheel_pass _ _ _ _ _ _ w2 h1]
  rcases le_or_lt (u - 1 / 100 - 1 / 100) (1 / 100) with h2 | h2
  · exact ⟨_, wheel_exit _ _ _ _ _ _ w3 h2, by simp; exact ⟨fun _ => by linarith, by linarith⟩⟩
  rw [wheel_pass _ _ _ _ _ _ w3 h2]
  rcases le_or_lt (u - 1 / 100 - 1 / 100 - 1 / 100) (97 / 100) with h3 | h3
  · exact ⟨_, wheel_exit _ _ _ _ _ _ w0 h3, by simp; left; constructor <;> linarith⟩
  rw [wheel_pass _ _ _ _ _ _ w0 h3]
  rcases le_or_lt (u - 1 / 100 - 1 / 100 - 1 / 100 - 97 / 100) (1 / 100) with h4 | h4
  · exact ⟨_, wheel_exit _ _ _ _ _ _ w1 h4, by simp; exact ⟨fun _ => by linarith, by linarith⟩⟩
  rw [wheel_pass _ _ _ _ _ _ w1 h4]
  rcases le_or_lt (u - 1 / 100 - 1 / 100 - 1 / 100 - 97 / 100 - 1 / 100) (1 / 100) with h5 | h5
  · exact ⟨_, wheel_exit _ _ _ _ _ _ w2 h5, by simp; exact ⟨fun _ => by linarith, by linarith⟩⟩
  rw [wheel_pass _ _ _ _ _ _ w2 h5]
  rcases le_or_lt (u - 1 / 100 - 1 / 100 - 1 / 100 - 97 / 100 - 1 / 100 - 1 / 100) (1 / 100) with h6 | h6
  · exact ⟨_, wheel_exit _ _ _ _ _ _ w3 h6, by simp; exact ⟨fun _ => by linarith, by linarith⟩⟩
  rw [wheel_pass _ _ _ _ _ _ w3 h6]
  exact ⟨_, wheel_exit _ _ _ _ _ _ w0 (by linarith), by simp; right; linarith⟩

/-- Started at index 2 with a first draw `u` below `97 / 50`, the while loop on
the skewed weights returns within 9 tests, and it stops at index 0 exactly for
the draws named. -/
theorem skewed_start2 (u : ℝ) (hM : u < 97 / 50) :
    ∃ r, wheel (skewedWeights ℝ) 4 9 (0 + u) 2 = some r
      ∧ (r.2 = 0 ↔ ((2 / 100 < u ∧ u ≤ 99 / 100) ∨ 102 / 100 < u)) := by
  rw [zero_add]
  have w0 : (skewedWeights ℝ)[0]? = some (97 / 100) := rfl
  have w1 : (skewedWeights ℝ)[1]? = some (1 / 100) := rfl
  have w2 : (skewedWeights ℝ)[2]? = some (1 / 100) := rfl
  have w3 : (skewedWeights ℝ)[3]? = some (1 / 100) := rfl
  rcases le_or_lt (u) (1 / 100) with h0 | h0
  · exact ⟨_, wheel_exit _ _ _ _ _ _ w2 h0, by simp; exact ⟨fun _ => by linarith, by linarith⟩⟩
  rw [wheel_pass _ _ _ _ _ _ w2 h0]
  rcases le_or_lt (u - 1 / 100) (1 / 100) with h1 | h1
  · exact ⟨_, wheel_exit _ _ _ _ _ _ w3 h1, by simp; exact ⟨fun _ => by linarith, by linarith⟩⟩
  rw [wheel_pass _ _ _ _ _ _ w3 h1]
  rcases le_or_lt (u - 1 / 100 - 1 / 100) (97 / 100) with h2 | h2
  · exact ⟨_, wheel_exit _ _ _ _ _ _ w0 h2, by simp; left; constructor <;> linarith⟩
  rw [wheel_pass _ _ _ _ _ _ w0 h2]
  rcases le_or_lt (u - 1 / 100 - 1 / 100 - 97 / 100) (1 / 100) with h3 | h3
  · exact ⟨_, wheel_exit _ _ _ _ _ _ w1 h3, by simp; exact ⟨fun _ => by linarith, by linarith⟩⟩
  rw [wheel_pass _ _ _ _ _ _ w1 h3]
  rcases le_or_lt (u - 1 / 100 - 1 / 100 - 97 / 100 - 1 / 100) (1 / 100) with h4 | h4
  · exact ⟨_, wheel_exit _ _ _ _ _ _ w2 h4, by simp; exact ⟨fun _ => by linarith, by linarith⟩⟩
  rw [wheel_pass _ _ _ _ _ _ w2 h4]
  rcases le_or_lt (u - 1 / 100 - 1 / 100 - 97 / 100 - 1 / 100 - 1 / 100) (1 / 100) with h5 | h5
  · exact ⟨_, wheel_exit _ _ _ _ _ _ w3 h5, by simp; exact ⟨fun _ => by linarith, by linarith⟩⟩
  rw [wheel_pass _ _ _ _ _ _ w3 h5]
  exact ⟨_, wheel_exit _ _ _ _ _ _ w0 (by linarith), by simp; right; linarith⟩

/-- Started at index 3 with a first draw `u` below `97 / 50`, the while loop on
the skewed weights returns within 9 tests, and it stops at index 0 exactly for
the draws named. -/
theorem skewed_start3 (u : ℝ) (hM : u < 97 / 50) :
    ∃ r, wheel (skewedWeights ℝ) 4 9 (0 + u) 3 = some r
      ∧ (r.2 = 0 ↔ ((1 / 100 < u ∧ u ≤ 98 / 100) ∨ 101 / 100 < u)) := by
  rw [zero_add]
  have w0 : (skewedWeights ℝ)[0]? = some (97 / 100) := rfl
  have w1 : (skewedWeights ℝ)[1]? = some (1 / 100) := rfl
  have w2 : (skewedWeights ℝ)[2]? = some (1 / 100) := rfl
  have w3 : (skewedWeights ℝ)[3]? = some (1 / 100) := rfl
  rcases le_or_lt (u) (1 / 100) with h0 | h0
  · exact ⟨_, wheel_exit _ _ _ _ _ _ w3 h0, by simp; exact ⟨fun _ => by linarith, by linarith⟩⟩
  rw [wheel_pass _ _ _ _ _ _ w3 h0]
  rcases le_or_lt (u - 1 / 100) (97 / 100) with h1 | h1
  · exact ⟨_, wheel_exit _ _ _ _ _ _ w0 h1, by simp; left; constructor <;> linarith⟩
  rw [wheel_pass _ _ _ _ _ _ w0 h1]
  rcases le_or_lt (u - 1 / 100 - 97 / 100) (1 / 100) with h2 | h2
  · exact ⟨_, wheel_exit _ _ _ _ _ _ w1 h2, by simp; exact ⟨fun _ => by linarith, by linarith⟩⟩
  rw [wheel_pass _ _ _ _ _ _ w1 h2]
  rcases le_or_lt (u - 1 / 100 - 97 / 100 - 1 / 100) (1 / 100) with h3 | h3
  · exact ⟨_, wheel_exit _ _ _ _ _ _ w2 h3, by simp; exact ⟨fun _ => by linarith, by linarith⟩⟩
  rw [wheel_pass _ _ _ _ _ _ w2 h3]
  rcases le_or_lt (u - 1 / 100 - 97 / 100 - 1 / 100 - 1 / 100) (1 / 100) with h4 | h4
  · exact ⟨_, wheel_exit _ _ _ _ _ _ w3 h4, by simp; exact ⟨fun _ => by linarith, by linarith⟩⟩
  rw [wheel_pass _ _ _ _ _ _ w3 h4]
  exact ⟨_, wheel_exit _ _ _ _ _ _ w0 (by linarith), by simp; right; linarith⟩

/-- The length of two intervals one after the other. -/
theorem volume_Icc_union_Ioo (a b c d : ℝ) (hab : a ≤ b) (hbc : b ≤ c) (hcd : c ≤ d) :
    (MeasureTheory.volume (Set.Icc a b ∪ Set.Ioo c d)).toReal = (b - a) + (d - c) := by
  have hd : Disjoint (Set.Icc a b) (Set.Ioo c d) := by
    rw [Set.disjoint_left]
    intro x hx hx'
    exact absurd (lt_of_lt_of_le hx'.1 (le_trans hx.2 hbc)) (lt_irrefl _)
  rw [MeasureTheory.measure_union hd measurableSet_Ioo, Real.volume_Icc, Real.volume_Ioo,
    ENNReal.toReal_add ENNReal.ofReal_ne_top ENNReal.ofReal_ne_top,
    ENNReal.toReal_ofReal (by linarith), ENNReal.toReal_ofReal (by linarith)]

/-- The length of two intervals one after the other. -/
theorem volume_Ioc_union_Ioo (a b c d : ℝ) (hab : a ≤ b) (hbc : b ≤ c) (hcd : c ≤ d) :
    (MeasureTheory.volume (Set.Ioc a b ∪ Set.Ioo c d)).toReal = (b - a) + (d - c) := by
  have hd : Disjoint (Set.Ioc a b) (Set.Ioo c d) := by
    rw [Set.disjoint_left]
    intro x hx hx'
    exact absurd (lt_of_lt_of_le hx'.1 (le_trans hx.2 hbc)) (lt_irrefl _)
  rw [MeasureTheory.measure_union hd measurableSet_Ioo, Real.volume_Ioc, Real.volume_Ioo,
    ENNReal.toReal_add ENNReal.ofReal_ne_top ENNReal.ofReal_ne_top,
    ENNReal.toReal_ofReal (by linarith), ENNReal.toReal_ofReal (by linarith)]

/-- The first draws in `[0, 97 / 50)` that leave particle 0 in the first slot,
from start index 0. -/
theorem skewed_draws0 :
    firstSlotDraws (skewedWeights ℝ) 0 0 ∩ Set.Ico 0 (2 * (97 / 100))
      = Set.Icc 0 (97 / 100) ∪ Set.Ioo 1 (97 / 50) := by
  ext u
  simp only [Set.mem_inter_iff, Set.mem_Ico, Set.mem_union, Set.mem_Icc, Set.mem_Ioo]
  by_cases hM : u < 97 / 50
  · obtain ⟨r, hr, hiff⟩ := skewed_start0 u hM
    rw [firstSlotDraws_iff _ _ _ 9 u r hr, hiff]
    constructor
    · rintro ⟨h | h, h0, _⟩
      · exact Or.inl ⟨h0, h⟩
      · exact Or.inr ⟨h, hM⟩
    · rintro (⟨h0, h⟩ | ⟨h, _⟩)
      · exact ⟨Or.inl h, h0, by linarith⟩
      · exact ⟨Or.inr h, by linarith, by linarith⟩
  · constructor
    · rintro ⟨_, _, h⟩
      exact absurd (by linarith) hM
    · rintro (⟨_, h⟩ | ⟨_, h⟩)
      · exact absurd (by linarith) hM
      · exact absurd h hM

/-- The first draws in `[0, 97 / 50)` that leave particle 0 in the first slot,
from start index 1. -/
theorem skewed_draws1 :
    firstSlotDraws (skewedWeights ℝ) 1 0 ∩ Set.Ico 0 (2 * (97 / 100))
      = Set.Ioc (3 / 100) (1) ∪ Set.Ioo (103 / 100) (97 / 50) := by
  ext u
  simp only [Set.mem_inter_iff, Set.mem_Ico, Set.mem_union, Set.mem_Ioc, Set.mem_Ioo]
  by_cases hM : u < 97 / 50
  · obtain ⟨r, hr, hiff⟩ := skewed_start1 u hM
    rw [firstSlotDraws_iff _ _ _ 9 u r hr, hiff]
    constructor
    · rintro ⟨h | h, _, _⟩
      · exact Or.inl h
      · exact Or.inr ⟨h, hM⟩
    · rintro (h | ⟨h, _⟩)
      · exact ⟨Or.inl h, by linarith [h.1], by linarith⟩
      · exact ⟨Or.inr h, by linarith, by linarith⟩
  · constructor
    · rintro ⟨_, _, h⟩
      exact absurd (by linarith) hM
    · rintro (⟨_, h⟩ | ⟨_, h⟩)
      · exact absurd (by linarith) hM
      · exact absurd h hM

/-- The first draws in `[0, 97 / 50)` that leave particle 0 in the first slot,
from start index 2. -/
theorem skewed_draws2 :
    firstSlotDraws (skewedWeights ℝ) 2 0 ∩ Set.Ico 0 (2 * (97 / 100))
      = Set.Ioc (2 / 100) (99 / 100) ∪ Set.Ioo (102 / 100) (97 / 50) := by
  ext u
  simp only [Set.mem_inter_iff, Set.mem_Ico, Set.mem_union, Set.mem_Ioc, Set.mem_Ioo]
  by_cases hM : u < 97 / 50
  · obtain ⟨r, hr, hiff⟩ := skewed_start2 u hM
    rw [firstSlotDraws_iff _ _ _ 9 u r hr, hiff]
    constructor
    · rintro ⟨h | h, _, _⟩
      · exact Or.inl h
      · exact Or.inr ⟨h, hM⟩
    · rintro (h | ⟨h, _⟩)
      · exact ⟨Or.inl h, by linarith [h.1], by linarith⟩
      · exact ⟨Or.inr h, by linarith, by linarith⟩
  · constructor
    · rintro ⟨_, _, h⟩
      exact absurd (by linarith) hM
    · rintro (⟨_, h⟩ | ⟨_, h⟩)
      · exact absurd (by linarith) hM
      · exact absurd h hM

/-- The first draws in `[0, 97 / 50)` that leave particle 0 in the first slot,
from start index 3. -/
theorem skewed_draws3 :
    firstSlotDraws (skewedWeights ℝ) 3 0 ∩ Set.Ico 0 (2 * (97 / 100))
      = Set.Ioc (1 / 100) (98 / 100) ∪ Set.Ioo (101 / 100) (97 / 50) := by
  ext u
  simp only [Set.mem_inter_iff, Set.mem_Ico, Set.mem_union, Set.mem_Ioc, Set.mem_Ioo]
  by_cases hM : u < 97 / 50
  · obtain ⟨r, hr, hiff⟩ := skewed_start3 u hM
    rw [firstSlotDraws_iff _ _ _ 9 u r hr, hiff]
    constructor
    · rintro ⟨h | h, _, _⟩
      · exact Or.inl h
      · exact Or.inr ⟨h, hM⟩
    · rintro (h | ⟨h, _⟩)
      · exact ⟨Or.inl h, by linarith [h.1], by linarith⟩
      · exact ⟨Or.inr h, by linarith, by linarith⟩
  · constructor
    · rintro ⟨_, _, h⟩
      exact absurd (by linarith) hM
    · rintro (⟨_, h⟩ | ⟨_, h⟩)
      · exact absurd (by linarith) hM
      · exact absurd h hM

/-- The first slot holds particle 0 of the skewed weights with probability
`379 / 388`. -/
theorem firstSlotProb_skewed : firstSlotProb (skewedWeights ℝ) 0 = some (379 / 388) := by
  have hmax : max_element (skewedWeights ℝ) = some (97 / 100) := by
    norm_num [max_element, skewedWeights]
  have hlen : (skewedWeights ℝ).length = 4 := rfl
  have hpos : (0 : ℝ) < 2 * (97 / 100) := by norm_num
  simp only [firstSlotProb, hmax, hlen, if_neg (not_lt.mpr (le_of_lt hpos)), u_real_prob,
    if_pos hpos, Finset.sum_range_succ, Finset.sum_range_zero, zero_add,
    skewed_draws0, skewed_draws1, skewed_draws2, skewed_draws3]
  rw [volume_Icc_union_Ioo _ _ _ _ (by norm_num) (by norm_num) (by norm_num),
    volume_Ioc_union_Ioo _ _ _ _ (by norm_num) (by norm_num) (by norm_num),
    volume_Ioc_union_Ioo _ _ _ _ (by norm_num) (by norm_num) (by norm_num),
    volume_Ioc_union_Ioo _ _ _ _ (by norm_num) (by norm_num) (by norm_num)]
  norm_num

/-- On the single weight 0 the maximum is 0, every draw is 0, the while loop
stops at once, and the first slot holds the particle of weight 0 with
probability 1. -/
theorem firstSlotProb_zero_weight : firstSlotProb [0] 0 = some 1 := by
  have hmax : max_element ([0] : List ℝ) = some 0 := by
    norm_num [max_element]
  have h0 : (0 : ℝ) ∈ firstSlotDraws [0] 0 0 :=
    (firstSlotDraws_iff [0] 0 0 1 0 (0, 0) (by norm_num [wheel])).mpr rfl
  simp [firstSlotProb, hmax, u_real_prob, Finset.sum_range_succ, h0]

/-- The large entry of the ten weights. -/
theorem tenWeights_zero : (tenWeights ℝ)[0]? = some (91 / 100) := rfl

/-- The small entries of the ten weights. -/
theorem tenWeights_succ (k : Nat) (h1 : 1 ≤ k) (h10 : k < 10) :
    (tenWeights ℝ)[k]? = some (1 / 100) := by
  interval_cases k <;> rfl

/-- The second lap of the wheel on the ten weights from index 9: with `beta` at
most `91 / 100` the loop stops at index 0 exactly when `beta` exceeds the
1 small weights ahead. -/
theorem ten_lap9 (b : ℝ) (hb : b ≤ 91 / 100) :
    ∃ r, wheel (tenWeights ℝ) 10 2 b 9 = some r ∧ (r.2 = 0 ↔ 1 / 100 < b) := by
  have ws := tenWeights_succ 9 (by norm_num) (by norm_num)
  rcases le_or_lt b (1 / 100) with h | h
  · exact ⟨_, wheel_exit _ _ _ _ _ _ ws h, by simp; linarith⟩
  rw [wheel_pass _ _ _ _ _ _ ws h]
  exact ⟨_, wheel_exit _ _ _ _ _ _ tenWeights_zero (by linarith), by simp; linarith⟩

/-- The second lap of the wheel on the ten weights from index 8: with `beta` at
most `91 / 100` the loop stops at index 0 exactly when `beta` exceeds the
2 small weights ahead. -/
theorem ten_lap8 (b : ℝ) (hb : b ≤ 91 / 100) :
    ∃ r, wheel (tenWeights ℝ) 10 3 b 8 = some r ∧ (r.2 = 0 ↔ 1 / 50 < b) := by
  have ws := tenWeights_succ 8 (by norm_num) (by norm_num)
  rcases le_or_lt b (1 / 100) with h | h
  · exact ⟨_, wheel_exit _ _ _ _ _ _ ws h, by simp; linarith⟩
  rw [wheel_pass _ _ _ _ _ _ ws h]
  obtain ⟨r, hr, hiff⟩ := ten_lap9 (b - 1 / 100) (by linarith)
  refine ⟨r, hr, ?_⟩
  rw [hiff]
  constructor <;> intro h' <;> linarith

/-- The second lap of the wheel on the ten weights from index 7: with `beta` at
most `91 / 100` the loop stops at index 0 exactly when `beta` exceeds the
3 small weights ahead. -/
theorem ten_lap7 (b : ℝ) (hb : b ≤ 91 / 100) :
    ∃ r, wheel (tenWeights ℝ) 10 4 b 7 = some r ∧ (r.2 = 0 ↔ 3 / 100 < b) := by
  have ws := tenWeights_succ 7 (by norm_num) (by norm_num)
  rcases le_or_lt b (1 / 100) with h | h
  · exact ⟨_, wheel_exit _ _ _ _ _ _ ws h, by simp; linarith⟩
  rw [wheel_pass _ _ _ _ _ _ ws h]
  obtain ⟨r, hr, hiff⟩ := ten_lap8 (b - 1 / 100) (by linarith)
  refine ⟨r, hr, ?_⟩
  rw [hiff]
  constructor <;> intro h' <;> linarith

/-- The second lap of the wheel on the ten weights from index 6: with `beta` at
most `91 / 100` the loop stops at index 0 exactly when `beta` exceeds the
4 small weights ahead. -/
theorem ten_lap6 (b : ℝ) (hb : b ≤ 91 / 100) :
    ∃ r, wheel (tenWeights ℝ) 10 5 b 6 = some r ∧ (r.2 = 0 ↔ 1 / 25 < b) := by
  have ws := tenWeights_succ 6 (by norm_num) (by norm_num)
  rcases le_or_lt b (1 / 100) with h | h
  · exact ⟨_, wheel_exit _ _ _ _ _ _ ws h, by simp; linarith⟩
  rw [wheel_pass _ _ _ _ _ _ ws h]
  obtain ⟨r, hr, hiff⟩ := ten_lap7 (b - 1 / 100) (by linarith)
  refine ⟨r, hr, ?_⟩
  rw [hiff]
  constructor <;> intro h' <;> linarith

/-- The second lap of the wheel on the ten weights from index 5: with `beta` at
most `91 / 100` the loop stops at index 0 exactly when `beta` exceeds the
5 small weights ahead. -/
theorem ten_lap5 (b : ℝ) (hb : b ≤ 91 / 100) :
    ∃ r, wheel (tenWeights ℝ) 10 6 b 5 = some r ∧ (r.2 = 0 ↔ 1 / 20 < b) := by
  have ws := tenWeights_succ 5 (by norm_num) (by norm_num)
  rcases le_or_lt b (1 / 100) with h | h
  · exact ⟨_, wheel_exit _ _ _ _ _ _ ws h, by simp; linarith⟩
  rw [wheel_pass _ _ _ _ _ _ ws h]
  obtain ⟨r, hr, hiff⟩ := ten_lap6 (b - 1 / 100) (by linarith)
  refine ⟨r, hr, ?_⟩
  rw [hiff]
  constructor <;> intro h' <;> linarith

/-- The second lap of the wheel on the ten weights from index 4: with `beta` at
most `91 / 100` the loop stops at index 0 exactly when `beta` exceeds the
6 small weights ahead. -/
theorem ten_lap4 (b : ℝ) (hb : b ≤ 91 / 100) :
    ∃ r, wheel (tenWeights ℝ) 10 7 b 4 = some r ∧ (r.2 = 0 ↔ 3 / 50 < b) := by
  have ws := tenWeights_succ 4 (by norm_num) (by norm_num)
  rcases le_or_lt b (1 / 100) with h | h
  · exact ⟨_, wheel_exit _ _ _ _ _ _ ws h, by simp; linarith⟩
  rw [wheel_pass _ _ _ _ _ _ ws h]
  obtain ⟨r, hr, hiff⟩ := ten_lap5 (b - 1 / 100) (by linarith)
  refine ⟨r, hr, ?_⟩
  rw [hiff]
  constructor <;> intro h' <;> linarith

/-- The second lap of the wheel on the ten weights from index 3: with `beta` at
most `91 / 100` the loop stops at index 0 exactly when `beta` exceeds the
7 small weights ahead. -/
theorem ten_lap3 (b : ℝ) (hb : b ≤ 91 / 100) :
    ∃ r, wheel (tenWeights ℝ) 10 8 b 3 = some r ∧ (r.2 = 0 ↔ 7 / 100 < b) := by
  have ws := tenWeights_succ 3 (by norm_num) (by norm_num)
  rcases le_or_lt b (1 / 100) with h | h
  · exact ⟨_, wheel_exit _ _ _ _ _ _ ws h, by simp; linarith⟩
  rw [wheel_pass _ _ _ _ _ _ ws h]
  obtain ⟨r, hr, hiff⟩ := ten_lap4 (b - 1 / 100) (by linarith)
  refine ⟨r, hr, ?_⟩
  rw [hiff]
  constructor <;> intro h' <;> linarith

/-- The second lap of the wheel on the ten weights from index 2: with `beta` at
most `91 / 100` the loop stops at index 0 exactly when `beta` exceeds the
8 small weights ahead. -/
theorem ten_lap2 (b : ℝ) (hb : b ≤ 91 / 100) :
    ∃ r, wheel (tenWeights ℝ) 10 9 b 2 = some r ∧ (r.2 = 0 ↔ 2 / 25 < b) := by
  have ws := tenWeights_succ 2 (by norm_num) (by norm_num)
  rcases le_or_lt b (1 / 100) with h | h
  · exact ⟨_, wheel_exit _ _ _ _ _ _ ws h, by simp; linarith⟩
  rw [wheel_pass _ _ _ _ _ _ ws h]
  obtain ⟨r, hr, hiff⟩ := ten_lap3 (b - 1 / 100) (by linarith)
  refine ⟨r, hr, ?_⟩
  rw [hiff]
  constructor <;> intro h' <;> linarith

/-- The second lap of the wheel on the ten weights from index 1: with `beta` at
most `91 / 100` the loop stops at index 0 exactly when `beta` exceeds the
9 small weights ahead. -/
theorem ten_lap1 (b : ℝ) (hb : b ≤ 91 / 100) :
    ∃ r, wheel (tenWeights ℝ) 10 10 b 1 = some r ∧ (r.2 = 0 ↔ 9 / 100 < b) := by
  have ws := tenWeights_succ 1 (by norm_num) (by norm_num)
  rcases le_or_lt b (1 / 100) with h | h
  · exact ⟨_, wheel_exit _ _ _ _ _ _ ws h, by simp; linarith⟩
  rw [wheel_pass _ _ _ _ _ _ ws h]
  obtain ⟨r, hr, hiff⟩ := ten_lap2 (b - 1 / 100) (by linarith)
  refine ⟨r, hr, ?_⟩
  rw [hiff]
  constructor <;> intro h' <;> linarith

/-- Started at index 0 with `beta` below `91 / 50`, the wheel on the ten weights
stops at index 0 exactly for the values named. -/
theorem ten_start0 (b : ℝ) (hb : b < 91 / 50) :
    ∃ r, wheel (tenWeights ℝ) 10 11 b 0 = some r ∧ (r.2 = 0 ↔ (b ≤ 91 / 100 ∨ 1 < b)) := by
  rcases le_or_lt b (91 / 100) with h | h
  · exact ⟨_, wheel_exit _ _ _ _ _ _ tenWeights_zero h, by simp; left; exact h⟩
  rw [wheel_pass _ _ _ _ _ _ tenWeights_zero h]
  obtain ⟨r, hr, hiff⟩ := ten_lap1 (b - 91 / 100) (by linarith)
  refine ⟨r, hr, ?_⟩
  rw [hiff]
  constructor
  · intro h'
    right
    linarith
  · rintro (h' | h')
    · linarith
    · linarith

/-- Started at index 9 with `beta` below `91 / 50`, the wheel on the ten weights
stops at index 0 exactly for the values named. -/
theorem ten_start9 (b : ℝ) (hb : b < 91 / 50) :
    ∃ r, wheel (tenWeights ℝ) 10 12 b 9 = some r
      ∧ (r.2 = 0 ↔ ((1 / 100 < b ∧ b ≤ 23 / 25) ∨ 101 / 100 < b)) := by
  have ws := tenWeights_succ 9 (by norm_num) (by norm_num)
  rcases le_or_lt b (1 / 100) with h | h
  · exact ⟨_, wheel_exit _ _ _ _ _ _ ws h, by simp; exact ⟨fun _ => by linarith, by linarith⟩⟩
  rw [wheel_pass _ _ _ _ _ _ ws h]
  obtain ⟨r, hr, hiff⟩ := ten_start0 (b - 1 / 100) (by linarith)
  refine ⟨r, hr, ?_⟩
  rw [hiff]
  constructor
  · rintro (h2 | h3)
    · left
      constructor <;> linarith
    · right
      linarith
  · rintro (⟨h1, h2⟩ | h3)
    · left
      linarith
    · right
      linarith

/-- Started at index 8 with `beta` below `91 / 50`, the wheel on the ten weights
stops at index 0 exactly for the values named. -/
theorem ten_start8 (b : ℝ) (hb : b < 91 / 50) :
    ∃ r, wheel (tenWeights ℝ) 10 13 b 8 = some r
      ∧ (r.2 = 0 ↔ ((1 / 50 < b ∧ b ≤ 93 / 100) ∨ 51 / 50 < b)) := by
  have ws := tenWeights_succ 8 (by norm_num) (by norm_num)
  rcases le_or_lt b (1 / 100) with h | h
  · exact ⟨_, wheel_exit _ _ _ _ _ _ ws h, by simp; exact ⟨fun _ => by linarith, by linarith⟩⟩
  rw [wheel_pass _ _ _ _ _ _ ws h]
  obtain ⟨r, hr, hiff⟩ := ten_start9 (b - 1 / 100) (by linarith)
  refine ⟨r, hr, ?_⟩
  rw [hiff]
  constructor
  · rintro (⟨h1, h2⟩ | h3)
    · left
      constructor <;> linarith
    · right
      linarith
  · rintro (⟨h1, h2⟩ | h3)
    · left
      constructor <;> linarith
    · right
      linarith

/-- Started at index 7 with `beta` below `91 / 50`, the wheel on the ten weights
stops at index 0 exactly for the values named. -/
theorem ten_start7 (b : ℝ) (hb : b < 91 / 50) :
    ∃ r, wheel (tenWeights ℝ) 10 14 b 7 = some r
      ∧ (r.2 = 0 ↔ ((3 / 100 < b ∧ b ≤ 47 / 50) ∨ 103 / 100 < b)) := by
  have ws := tenWeights_succ 7 (by norm_num) (by norm_num)
  rcases le_or_lt b (1 / 100) with h | h
  · exact ⟨_, wheel_exit _ _ _ _ _ _ ws h, by simp; exact ⟨fun _ => by linarith, by linarith⟩⟩
  rw [wheel_pass _ _ _ _ _ _ ws h]
  obtain ⟨r, hr, hiff⟩ := ten_start8 (b - 1 / 100) (by linarith)
  refine ⟨r, hr, ?_⟩
  rw [hiff]
  constructor
  · rintro (⟨h1, h2⟩ | h3)
    · left
      constructor <;> linarith
    · right
      linarith
  · rintro (⟨h1, h2⟩ | h3)
    · left
      constructor <;> linarith
    · right
      linarith

/-- Started at index 6 with `beta` below `91 / 50`, the wheel on the ten weights
stops at index 0 exactly for the values named. -/
theorem ten_start6 (b : ℝ) (hb : b < 91 / 50) :
    ∃ r, wheel (tenWeights ℝ) 10 15 b 6 = some r
      ∧ (r.2 = 0 ↔ ((1 / 25 < b ∧ b ≤ 19 / 20) ∨ 26 / 25 < b)) := by
  have ws := tenWeights_succ 6 (by norm_num) (by norm_num)
  rcases le_or_lt b (1 / 100) with h | h
  · exact ⟨_, wheel_exit _ _ _ _ _ _ ws h, by simp; exact ⟨fun _ => by linarith, by linarith⟩⟩
  rw [wheel_pass _ _ _ _ _ _ ws h]
  obtain ⟨r, hr, hiff⟩ := ten_start7 (b - 1 / 100) (by linarith)
  refine ⟨r, hr, ?_⟩
  rw [hiff]
  constructor
  · rintro (⟨h1, h2⟩ | h3)
    · left
      constructor <;> linarith
    · right
      linarith
  · rintro (⟨h1, h2⟩ | h3)
    · left
      constructor <;> linarith
    · right
      linarith

/-- Started at index 5 with `beta` below `91 / 50`, the wheel on the ten weights
stops at index 0 exactly for the values named. -/
theorem ten_start5 (b : ℝ) (hb : b < 91 / 50) :
    ∃ r, wheel (tenWeights ℝ) 10 16 b 5 = some r
      ∧ (r.2 = 0 ↔ ((1 / 20 < b ∧ b ≤ 24 / 25) ∨ 21 / 20 < b)) := by
  have ws := tenWeights_succ 5 (by norm_num) (by norm_num)
  rcases le_or_lt b (1 / 100) with h | h
  · exact ⟨_, wheel_exit _ _ _ _ _ _ ws h, by simp; exact ⟨fun _ => by linarith, by linarith⟩⟩
  rw [wheel_pass _ _ _ _ _ _ ws h]
  obtain ⟨r, hr, hiff⟩ := ten_start6 (b - 1 / 100) (by linarith)
  refine ⟨r, hr, ?_⟩
  rw [hiff]
  constructor
  · rintro (⟨h1, h2⟩ | h3)
    · left
      constructor <;> linarith
    · right
      linarith
  · rintro (⟨h1, h2⟩ | h3)
    · left
      constructor <;> linarith
    · right
      linarith

/-- Started at index 4 with `beta` below `91 / 50`, the wheel on the ten weights
stops at index 0 exactly for the values named. -/
theorem ten_start4 (b : ℝ) (hb : b < 91 / 50) :
    ∃ r, wheel (tenWeights ℝ) 10 17 b 4 = some r
      ∧ (r.2 = 0 ↔ ((3 / 50 < b ∧ b ≤ 97 / 100) ∨ 53 / 50 < b)) := by
  have ws := tenWeights_succ 4 (by norm_num) (by norm_num)
  rcases le_or_lt b (1 / 100) with h | h
  · exact ⟨_, wheel_exit _ _ _ _ _ _ ws h, by simp; exact ⟨fun _ => by linarith, by linarith⟩⟩
  rw [wheel_pass _ _ _ _ _ _ ws h]
  obtain ⟨r, hr, hiff⟩ := ten_start5 (b - 1 / 100) (by linarith)
  refine ⟨r, hr, ?_⟩
  rw [hiff]
  constructor
  · rintro (⟨h1, h2⟩ | h3)
    · left
      constructor <;> linarith
    · right
      linarith
  · rintro (⟨h1, h2⟩ | h3)
    · left
      constructor <;> linarith
    · right
      linarith

/-- Started at index 3 with `beta` below `91 / 50`, the wheel on the ten weights
stops at index 0 exactly for the values named. -/
theorem ten_start3 (b : ℝ) (hb : b < 91 / 50) :
    ∃ r, wheel (tenWeights ℝ) 10 18 b 3 = some r
      ∧ (r.2 = 0 ↔ ((7 / 100 < b ∧ b ≤ 49 / 50) ∨ 107 / 100 < b)) := by
  have ws := tenWeights_succ 3 (by norm_num) (by norm_num)
  rcases le_or_lt b (1 / 100) with h | h
  · exact ⟨_, wheel_exit _ _ _ _ _ _ ws h, by simp; exact ⟨fun _ => by linarith, by linarith⟩⟩
  rw [wheel_pass _ _ _ _ _ _ ws h]
  obtain ⟨r, hr, hiff⟩ := ten_start4 (b - 1 / 100) (by linarith)
  refine ⟨r, hr, ?_⟩
  rw [hiff]
  constructor
  · rintro (⟨h1, h2⟩ | h3)
    · left
      constructor <;> linarith
    · right
      linarith
  · rintro (⟨h1, h2⟩ | h3)
    · left
      constructor <;> linarith
    · right
      linarith

/-- Started at index 2 with `beta` below `91 / 50`, the wheel on the ten weights
stops at index 0 exactly for the values named. -/
theorem ten_start2 (b : ℝ) (hb : b < 91 / 50) :
    ∃ r, wheel (tenWeights ℝ) 10 19 b 2 = some r
      ∧ (r.2 = 0 ↔ ((2 / 25 < b ∧ b ≤ 99 / 100) ∨ 27 / 25 < b)) := by
  have ws := tenWeights_succ 2 (by norm_num) (by norm_num)
  rcases le_or_lt b (1 / 100) with h | h
  · exact ⟨_, wheel_exit _ _ _ _ _ _ ws h, by simp; exact ⟨fun _ => by linarith, by linarith⟩⟩
  rw [wheel_pass _ _ _ _ _ _ ws h]
  obtain ⟨r, hr, hiff⟩ := ten_start3 (b - 1 / 100) (by linarith)
  refine ⟨r, hr, ?_⟩
  rw [hiff]
  constructor
  · rintro (⟨h1, h2⟩ | h3)
    · left
      constructor <;> linarith
    · right
      linarith
  · rintro (⟨h1, h2⟩ | h3)
    · left
      constructor <;> linarith
    · right
      linarith

/-- Started at index 1 with `beta` below `91 / 50`, the wheel on the ten weights
stops at index 0 exactly for the values named. -/
theorem ten_start1 (b : ℝ) (hb : b < 91 / 50) :
    ∃ r, wheel (tenWeights ℝ) 10 20 b 1 = some r
      ∧ (r.2 = 0 ↔ ((9 / 100 < b ∧ b ≤ 1) ∨ 109 / 100 < b)) := by
  have ws := tenWeights_succ 1 (by norm_num) (by norm_num)
  rcases le_or_lt b (1 / 100) with h | h
  · exact ⟨_, wheel_exit _ _ _ _ _ _ ws h, by simp; exact ⟨fun _ => by linarith, by linarith⟩⟩
  rw [wheel_pass _ _ _ _ _ _ ws h]
  obtain ⟨r, hr, hiff⟩ := ten_start2 (b - 1 / 100) (by linarith)
  refine ⟨r, hr, ?_⟩
  rw [hiff]
  constructor
  · rintro (⟨h1, h2⟩ | h3)
    · left
      constructor <;> linarith
    · right
      linarith
  · rintro (⟨h1, h2⟩ | h3)
    · left
      constructor <;> linarith
    · right
      linarith

/-- The first draws in `[0, 91 / 50)` that leave particle 0 of the ten weights in
the first slot, from start index 0. -/
theorem ten_draws0 :
    firstSlotDraws (tenWeights ℝ) 0 0 ∩ Set.Ico 0 (2 * (91 / 100))
      = Set.Icc 0 (91 / 100) ∪ Set.Ioo 1 (91 / 50) := by
  ext u
  simp only [Set.mem_inter_iff, Set.mem_Ico, Set.mem_union, Set.mem_Icc, Set.mem_Ioo]
  by_cases hM : u < 91 / 50
  · obtain ⟨r, hr, hiff⟩ := ten_start0 u hM
    rw [firstSlotDraws_iff _ _ _ 11 u r (by rw [zero_add]; exact hr), hiff]
    constructor
    · rintro ⟨h | h, h0, _⟩
      · exact Or.inl ⟨h0, h⟩
      · exact Or.inr ⟨h, hM⟩
    · rintro (⟨h0, h⟩ | ⟨h, _⟩)
      · exact ⟨Or.inl h, h0, by linarith⟩
      · exact ⟨Or.inr h, by linarith, by linarith⟩
  · constructor
    · rintro ⟨_, _, h⟩
      exact absurd (by linarith) hM
    · rintro (⟨_, h⟩ | ⟨_, h⟩)
      · exact absurd (by linarith) hM
      · exact absurd h hM

/-- The first draws in `[0, 91 / 50)` that leave particle 0 of the ten weights in
the first slot, from start index 1. -/
theorem ten_draws1 :
    firstSlotDraws (tenWeights ℝ) 1 0 ∩ Set.Ico 0 (2 * (91 / 100))
      = Set.Ioc (9 / 100) (1) ∪ Set.Ioo (109 / 100) (91 / 50) := by
  ext u
  simp only [Set.mem_inter_iff, Set.mem_Ico, Set.mem_union, Set.mem_Ioc, Set.mem_Ioo]
  by_cases hM : u < 91 / 50
  · obtain ⟨r, hr, hiff⟩ := ten_start1 u hM
    rw [firstSlotDraws_iff _ _ _ 20 u r (by rw [zero_add]; exact hr), hiff]
    constructor
    · rintro ⟨h | h, _, _⟩
      · exact Or.inl h
      · exact Or.inr ⟨h, hM⟩
    · rintro (h | ⟨h, _⟩)
      · exact ⟨Or.inl h, by linarith [h.1], by linarith⟩
      · exact ⟨Or.inr h, by linarith, by linarith⟩
  · constructor
    · rintro ⟨_, _, h⟩
      exact absurd (by linarith) hM
    · rintro (⟨_, h⟩ | ⟨_, h⟩)
      · exact absurd (by linarith) hM
      · exact absurd h hM

/-- The first draws in `[0, 91 / 50)` that leave particle 0 of the ten weights in
the first slot, from start index 2. -/
theorem ten_draws2 :
    firstSlotDraws (tenWeights ℝ) 2 0 ∩ Set.Ico 0 (2 * (91 / 100))
      = Set.Ioc (2 / 25) (99 / 100) ∪ Set.Ioo (27 / 25) (91 / 50) := by
  ext u
  simp only [Set.mem_inter_iff, Set.mem_Ico, Set.mem_union, Set.mem_Ioc, Set.mem_Ioo]
  by_cases hM : u < 91 / 50
  · obtain ⟨r, hr, hiff⟩ := ten_start2 u hM
    rw [firstSlotDraws_iff _ _ _ 19 u r (by rw [zero_add]; exact hr), hiff]
    constructor
    · rintro ⟨h | h, _, _⟩
      · exact Or.inl h
      · exact Or.inr ⟨h, hM⟩
    · rintro (h | ⟨h, _⟩)
      · exact ⟨Or.inl h, by linarith [h.1], by linarith⟩
      · exact ⟨Or.inr h, by linarith, by linarith⟩
  · constructor
    · rintro ⟨_, _, h⟩
      exact absurd (by linarith) hM
    · rintro (⟨_, h⟩ | ⟨_, h⟩)
      · exact absurd (by linarith) hM
      · exact absurd h hM

/-- The first draws in `[0, 91 / 50)` that leave particle 0 of the ten weights in
the first slot, from start index 3. -/
theorem ten_draws3 :
    firstSlotDraws (tenWeights ℝ) 3 0 ∩ Set.Ico 0 (2 * (91 / 100))
      = Set.Ioc (7 / 100) (49 / 50) ∪ Set.Ioo (107 / 100) (91 / 50) := by
  ext u
  simp only [Set.mem_inter_iff, Set.mem_Ico, Set.mem_union, Set.mem_Ioc, Set.mem_Ioo]
  by_cases hM : u < 91 / 50
  · obtain ⟨r, hr, hiff⟩ := ten_start3 u hM
    rw [firstSlotDraws_iff _ _ _ 18 u r (by rw [zero_add]; exact hr), hiff]
    constructor
    · rintro ⟨h | h, _, _⟩
      · exact Or.inl h
      · exact Or.inr ⟨h, hM⟩
    · rintro (h | ⟨h, _⟩)
      · exact ⟨Or.inl h, by linarith [h.1], by linarith⟩
      · exact ⟨Or.inr h, by linarith, by linarith⟩
  · constructor
    · rintro ⟨_, _, h⟩
      exact absurd (by linarith) hM
    · rintro (⟨_, h⟩ | ⟨_, h⟩)
      · exact absurd (by linarith) hM
      · exact absurd h hM

/-- The first draws in `[0, 91 / 50)` that leave particle 0 of the ten weights in
the first slot, from start index 4. -/
theorem ten_draws4 :
    firstSlotDraws (tenWeights ℝ) 4 0 ∩ Set.Ico 0 (2 * (91 / 100))
      = Set.Ioc (3 / 50) (97 / 100) ∪ Set.Ioo (53 / 50) (91 / 50) := by
  ext u
  simp only [Set.mem_inter_iff, Set.mem_Ico, Set.mem_union, Set.mem_Ioc, Set.mem_Ioo]
  by_cases hM : u < 91 / 50
  · obtain ⟨r, hr, hiff⟩ := ten_start4 u hM
    rw [firstSlotDraws_iff _ _ _ 17 u r (by rw [zero_add]; exact hr), hiff]
    constructor
    · rintro ⟨h | h, _, _⟩
      · exact Or.inl h
      · exact Or.inr ⟨h, hM⟩
    · rintro (h | ⟨h, _⟩)
      · exact ⟨Or.inl h, by linarith [h.1], by linarith⟩
      · exact ⟨Or.inr h, by linarith, by linarith⟩
  · constructor
    · rintro ⟨_, _, h⟩
      exact absurd (by linarith) hM
    · rintro (⟨_, h⟩ | ⟨_, h⟩)
      · exact absurd (by linarith) hM
      · exact absurd h hM

/-- The first draws in `[0, 91 / 50)` that leave particle 0 of the ten weights in
the first slot, from start index 5. -/
theorem ten_draws5 :
    firstSlotDraws (tenWeights ℝ) 5 0 ∩ Set.Ico 0 (2 * (91 / 100))
      = Set.Ioc (1 / 20) (24 / 25) ∪ Set.Ioo (21 / 20) (91 / 50) := by
  ext u
  simp only [Set.mem_inter_iff, Set.mem_Ico, Set.mem_union, Set.mem_Ioc, Set.mem_Ioo]
  by_cases hM : u < 91 / 50
  · obtain ⟨r, hr, hiff⟩ := ten_start5 u hM
    rw [firstSlotDraws_iff _ _ _ 16 u r (by rw [zero_add]; exact hr), hiff]
    constructor
    · rintro ⟨h | h, _, _⟩
      · exact Or.inl h
      · exact Or.inr ⟨h, hM⟩
    · rintro (h | ⟨h, _⟩)
      · exact ⟨Or.inl h, by linarith [h.1], by linarith⟩
      · exact ⟨Or.inr h, by linarith, by linarith⟩
  · constructor
    · rintro ⟨_, _, h⟩
      exact absurd (by linarith) hM
    · rintro (⟨_, h⟩ | ⟨_, h⟩)
      · exact absurd (by linarith) hM
      · exact absurd h hM

/-- The first draws in `[0, 91 / 50)` that leave particle 0 of the ten weights in
the first slot, from start index 6. -/
theorem ten_draws6 :
    firstSlotDraws (tenWeights ℝ) 6 0 ∩ Set.Ico 0 (2 * (91 / 100))
      = Set.Ioc (1 / 25) (19 / 20) ∪ Set.Ioo (26 / 25) (91 / 50) := by
  ext u
  simp only [Set.mem_inter_iff, Set.mem_Ico, Set.mem_union, Set.mem_Ioc, Set.mem_Ioo]
  by_cases hM : u < 91 / 50
  · obtain ⟨r, hr, hiff⟩ := ten_start6 u hM
    rw [firstSlotDraws_iff _ _ _ 15 u r (by rw [zero_add]; exact hr), hiff]
    constructor
    · rintro ⟨h | h, _, _⟩
      · exact Or.inl h
      · exact Or.inr ⟨h, hM⟩
    · rintro (h | ⟨h, _⟩)
      · exact ⟨Or.inl h, by linarith [h.1], by linarith⟩
      · exact ⟨Or.inr h, by linarith, by linarith⟩
  · constructor
    · rintro ⟨_, _, h⟩
      exact absurd (by linarith) hM
    · rintro (⟨_, h⟩ | ⟨_, h⟩)
      · exact absurd (by linarith) hM
      · exact absurd h hM

/-- The first draws in `[0, 91 / 50)` that leave particle 0 of the ten weights in
the first slot, from start index 7. -/
theorem ten_draws7 :
    firstSlotDraws (tenWeights ℝ) 7 0 ∩ Set.Ico 0 (2 * (91 / 100))
      = Set.Ioc (3 / 100) (47 / 50) ∪ Set.Ioo (103 / 100) (91 / 50) := by
  ext u
  simp only [Set.mem_inter_iff, Set.mem_Ico, Set.mem_union, Set.mem_Ioc, Set.mem_Ioo]
  by_cases hM : u < 91 / 50
  · obtain ⟨r, hr, hiff⟩ := ten_start7 u hM
    rw [firstSlotDraws_iff _ _ _ 14 u r (by rw [zero_add]; exact hr), hiff]
    constructor
    · rintro ⟨h | h, _, _⟩
      · exact Or.inl h
      · exact Or.inr ⟨h, hM⟩
    · rintro (h | ⟨h, _⟩)
      · exact ⟨Or.inl h, by linarith [h.1], by linarith⟩
      · exact ⟨Or.inr h, by linarith, by linarith⟩
  · constructor
    · rintro ⟨_, _, h⟩
      exact absurd (by linarith) hM
    · rintro (⟨_, h⟩ | ⟨_, h⟩)
      · exact absurd (by linarith) hM
      · exact absurd h hM

/-- The first draws in `[0, 91 / 50)` that leave particle 0 of the ten weights in
the first slot, from start index 8. -/
theorem ten_draws8 :
    firstSlotDraws (tenWeights ℝ) 8 0 ∩ Set.Ico 0 (2 * (91 / 100))
      = Set.Ioc (1 / 50) (93 / 100) ∪ Set.Ioo (51 / 50) (91 / 50) := by
  ext u
  simp only [Set.mem_inter_iff, Set.mem_Ico, Set.mem_union, Set.mem_Ioc, Set.mem_Ioo]
  by_cases hM : u < 91 / 50
  · obtain ⟨r, hr, hiff⟩ := ten_start8 u hM
    rw [firstSlotDraws_iff _ _ _ 13 u r (by rw [zero_add]; exact hr), hiff]
    constructor
    · rintro ⟨h | h, _, _⟩
      · exact Or.inl h
      · exact Or.inr ⟨h, hM⟩
    · rintro (h | ⟨h, _⟩)
      · exact ⟨Or.inl h, by linarith [h.1], by linarith⟩
      · exact ⟨Or.inr h, by linarith, by linarith⟩
  · constructor
    · rintro ⟨_, _, h⟩
      exact absurd (by linarith) hM
    · rintro (⟨_, h⟩ | ⟨_, h⟩)
      · exact absurd (by linarith) hM
      · exact absurd h hM

/-- The first draws in `[0, 91 / 50)` that leave particle 0 of the ten weights in
the first slot, from start index 9. -/
theorem ten_draws9 :
    firstSlotDraws (tenWeights ℝ) 9 0 ∩ Set.Ico 0 (2 * (91 / 100))
      = Set.Ioc (1 / 100) (23 / 25) ∪ Set.Ioo (101 / 100) (91 / 50) := by
  ext u
  simp only [Set.mem_inter_iff, Set.mem_Ico, Set.mem_union, Set.mem_Ioc, Set.mem_Ioo]
  by_cases hM : u < 91 / 50
  · obtain ⟨r, hr, hiff⟩ := ten_start9 u hM
    rw [firstSlotDraws_iff _ _ _ 12 u r (by rw [zero_add]; exact hr), hiff]
    constructor
    · rintro ⟨h | h, _, _⟩
      · exact Or.inl h
      · exact Or.inr ⟨h, hM⟩
    · rintro (h | ⟨h, _⟩)
      · exact ⟨Or.inl h, by linarith [h.1], by linarith⟩
      · exact ⟨Or.inr h, by linarith, by linarith⟩
  · constructor
    · rintro ⟨_, _, h⟩
      exact absurd (by linarith) hM
    · rintro (⟨_, h⟩ | ⟨_, h⟩)
      · exact absurd (by linarith) hM
      · exact absurd h hM

/-- The first slot holds particle 0 of the ten weights with probability
`337 / 364`. -/
theorem firstSlotProb_ten : firstSlotProb (tenWeights ℝ) 0 = some (337 / 364) := by
  have hmax : max_element (tenWeights ℝ) = some (91 / 100) := by
    norm_num [max_element, tenWeights]
  have hlen : (tenWeights ℝ).length = 10 := rfl
  have hpos : (0 : ℝ) < 2 * (91 / 100) := by norm_num
  simp only [firstSlotProb, hmax, hlen, if_neg (not_lt.mpr (le_of_lt hpos)), u_real_prob,
    if_pos hpos, Finset.sum_range_succ, Finset.sum_range_zero, zero_add,
    ten_draws0, ten_draws1, ten_draws2, ten_draws3, ten_draws4, ten_draws5, ten_draws6,
    ten_draws7, ten_draws8, ten_draws9]
  rw [volume_Icc_union_Ioo _ _ _ _ (by norm_num) (by norm_num) (by norm_num),
    volume_Ioc_union_Ioo _ _ _ _ (by norm_num) (by norm_num) (by norm_num),
    volume_Ioc_union_Ioo _ _ _ _ (by norm_num) (by norm_num) (by norm_num),
    volume_Ioc_union_Ioo _ _ _ _ (by norm_num) (by norm_num) (by norm_num),
    volume_Ioc_union_Ioo _ _ _ _ (by norm_num) (by norm_num) (by norm_num),
    volume_Ioc_union_Ioo _ _ _ _ (by norm_num) (by norm_num) (by norm_num),
    volume_Ioc_union_Ioo _ _ _ _ (by norm_num) (by norm_num) (by norm_num),
    volume_Ioc_union_Ioo _ _ _ _ (by norm_num) (by norm_num) (by norm_num),
    volume_Ioc_union_Ioo _ _ _ _ (by norm_num) (by norm_num) (by norm_num),
    volume_Ioc_union_Ioo _ _ _ _ (by norm_num) (by norm_num) (by norm_num)]
  norm_num

/-- Claim C14 at two weight vectors that sum to 1, with the start index
uniform on the indices and the first draw uniform on `[0, 2 * max(weights))`.
For the weights `[0.97, 0.01, 0.01, 0.01]` the first slot of the set produced
by `resample` holds particle 0 with probability `379 / 388`, which is not its
share `97 / 100` of the weights; for the ten weights `[0.91, 0.01, ..., 0.01]`
it holds particle 0 with probability `337 / 364`, which is not its share
`91 / 100`. -/
theorem firstSlotProb_not_weight_share :
    ((skewedWeights ℝ).sum = 1 ∧ (skewedWeights ℝ)[0]? = some (97 / 100)
      ∧ firstSlotProb (skewedWeights ℝ) 0 = some (379 / 388)
      ∧ (379 / 388 : ℝ) ≠ 97 / 100 / (skewedWeights ℝ).sum)
    ∧ ((tenWeights ℝ).length = 10 ∧ (tenWeights ℝ).sum = 1
      ∧ (tenWeights ℝ)[0]? = some (91 / 100)
      ∧ firstSlotProb (tenWeights ℝ) 0 = some (337 / 364)
      ∧ (337 / 364 : ℝ) ≠ 91 / 100 / (tenWeights ℝ).sum) := by
  have hsum : (skewedWeights ℝ).sum = 1 := by norm_num [skewedWeights]
  have hten : (tenWeights ℝ).sum = 1 := by norm_num [tenWeights]
  refine ⟨⟨hsum, rfl, firstSlotProb_skewed, ?_⟩, rfl, hten, rfl, firstSlotProb_ten, ?_⟩
  · rw [hsum]
    norm_num
  · rw [hten]
    norm_num

/-! ## The ids of the particles -/

/-- The fresh filter is what `init` returns at the origin without noise. -/
theorem init_fresh {R : Type} [LinearOrderedField R] :
    init 0 0 0 (fun _ => 0) (fun _ => 0) (fun _ => 0) (emptyFilter R)
      = some (freshFilter R) := by
  rw [init_eq]
  simp [freshFilter, mkParticle]

/-- The fresh filter resampled from start index 3 with every draw 0: the wheel
stays at particle 3. -/
theorem resample_fresh :
    resample 1 3 (fun _ _ => 0) (freshFilter ℝ)
      = some { freshFilter ℝ with particles := List.replicate 10 (mkParticle 3 0 0 0) } := by
  norm_num [resample, freshFilter, max_element, iterate, resampleStep, wheel, List.range_succ,
    List.replicate]

/-- An indexed map that keeps ids keeps the list of ids. -/
theorem map_id_mapIdx {R : Type} (f : Nat → Particle R → Particle R)
    (hf : ∀ (i : Nat) (p : Particle R), (f i p).id = p.id) (l : List (Particle R)) :
    (l.mapIdx f).map (fun p => p.id) = l.map (fun p => p.id) := by
  apply List.ext_getElem?
  intro i
  simp only [List.getElem?_map, List.getElem?_mapIdx, Option.map_map]
  cases l[i]? with
  | none => rfl
  | some p => simp [hf]

/-- Without `resample`, both vectors keep `num_particles` entries and the ids
stay `0, ..., 9` in order. -/
theorem withoutResample_ids {R : Type} [LinearOrderedField R] (cos sin exp sqrt : R → R)
    (pi : R) (pf : ParticleFilter R) (h : ReachableWithoutResample cos sin exp sqrt pi pf) :
    (pf.particles.length = pf.num_particles ∧ pf.weights.length = pf.num_particles)
    ∧ pf.particles.map (fun p => p.id) = (List.range 10).map (fun (i : Nat) => (i : Int)) := by
  induction h with
  | init x y theta n_x n_y n_theta pf h =>
    refine ⟨init_sizes x y theta n_x n_y n_theta pf h, ?_⟩
    rw [init_eq] at h
    simp only [Option.some.injEq] at h
    subst h
    simp [Function.comp_def]
  | prediction delta_t n_x n_y n_theta velocity yaw_rate pf pf' _ h ih =>
    rw [prediction_eq _ _ _ _ _ _ _ _ _ ih.1.1] at h
    simp only [Option.some.injEq] at h
    subst h
    refine ⟨by simpa using ih.1, ?_⟩
    rw [← ih.2]
    exact map_id_mapIdx _ (by intro i p; simp only [predictOne]; split <;> rfl) _
  | updateWeights sensor_range std_landmark observations map_landmarks uninit pf pf' _ h ih =>
    rw [updateWeights_eq _ _ _ _ _ _ _ _ _ _ _ ih.1.1 ih.1.2] at h
    simp only [Option.some.injEq] at h
    subst h
    refine ⟨by simpa [rawWeights] using ih.1.1, ?_⟩
    rw [← ih.2]
    dsimp only
    apply map_id_mapIdx
    intro i p
    rfl

/-- A state reached without `resample` is a reachable state. -/
theorem withoutResample_reachable {R : Type} [LinearOrderedField R]
    (cos sin exp sqrt : R → R) (pi : R) (pf : ParticleFilter R)
    (h : ReachableWithoutResample cos sin exp sqrt pi pf) :
    Reachable cos sin exp sqrt pi pf := by
  induction h with
  | init x y theta n_x n_y n_theta pf h => exact Reachable.init _ _ _ _ _ _ _ h
  | prediction delta_t n_x n_y n_theta velocity yaw_rate pf pf' _ h ih =>
    exact Reachable.prediction _ _ _ _ _ _ _ _ ih h
  | updateWeights sensor_range std_landmark observations map_landmarks uninit pf pf' _ h ih =>
    exact Reachable.updateWeights _ _ _ _ _ _ _ ih h

/-- Claim C15 fails as stated: `init` at the origin followed by one `resample`
from start index 3 with every draw 0 reaches a filter whose ten particles all
carry id 3. -/
theorem ids_repeat_after_resample :
    Reachable Real.cos Real.sin Real.exp Real.sqrt Real.pi
      { freshFilter ℝ with particles := List.replicate 10 (mkParticle 3 0 0 0) }
    ∧ ¬ (({ freshFilter ℝ with particles := List.replicate 10 (mkParticle 3 0 0 0) } :
          ParticleFilter ℝ).particles.map (fun p => p.id)).Nodup := by
  refine ⟨Reachable.resample 1 3 (fun _ _ => 0) (freshFilter ℝ) _
    (Reachable.init 0 0 0 _ _ _ _ init_fresh) resample_fresh, ?_⟩
  simp [List.replicate, mkParticle]

/-- Claim C15, amended: in every state reached by `init` followed by any calls
of `prediction` and `updateWeights`, with no call of `resample`, the ids of the
particles are pairwise distinct: they are `0, ..., 9` in order. -/
theorem ids_distinct_without_resample {R : Type} [LinearOrderedField R]
    (cos sin exp sqrt : R → R) (pi : R) (pf : ParticleFilter R)
    (h : ReachableWithoutResample cos sin exp sqrt pi pf) :
    (pf.particles.map (fun p => p.id)).Nodup
    ∧ pf.particles.map (fun p => p.id) = (List.range 10).map (fun (i : Nat) => (i : Int))
    ∧ Reachable cos sin exp sqrt pi pf := by
  have hids := (withoutResample_ids cos sin exp sqrt pi pf h).2
  refine ⟨?_, hids, withoutResample_reachable cos sin exp sqrt pi pf h⟩
  rw [hids]
  exact (List.nodup_range 10).map (fun a b hab => by exact_mod_cast hab)

/-- The ids of C15 after `init`, `prediction` and `updateWeights` on a fresh
filter, over the reals. -/
theorem ids_distinct_without_resample_witness :
    ∃ pf : ParticleFilter ℝ,
      ((init 0 0 0 (fun _ => 0) (fun _ => 0) (fun _ => 0) (emptyFilter ℝ)).bind
        (prediction Real.cos Real.sin 1 (fun _ => 0) (fun _ => 0) (fun _ => 0) 10 0)).bind
        (updateWeights Real.cos Real.sin Real.exp Real.sqrt Real.pi 50 (1, 1) (sampleObs ℝ)
          (sampleMap ℝ) (fun _ _ => (0, 0))) = some pf
      ∧ ReachableWithoutResample Real.cos Real.sin Real.exp Real.sqrt Real.pi pf
      ∧ (pf.particles.map (fun p => p.id)).Nodup := by
  have h0 : init 0 0 0 (fun _ => 0) (fun _ => 0) (fun _ => 0) (emptyFilter ℝ)
      = some (freshFilter ℝ) := init_fresh
  have hr0 : ReachableWithoutResample Real.cos Real.sin Real.exp Real.sqrt Real.pi
      (freshFilter ℝ) := ReachableWithoutResample.init _ _ _ _ _ _ _ h0
  have h1 := prediction_eq Real.cos Real.sin 1 (fun _ => 0) (fun _ => 0) (fun _ => 0) 10 0
    (freshFilter ℝ) (by simp [freshFilter])
  have hr1 := ReachableWithoutResample.prediction _ _ _ _ _ _ _ _ hr0 h1
  have hs1 := (withoutResample_ids _ _ _ _ _ _ hr1).1
  have h2 := updateWeights_eq Real.cos Real.sin Real.exp Real.sqrt Real.pi 50 (1, 1)
    (sampleObs ℝ) (sampleMap ℝ) (fun _ _ => (0, 0)) _ hs1.1 hs1.2
  have hr2 := ReachableWithoutResample.updateWeights _ _ _ _ _ _ _ hr1 h2
  refine ⟨_, ?_, hr2, (ids_distinct_without_resample _ _ _ _ _ _ hr2).1⟩
  simp only [h0, Option.some_bind, h1, h2]

/-! ## updateWeights: entries, candidates and frame transform -/

/-- Claim C16: on a filter whose two vectors have `num_particles` entries,
`updateWeights` returns a filter in which, at every index `i`, the entry of
`weights` is the weight of particle `i`, and both are the weight of particle
`i` before normalisation divided by the sum of all weights before
normalisation. -/
theorem updateWeights_entries {R : Type} [LinearOrderedField R] (cos sin exp sqrt : R → R)
    (pi : R) (sensor_range : R) (std_landmark : R × R) (observations : List (LandmarkObs R))
    (map_landmarks : Map R) (uninit : Nat → Nat → R × R) (pf : ParticleFilter R)
    (hp : pf.particles.length = pf.num_particles) (hw : pf.weights.length = pf.num_particles) :
    ∃ pf', updateWeights cos sin exp sqrt pi sensor_range std_landmark observations
        map_landmarks uninit pf = some pf'
      ∧ pf'.particles.length = pf.num_particles
      ∧ pf'.weights.length = pf.num_particles
      ∧ ∀ (i : Nat) (p : Particle R), pf.particles[i]? = some p →
          ∃ p', pf'.particles[i]? = some p'
            ∧ pf'.weights[i]? = some p'.weight
            ∧ p'.weight
              = particleWeight cos sin exp sqrt pi sensor_range std_landmark observations
                  map_landmarks (uninit i) p
                / (rawWeights cos sin exp sqrt pi sensor_range std_landmark observations
                    map_landmarks uninit pf.particles).sum := by
  refine ⟨_, updateWeights_eq cos sin exp sqrt pi sensor_range std_landmark observations
    map_landmarks uninit pf hp hw, by simpa using hp, by simpa [rawWeights] using hp, ?_⟩
  intro i p hi
  refine ⟨{ p with
      weight := particleWeight cos sin exp sqrt pi sensor_range std_landmark observations
          map_landmarks (uninit i) p
        / (rawWeights cos sin exp sqrt pi sensor_range std_landmark observations
            map_landmarks uninit pf.particles).sum }, by simp [hi], ?_, rfl⟩
  simp [rawWeights, hi]

/-- The entries of C16 on the sample filter, observation and map, over the
reals. -/
theorem updateWeights_entries_witness :
    ((sampleFilter ℝ).particles.length = (sampleFilter ℝ).num_particles
      ∧ (sampleFilter ℝ).weights.length = (sampleFilter ℝ).num_particles)
    ∧ ∃ pf', updateWeights Real.cos Real.sin Real.exp Real.sqrt Real.pi 50 (1, 1)
          (sampleObs ℝ) (sampleMap ℝ) (fun _ _ => (0, 0)) (sampleFilter ℝ) = some pf'
        ∧ pf'.particles.length = 2 ∧ pf'.weights.length = 2
        ∧ pf'.weights = pf'.particles.map (fun p => p.weight) := by
  obtain ⟨pf', h, hl, hwl, hall⟩ := updateWeights_entries Real.cos Real.sin Real.exp Real.sqrt
    Real.pi 50 (1, 1) (sampleObs ℝ) (sampleMap ℝ) (fun _ _ => (0, 0)) (sampleFilter ℝ) rfl rfl
  refine ⟨⟨rfl, rfl⟩, pf', h, hl, hwl, ?_⟩
  apply List.ext_getElem?
  intro i
  rw [List.getElem?_map]
  by_cases hi : i < 2
  · have hlt : i < (sampleFilter ℝ).particles.length := hi
    obtain ⟨p', hp', hw', _⟩ := hall i _ (List.getElem?_eq_getElem hlt)
    rw [hp', hw']
    rfl
  · have h1 : pf'.weights.length ≤ i := by rw [hwl]; exact Nat.le_of_not_lt hi
    have h2 : pf'.particles.length ≤ i := by rw [hl]; exact Nat.le_of_not_lt hi
    rw [List.getElem?_eq_none h1, List.getElem?_eq_none h2]
    rfl

/-- Claim C17: the candidate list that `updateWeights` builds for a pose
`(p_x, p_y)` is the list of the map landmarks whose distance to `(p_x, p_y)` is
at most `sensor_range`, boundary included, in map order, each with its map id
and coordinates. -/
theorem sensorRangePred_spec {R : Type} [LinearOrderedField R] (sqrt : R → R)
    (sensor_range : R) (map_landmarks : Map R) (p_x p_y : R) :
    sensorRangePred sqrt sensor_range map_landmarks p_x p_y
      = (map_landmarks.landmark_list.filter
          (fun lm => decide (dist sqrt lm.x_f lm.y_f p_x p_y ≤ sensor_range))).map
          (fun lm => { id := lm.id_i, x := lm.x_f, y := lm.y_f })
    ∧ ∀ l : LandmarkObs R, l ∈ sensorRangePred sqrt sensor_range map_landmarks p_x p_y ↔
        ∃ lm ∈ map_landmarks.landmark_list,
          dist sqrt lm.x_f lm.y_f p_x p_y ≤ sensor_range
          ∧ l = { id := lm.id_i, x := lm.x_f, y := lm.y_f } := by
  have h := sensorRangePred_eq sqrt sensor_range map_landmarks p_x p_y
  refine ⟨h, ?_⟩
  intro l
  rw [h]
  simp only [inRangeLandmarks, List.mem_map, List.mem_filter, decide_eq_true_eq]
  constructor
  · rintro ⟨lm, ⟨hm, hd⟩, rfl⟩
    exact ⟨lm, hm, hd, rfl⟩
  · rintro ⟨lm, hm, hd, rfl⟩
    exact ⟨lm, ⟨hm, hd⟩, rfl⟩

/-- Claim C18: for a particle `p`, `updateWeights` builds from the observations
a new list of the same length and order, whose entry for the observation
`(ox, oy)` is `(cos theta * ox - sin theta * oy + px,
sin theta * ox + cos theta * oy + py)` with the observation's id; the
association and the weight are computed on this copy, and the observations
given by the caller are only read. -/
theorem transObs_spec {R : Type} [LinearOrderedField R] (cos sin exp sqrt : R → R) (pi : R)
    (sensor_range : R) (std_landmark : R × R) (observations : List (LandmarkObs R))
    (map_landmarks : Map R) (uninit : Nat → R × R) (p : Particle R) :
    transObs cos sin p.x p.y p.theta observations
      = observations.map (fun o =>
          { id := o.id
            x := cos p.theta * o.x - sin p.theta * o.y + p.x
            y := sin p.theta * o.x + cos p.theta * o.y + p.y })
    ∧ (transObs cos sin p.x p.y p.theta observations).length = observations.length
    ∧ particleWeight cos sin exp sqrt pi sensor_range std_landmark observations
        map_landmarks uninit p
      = weightLoop exp pi std_landmark
          (sensorRangePred sqrt sensor_range map_landmarks p.x p.y) uninit 0
          (dataAssociation sqrt (sensorRangePred sqrt sensor_range map_landmarks p.x p.y)
            (observations.map (fun o =>
              { id := o.id
                x := cos p.theta * o.x - sin p.theta * o.y + p.x
                y := sin p.theta * o.x + cos p.theta * o.y + p.y }))) 1 := by
  have h := transObs_eq cos sin p observations
  refine ⟨h, by rw [h, List.length_map], ?_⟩
  unfold particleWeight
  rw [h]
  rfl

/-! ## updateWeights: positive weights -/

/-- When a landmark carries the wanted id, the lookup loop ends at the same
position whatever `pred_x`, `pred_y` held before. -/
theorem lookupPred_of_exists {R : Type} (preds : List (LandmarkObs R)) (id : Int) :
    (∃ l ∈ preds, l.id = id) → ∀ u u' : R × R, lookupPred preds id u = lookupPred preds id u' := by
  induction preds with
  | nil => rintro ⟨l, hl, _⟩; cases hl
  | cons a rest ih =>
    rintro ⟨l, hl, hid⟩ u u'
    by_cases ha : a.id = id
    · simp [lookupPred, ha]
    · have hlr : l ∈ rest := by
        rcases List.mem_cons.mp hl with h | h
        · exact absurd (h ▸ hid) ha
        · exact h
      have := ih ⟨l, hlr, hid⟩ u u'
      simpa [lookupPred, ha] using this

/-- When every observation carries the id of a candidate landmark, the weight
loop does not depend on what `pred_x`, `pred_y` held when declared. -/
theorem weightLoop_uninit {R : Type} [LinearOrderedField R] (exp : R → R) (pi : R)
    (std_landmark : R × R) (preds : List (LandmarkObs R)) (uninit uninit' : Nat → R × R)
    (obs : List (LandmarkObs R)) (h : ∀ o ∈ obs, ∃ l ∈ preds, l.id = o.id) :
    ∀ (j : Nat) (weight : R),
      weightLoop exp pi std_landmark preds uninit j obs weight
        = weightLoop exp pi std_landmark preds uninit' j obs weight := by
  induction obs with
  | nil => intro j weight; rfl
  | cons o rest ih =>
    intro j weight
    simp only [weightLoop]
    rw [lookupPred_of_exists preds o.id (h o (List.mem_cons_self _ _)) (uninit j) (uninit' j)]
    exact ih (fun o' ho' => h o' (List.mem_cons_of_mem _ ho')) (j + 1) _

/-- When the observation batch is empty or the particle has a landmark in
range, its weight before normalisation does not depend on what `pred_x`,
`pred_y` held when declared. -/
theorem particleWeight_uninit {R : Type} [LinearOrderedField R] (cos sin exp sqrt : R → R)
    (pi : R) (sensor_range : R) (std_landmark : R × R) (observations : List (LandmarkObs R))
    (map_landmarks : Map R) (uninit uninit' : Nat → R × R) (p : Particle R)
    (hres : observations = []
      ∨ inRangeLandmarks sqrt sensor_range map_landmarks p.x p.y ≠ []) :
    particleWeight cos sin exp sqrt pi sensor_range std_landmark observations map_landmarks
        uninit p
      = particleWeight cos sin exp sqrt pi sensor_range std_landmark observations map_landmarks
        uninit' p := by
  unfold particleWeight
  simp only [sensorRangePred_eq]
  apply weightLoop_uninit
  intro o ho
  simp only [dataAssociation, List.mem_map] at ho
  obtain ⟨o0, ho0, rfl⟩ := ho
  rcases hres with hnil | hne
  · subst hnil
    simp [transObs] at ho0
  · obtain ⟨k, l, ⟨hk, _, _⟩, hid⟩ := nearestId_spec sqrt _ o0 hne
    exact ⟨l, List.getElem?_mem hk, hid.symm⟩

/-- With a positive `exp` and a positive `pi`, at least one particle and
positive standard deviations, the weights before normalisation are positive
and the normalised ones lie in `(0, 1]`. -/
theorem updateWeights_unit_interval {R : Type} [LinearOrderedField R] (cos sin exp sqrt : R → R)
    (pi : R) (hexp : ∀ x, 0 < exp x) (hpi : 0 < pi) (sensor_range : R) (std_landmark : R × R)
    (observations : List (LandmarkObs R)) (map_landmarks : Map R) (uninit : Nat → Nat → R × R)
    (pf : ParticleFilter R)
    (hp : pf.particles.length = pf.num_particles) (hw : pf.weights.length = pf.num_particles)
    (hn : 1 ≤ pf.num_particles) (hx : 0 < std_landmark.1) (hy : 0 < std_landmark.2)
    (hres : observations = [] ∨ ∀ p ∈ pf.particles,
      inRangeLandmarks sqrt sensor_range map_landmarks p.x p.y ≠ []) :
    (∀ w ∈ rawWeights cos sin exp sqrt pi sensor_range std_landmark
        observations map_landmarks uninit pf.particles, 0 < w)
    ∧ (∀ uninit' : Nat → Nat → R × R,
        rawWeights cos sin exp sqrt pi sensor_range std_landmark
          observations map_landmarks uninit' pf.particles
        = rawWeights cos sin exp sqrt pi sensor_range std_landmark
          observations map_landmarks uninit pf.particles)
    ∧ 0 < (rawWeights cos sin exp sqrt pi sensor_range std_landmark
        observations map_landmarks uninit pf.particles).sum
    ∧ ∃ pf', updateWeights cos sin exp sqrt pi sensor_range
          std_landmark observations map_landmarks uninit pf = some pf'
        ∧ (∀ p ∈ pf'.particles, 0 < p.weight ∧ p.weight ≤ 1)
        ∧ (∀ w ∈ pf'.weights, 0 < w ∧ w ≤ 1) := by
  have hpos : ∀ w ∈ rawWeights cos sin exp sqrt pi sensor_range
      std_landmark observations map_landmarks uninit pf.particles, 0 < w := by
    intro w hw'
    simp only [rawWeights, List.mem_mapIdx] at hw'
    obtain ⟨i, _, rfl⟩ := hw'
    exact weightLoop_pos exp pi std_landmark hexp hpi hx hy _ _ _ 0 1
      one_pos
  have hne : pf.particles ≠ [] := by
    intro h
    rw [h] at hp
    simp only [List.length_nil] at hp
    omega
  have hsum := rawWeights_sum_pos cos sin exp sqrt pi sensor_range
    std_landmark observations map_landmarks uninit pf.particles hexp hpi hx hy
    hne
  have hle : ∀ w ∈ rawWeights cos sin exp sqrt pi sensor_range
      std_landmark observations map_landmarks uninit pf.particles,
      w ≤ (rawWeights cos sin exp sqrt pi sensor_range
        std_landmark observations map_landmarks uninit pf.particles).sum :=
    List.single_le_sum (fun x hx' => le_of_lt (hpos x hx'))
  have hunit : ∀ w ∈ rawWeights cos sin exp sqrt pi sensor_range
      std_landmark observations map_landmarks uninit pf.particles,
      0 < w / (rawWeights cos sin exp sqrt pi sensor_range
        std_landmark observations map_landmarks uninit pf.particles).sum
      ∧ w / (rawWeights cos sin exp sqrt pi sensor_range
        std_landmark observations map_landmarks uninit pf.particles).sum ≤ 1 :=
    fun w hw' => ⟨div_pos (hpos w hw') hsum, (div_le_one hsum).mpr (hle w hw')⟩
  refine ⟨hpos, ?_, hsum, _, updateWeights_eq cos sin exp sqrt pi
    sensor_range std_landmark observations map_landmarks uninit pf hp hw, ?_, ?_⟩
  · intro uninit'
    simp only [rawWeights]
    apply List.ext_getElem?
    intro i
    simp only [List.getElem?_mapIdx]
    cases hpi : pf.particles[i]? with
    | none => rfl
    | some p =>
      simp only [Option.map_some', Option.some.injEq]
      apply particleWeight_uninit
      rcases hres with h | h
      · exact Or.inl h
      · exact Or.inr (h p (List.getElem?_mem hpi))
  · intro p' hp'
    simp only [List.mem_mapIdx] at hp'
    obtain ⟨i, hi, rfl⟩ := hp'
    apply hunit
    simp only [rawWeights, List.mem_mapIdx]
    exact ⟨i, hi, rfl⟩
  · intro w hw'
    simp only [List.mem_map] at hw'
    obtain ⟨w0, hw0, rfl⟩ := hw'
    exact hunit w0 hw0

/-- Claim C20: over the reals, on a filter with at least one particle whose two
vectors have `num_particles` entries, with `sx > 0`, `sy > 0` and an
observation batch that is empty or finds a landmark in range for every
particle, every weight before normalisation is positive and none depends on
what `pred_x`, `pred_y` held when declared, their sum is positive, and
`updateWeights` returns a filter in which every particle weight and every
entry of `weights` lies in `(0, 1]`. -/
theorem updateWeights_positive (sensor_range : ℝ) (std_landmark : ℝ × ℝ)
    (observations : List (LandmarkObs ℝ)) (map_landmarks : Map ℝ) (uninit : Nat → Nat → ℝ × ℝ)
    (pf : ParticleFilter ℝ)
    (hp : pf.particles.length = pf.num_particles) (hw : pf.weights.length = pf.num_particles)
    (hn : 1 ≤ pf.num_particles) (hx : 0 < std_landmark.1) (hy : 0 < std_landmark.2)
    (hres : observations = [] ∨ ∀ p ∈ pf.particles,
      inRangeLandmarks Real.sqrt sensor_range map_landmarks p.x p.y ≠ []) :
    (∀ w ∈ rawWeights Real.cos Real.sin Real.exp Real.sqrt Real.pi sensor_range std_landmark
        observations map_landmarks uninit pf.particles, 0 < w)
    ∧ (∀ uninit' : Nat → Nat → ℝ × ℝ,
        rawWeights Real.cos Real.sin Real.exp Real.sqrt Real.pi sensor_range std_landmark
          observations map_landmarks uninit' pf.particles
        = rawWeights Real.cos Real.sin Real.exp Real.sqrt Real.pi sensor_range std_landmark
          observations map_landmarks uninit pf.particles)
    ∧ 0 < (rawWeights Real.cos Real.sin Real.exp Real.sqrt Real.pi sensor_range std_landmark
        observations map_landmarks uninit pf.particles).sum
    ∧ ∃ pf', updateWeights Real.cos Real.sin Real.exp Real.sqrt Real.pi sensor_range
          std_landmark observations map_landmarks uninit pf = some pf'
        ∧ (∀ p ∈ pf'.particles, 0 < p.weight ∧ p.weight ≤ 1)
        ∧ (∀ w ∈ pf'.weights, 0 < w ∧ w ≤ 1) :=
  updateWeights_unit_interval Real.cos Real.sin Real.exp Real.sqrt Real.pi Real.exp_pos
    Real.pi_pos sensor_range std_landmark observations map_landmarks uninit pf hp hw hn hx hy
    hres

/-- The weights of C20 on the sample filter, observation and map, over the
reals: both particles have both landmarks in range. -/
theorem updateWeights_positive_witness :
    ((sampleFilter ℝ).particles.length = (sampleFilter ℝ).num_particles
      ∧ (sampleFilter ℝ).weights.length = (sampleFilter ℝ).num_particles
      ∧ 1 ≤ (sampleFilter ℝ).num_particles ∧ (0 : ℝ) < 1
      ∧ ∀ p ∈ (sampleFilter ℝ).particles,
          inRangeLandmarks Real.sqrt 50 (sampleMap ℝ) p.x p.y ≠ [])
    ∧ ∃ pf', updateWeights Real.cos Real.sin Real.exp Real.sqrt Real.pi 50 (1, 1)
          (sampleObs ℝ) (sampleMap ℝ) (fun _ _ => (0, 0)) (sampleFilter ℝ) = some pf'
        ∧ (∀ p ∈ pf'.particles, 0 < p.weight ∧ p.weight ≤ 1)
        ∧ (∀ w ∈ pf'.weights, 0 < w ∧ w ≤ 1) := by
  have hin : ∀ p ∈ (sampleFilter ℝ).particles,
      inRangeLandmarks Real.sqrt 50 (sampleMap ℝ) p.x p.y ≠ [] := by
    have h1 : dist Real.sqrt 1 0 (0 : ℝ) 0 ≤ 50 :=
      Real.sqrt_le_iff.mpr ⟨by norm_num, by norm_num⟩
    have h2 : dist Real.sqrt 1 0 (3 : ℝ) 0 ≤ 50 :=
      Real.sqrt_le_iff.mpr ⟨by norm_num, by norm_num⟩
    have hmem : ∀ p : Particle ℝ, dist Real.sqrt 1 0 p.x p.y ≤ 50 →
        ({ id := 1, x := 1, y := 0 } : LandmarkObs ℝ)
          ∈ inRangeLandmarks Real.sqrt 50 (sampleMap ℝ) p.x p.y := by
      intro p hd
      simp only [inRangeLandmarks, List.mem_map, List.mem_filter, decide_eq_true_eq]
      exact ⟨{ id_i := 1, x_f := 1, y_f := 0 }, ⟨List.mem_cons_self _ _, hd⟩, rfl⟩
    intro p hp
    simp only [sampleFilter, List.mem_cons, List.mem_singleton, List.not_mem_nil,
      or_false] at hp
    rcases hp with rfl | rfl
    · exact List.ne_nil_of_mem (hmem _ h1)
    · exact List.ne_nil_of_mem (hmem _ h2)
  exact ⟨⟨rfl, rfl, by simp [sampleFilter], one_pos, hin⟩,
    (updateWeights_positive 50 (1, 1) (sampleObs ℝ) (sampleMap ℝ) (fun _ _ => (0, 0))
      (sampleFilter ℝ) rfl rfl (by simp [sampleFilter]) one_pos one_pos (Or.inr hin)).2.2.2⟩

end KidnappedVehicle
